import Mathlib

/-!
# png2asset: tile encoder, tile library, map and metasprite assembly, palette clustering

A shallow embedding of `gbdk-support/png2asset/png2asset.cpp`.

Conventions of the embedding:

* `unsigned char` values are natural numbers; every store into an `unsigned char`
  is written with an explicit `% 256`. `char` offsets are integers wrapped into
  `[-128, 128)` by `toChar`.
* `vector<T>` is `List T`; `v[i]` is `v.getD i 0` (reads outside the vector are
  undefined in the source, the theorems below are stated for reads inside it);
  `v.push_back x` is `v ++ [x]`; a write `v[i] = x` is `v.set i x`.
* The global variables (`export_as_map`, `use_map_attributes`, `tile_h`,
  `props_default`, `flip_tiles`) are gathered in `Config`; the mutable globals
  `tiles`, `sprites`, `map`, `map_attributes` are passed and returned explicitly.
* A `for (v = a; v < b; v += s)` loop is a left fold over the list of values that
  `v` takes, in order.
* Pixel coordinates and buffer offsets are natural numbers (the 32-bit index
  arithmetic of the source is not wrapped: images are below `2^30` pixels).
-/

namespace Png2Asset

/-! ## Data model -/

/-- The macro `BIT(VALUE, INDEX)`, that is `1 & (VALUE >> INDEX)`. -/
def BIT (value index : Nat) : Nat := 1 &&& (value >>> index)

/-- The struct `Tile`: the packed bytes and the palette id. -/
structure Tile where
  data : List Nat
  pal : Nat
deriving DecidableEq, Repr

/-- The constructor `Tile(size)`: `size` zero bytes and palette 0. -/
def Tile.new (size : Nat) : Tile := ⟨List.replicate size 0, 0⟩

/-- The member `Tile::operator==`: same bytes and same palette id. -/
def Tile.eq (a b : Tile) : Bool := decide (a.data = b.data) && decide (a.pal = b.pal)

/-- The struct `PNGImage`: the pixel buffer, the dimensions and the palette bytes. -/
structure PNGImage where
  data : List Nat
  w : Nat
  h : Nat
  palette : List Nat
deriving DecidableEq, Repr

/-- The global settings of a conversion run. -/
structure Config where
  export_as_map : Bool
  use_map_attributes : Bool
  tile_h : Nat
  props_default : Nat
  flip_tiles : Bool
deriving DecidableEq, Repr

/-! ## Tile encoder -/

/-- The member `PNGImage::GetGBColor`. -/
def PNGImage.GetGBColor (img : PNGImage) (x y : Nat) : Nat :=
  img.data.getD (img.w * y + x) 0 % 4

/-- The inner loop of `ExtractGBTile` for row `j`: the final values of `l` and `h`. -/
def PNGImage.ExtractGBTile.row (img : PNGImage) (x y j : Nat) : Nat × Nat :=
  (List.range 8).foldl
    (fun (lh : Nat × Nat) i =>
      let color := img.GetGBColor (x + i) (y + j)
      ((lh.1 ||| (BIT color 0 <<< (7 - i))) % 256, (lh.2 ||| (BIT color 1 <<< (7 - i))) % 256))
    (0, 0)

/-- The outer loop of `ExtractGBTile`: the bytes of `tile.data` and the flag `all_zero`. -/
def PNGImage.ExtractGBTile.rows (img : PNGImage) (x y tile_h : Nat) (data : List Nat) :
    List Nat × Bool :=
  (List.range tile_h).foldl
    (fun (st : List Nat × Bool) j =>
      let lh := PNGImage.ExtractGBTile.row img x y j
      ((st.1.set (j * 2) lh.1).set (j * 2 + 1) lh.2, st.2 && (lh.1 == 0) && (lh.2 == 0)))
    (data, true)

/-- The member `PNGImage::ExtractGBTile`: the returned flag and the tile written through the
reference parameter. -/
def PNGImage.ExtractGBTile (cfg : Config) (img : PNGImage) (x y tile_h : Nat) (tile : Tile) :
    Bool × Tile :=
  let pal := if cfg.export_as_map && !cfg.use_map_attributes
    then img.data.getD (img.w * y + x) 0 >>> 2 else 0
  let st := PNGImage.ExtractGBTile.rows img x y tile_h tile.data
  (!st.2, ⟨st.1, pal⟩)

/-- Decoder of the two bit-planes, written from the specification of the tile format: the
2-bit index of column `i` in row `j` has bit 0 in bit `7-i` of byte `2j` and bit 1 in bit
`7-i` of byte `2j+1`. -/
def decodeTilePixel (t : Tile) (i j : Nat) : Nat :=
  BIT (t.data.getD (2 * j) 0) (7 - i) + 2 * BIT (t.data.getD (2 * j + 1) 0) (7 - i)

/-! ## Tile library -/

/-- The function `FlipH`: the byte pairs of the rows in reverse order. For an odd number of
bytes the last step of the source reads before the start of the vector; the subtraction of
the model stops at 0 there. -/
def FlipH (tile : Tile) : Tile :=
  let n := tile.data.length
  let data := (List.range ((n + 1) / 2)).foldl
    (fun (ret : List Nat) k =>
      let i := 2 * k
      (ret ++ [tile.data.getD (n - 1 - i - 1) 0]) ++ [tile.data.getD (n - 1 - i) 0])
    []
  ⟨data, tile.pal⟩

/-- The inner loop of `FlipV`: the bits of one byte in reverse order. -/
def FlipV.byte (c0 : Nat) : Nat :=
  (List.range 8).foldl (fun c1 j => (c1 ||| (BIT c0 (7 - j) <<< j)) % 256) 0

/-- The function `FlipV`: every byte bit-reversed. -/
def FlipV (tile : Tile) : Tile :=
  let data := (List.range tile.data.length).foldl
    (fun (ret : List Nat) i => ret ++ [FlipV.byte (tile.data.getD i 0)])
    []
  ⟨data, tile.pal⟩

/-- The call `find(tiles.begin(), tiles.end(), t) - tiles.begin()`: the position of the first
tile equal to `t`, or `tiles.length` for `tiles.end()`. -/
def find (tiles : List Tile) (t : Tile) : Nat :=
  tiles.findIdx (fun u => u.eq t)

/-- The function `FindTile`: `none` for `false`, `some (idx, props)` for `true` with the two
output parameters. -/
def FindTile (cfg : Config) (tiles : List Tile) (t : Tile) : Option (Nat × Nat) :=
  let it := find tiles t
  if it ≠ tiles.length then
    some (it % 256, cfg.props_default % 256)
  else if cfg.flip_tiles then
    let tile := FlipV t
    let it := find tiles tile
    if it ≠ tiles.length then
      some (it % 256, (cfg.props_default ||| (1 <<< 5)) % 256)
    else
      let tile := FlipH tile
      let it := find tiles tile
      if it ≠ tiles.length then
        some (it % 256, (cfg.props_default ||| (1 <<< 5) ||| (1 <<< 6)) % 256)
      else
        let tile := FlipV tile
        let it := find tiles tile
        if it ≠ tiles.length then
          some (it % 256, (cfg.props_default ||| (1 <<< 6)) % 256)
        else
          none
  else
    none

/-- The resolve step shared by `GetMap` and `GetMetaSprite`: `FindTile`, and on a miss
`tiles.push_back(tile); idx = (unsigned char)tiles.size() - 1; props = props_default`.
Returns the library, `idx` and `props`. -/
def resolveTile (cfg : Config) (tiles : List Tile) (tile : Tile) : List Tile × Nat × Nat :=
  match FindTile cfg tiles tile with
  | some (idx, props) => (tiles, idx, props)
  | none =>
    let tiles1 := tiles ++ [tile]
    (tiles1, (tiles1.length % 256 + 256 - 1) % 256, cfg.props_default % 256)

/-! ## Map assembler -/

/-- The values taken by `v` in `for (v = start; v < stop; v += step)`, for `step > 0`. -/
def loopVals (start stop step : Nat) : List Nat :=
  (List.range ((stop - start + step - 1) / step)).map (fun k => start + k * step)

/-- The globals written by `GetMap`: the tile library, `map` and `map_attributes`
(`none` for the null pointer). -/
structure MapState where
  tiles : List Tile
  map : List Nat
  map_attributes : Option (List Nat)
deriving DecidableEq, Repr

/-- The body of the two loops of `GetMap` for the block anchored at `(x, y)`. -/
def GetMap.cell (cfg : Config) (img : PNGImage) (st : MapState) (x y : Nat) : MapState :=
  let tile := (img.ExtractGBTile cfg x y 8 (Tile.new (8 * 2))).2
  let r := resolveTile cfg st.tiles tile
  let pos := (y / 8) * (img.w / 8) + (x / 8)
  let map := st.map.set pos r.2.1
  match st.map_attributes with
  | some attrs =>
    let pal_idx := img.data.getD (y * img.w + x) 0 >>> 2
    let props := (r.2.2 ||| pal_idx) % 256
    ⟨r.1, map, some (attrs.set pos props)⟩
  | none => ⟨r.1, map, none⟩

/-- The function `GetMap`. -/
def GetMap (cfg : Config) (img : PNGImage) (st : MapState) : MapState :=
  (loopVals 0 img.h 8).foldl
    (fun st y => (loopVals 0 img.w 8).foldl (fun st x => GetMap.cell cfg img st x y) st)
    st

/-- The block anchors visited by `GetMap`, in the order of its two loops. -/
def GetMap.cells (img : PNGImage) : List (Nat × Nat) :=
  (loopVals 0 img.h 8).flatMap (fun y => (loopVals 0 img.w 8).map (fun x => (x, y)))

/-- The loop body of `GetMap` run over a list of block anchors. -/
def GetMap.run (cfg : Config) (img : PNGImage) (st : MapState) (cs : List (Nat × Nat)) :
    MapState :=
  cs.foldl (fun st c => GetMap.cell cfg img st c.1 c.2) st

/-- The map branch of `main`: `map` and, with `use_map_attributes`, `map_attributes` are
fresh arrays of `(w * h) / 64` bytes (their initial contents `m0`, `a0` are unspecified in
the source), then `GetMap` runs on the empty tile library. -/
def mainMap (cfg : Config) (img : PNGImage) (m0 a0 : List Nat) : MapState :=
  GetMap cfg img ⟨[], m0, if cfg.use_map_attributes then some a0 else none⟩

/-! ## Sprite assembler -/

/-- Conversion of an `int` to `char`, taken as the signed 8-bit type that it is on the
targets of the tool: the value modulo 256 in `[-128, 128)`. -/
def toChar (v : Int) : Int := (v + 128) % 256 - 128

/-- The struct `MTTile`. -/
structure MTTile where
  offset_x : Int
  offset_y : Int
  offset_idx : Nat
  props : Nat
deriving DecidableEq, Repr

/-- The variables updated by the loops of `GetMetaSprite`: the tile library, the metasprite
under construction (`sprites.back()`), `last_x` and `last_y`. -/
structure SpriteState where
  tiles : List Tile
  mt_sprite : List MTTile
  last_x : Int
  last_y : Int
deriving DecidableEq, Repr

/-- The body of the two loops of `GetMetaSprite` for the block anchored at `(x, y)`. -/
def GetMetaSprite.block (cfg : Config) (img : PNGImage) (st : SpriteState) (x y : Nat) :
    SpriteState :=
  let e := img.ExtractGBTile cfg x y cfg.tile_h (Tile.new (cfg.tile_h * 2))
  if e.1 then
    let pal_idx := img.data.getD (y * img.w + x) 0 >>> 2
    let r := resolveTile cfg st.tiles e.2
    let props := (r.2.2 ||| pal_idx) % 256
    let idx := if cfg.tile_h = 16 then (r.2.1 * 2) % 256 else r.2.1
    ⟨r.1, st.mt_sprite ++ [⟨toChar (x - st.last_x), toChar (y - st.last_y), idx, props⟩], x, y⟩
  else
    st

/-- The block anchors visited by `GetMetaSprite`, in the order of the two loops. -/
def GetMetaSprite.anchors (cfg : Config) (img : PNGImage) (_x _y _w _h : Nat) :
    List (Nat × Nat) :=
  (loopVals _y (min (_y + _h) img.h) cfg.tile_h).flatMap
    (fun y => (loopVals _x (min (_x + _w) img.w) 8).map (fun x => (x, y)))

/-- The two loops of `GetMetaSprite`. -/
def GetMetaSprite.loop (cfg : Config) (img : PNGImage) (_x _y _w _h : Nat) (st : SpriteState) :
    SpriteState :=
  (loopVals _y (min (_y + _h) img.h) cfg.tile_h).foldl
    (fun st y =>
      (loopVals _x (min (_x + _w) img.w) 8).foldl
        (fun st x => GetMetaSprite.block cfg img st x y) st)
    st

/-- The loop body of `GetMetaSprite` run over a list of block anchors. -/
def GetMetaSprite.run (cfg : Config) (img : PNGImage) (st : SpriteState)
    (cs : List (Nat × Nat)) : SpriteState :=
  cs.foldl (fun st c => GetMetaSprite.block cfg img st c.1 c.2) st

/-- The anchors of the blocks of the cell that are not all-blank, in the order of the two
loops: the blocks for which `ExtractGBTile` returns true. -/
def GetMetaSprite.placed (cfg : Config) (img : PNGImage) (_x _y _w _h : Nat) :
    List (Nat × Nat) :=
  (GetMetaSprite.anchors cfg img _x _y _w _h).filter
    (fun c => (img.ExtractGBTile cfg c.1 c.2 cfg.tile_h (Tile.new (cfg.tile_h * 2))).1)

/-- The function `GetMetaSprite`: the tile library and the list `sprites` after the call. -/
def GetMetaSprite (cfg : Config) (img : PNGImage) (tiles : List Tile)
    (sprites : List (List MTTile)) (_x _y _w _h : Nat) (pivot_x pivot_y : Int) :
    List Tile × List (List MTTile) :=
  let st := GetMetaSprite.loop cfg img _x _y _w _h ⟨tiles, [], _x + pivot_x, _y + pivot_y⟩
  (st.tiles, sprites ++ [st.mt_sprite])

/-! ## Palette clusterer

Colours are the 32-bit values `R << 24 | G << 16 | B << 8 | A`. The comparator reads the
bytes of such a value through an `unsigned char*`; on the little-endian targets of the tool
byte `k` is `(c >> 8k) & 0xFF`, so byte 0 is alpha and bytes 3, 2, 1 are R, G, B.

The luminance is computed by the source in `float`. The model is exact for IEEE-754
binary32 with round-to-nearest-even after every operation: all intermediate values are
multiples of `2^-27`, and are held as natural numbers in that unit. -/

/-- Byte `k` of the 32-bit value `c` as read through `(unsigned char*)&c`. -/
def colorByte (c k : Nat) : Nat := (c >>> (8 * k)) % 256

/-- The number of low bits that binary32 drops from `n`: the least `s` with
`n / 2^s < 2^24` (at most `fuel`). -/
def f32shift : Nat → Nat → Nat
  | 0, _ => 0
  | fuel + 1, n => if n < 2 ^ 24 then 0 else f32shift fuel (n / 2) + 1

/-- Rounding of `n * 2^-27` to binary32 (24 significant bits, nearest, ties to even), for
values below `2^37` in the normal range. -/
def f32round (n : Nat) : Nat :=
  let s := f32shift 40 n
  if s = 0 then n
  else
    let q := n >>> s
    let r := n % 2 ^ s
    let half := 2 ^ (s - 1)
    let q1 := if half < r ∨ (r = half ∧ q % 2 = 1) then q + 1 else q
    q1 <<< s

/-- The literal `0.299f`, in units of `2^-27`. -/
def f32_0_299 : Nat := 10032775 * 4

/-- The literal `0.587f`, in units of `2^-27`. -/
def f32_0_587 : Nat := 9848226 * 8

/-- The literal `0.114f`, in units of `2^-27`. -/
def f32_0_114 : Nat := 15300821

/-- The expression `(unsigned int)(c[3] * 0.299f + c[2] * 0.587f + c[1] * 0.114f)`. -/
def lum (c : Nat) : Nat :=
  f32round (f32round (f32round (colorByte c 3 * f32_0_299) + f32round (colorByte c 2 * f32_0_587))
    + f32round (colorByte c 1 * f32_0_114)) >>> 27

/-- The functor `CmpIntColor`: alpha first, then descending luminance. -/
def CmpIntColor (c1 c2 : Nat) : Bool :=
  if colorByte c1 0 ≠ colorByte c2 0 then
    decide (colorByte c1 0 < colorByte c2 0)
  else
    decide (lum c2 < lum c1)

/-- The type `SetPal`, a `std::set< unsigned int, CmpIntColor >`: its elements in iteration
order. -/
abbrev SetPal := List Nat

/-- The member `SetPal::insert` for one value: a value equivalent under the comparator to an
element of the set (neither is less than the other) is not inserted. -/
def SetPal.insert : SetPal → Nat → SetPal
  | [], c => [c]
  | d :: ds, c =>
    if CmpIntColor c d then c :: d :: ds
    else if CmpIntColor d c then d :: SetPal.insert ds c
    else d :: ds

/-- The range form `s.insert(first, last)`. -/
def SetPal.insertAll (s : SetPal) (cs : List Nat) : SetPal :=
  cs.foldl SetPal.insert s

/-- The expression `std::distance(s.begin(), s.find(c))`: the position of the element
equivalent to `c`, or the size of the set for `s.end()`. -/
def SetPal.find (s : SetPal) (c : Nat) : Nat :=
  s.findIdx (fun d => !CmpIntColor c d && !CmpIntColor d c)

/-- The value `color_int` / `color32` of the pixel whose four bytes start at offset `4 * p`
of a true-colour buffer. -/
def color32 (data : List Nat) (p : Nat) : Nat :=
  ((data.getD (p * 4) 0 <<< 24) ||| (data.getD (p * 4 + 1) 0 <<< 16)
    ||| (data.getD (p * 4 + 2) 0 <<< 8) ||| data.getD (p * 4 + 3) 0) % 2 ^ 32

/-- The pixels read by `GetPaletteColors(image, x, y, w, h)`, in the order of its loops. -/
def GetPaletteColors.pixels (image : PNGImage) (x y w h : Nat) : List Nat :=
  (loopVals y (y + h) 1).flatMap
    (fun j => (loopVals x (x + w) 1).map (fun i => color32 image.data (j * image.w + i)))

/-- The function `GetPaletteColors`: the returned set. -/
def GetPaletteColors (image : PNGImage) (x y w h : Nat) : SetPal :=
  (loopVals y (y + h) 1).foldl
    (fun ret j =>
      (loopVals x (x + w) 1).foldl
        (fun ret i => SetPal.insert ret (color32 image.data (j * image.w + i))) ret)
    []

/-- The number of warnings printed by `GetPaletteColors`: one for every element of the set
other than the first whose alpha byte is not `0xFF`. -/
def GetPaletteColors.warnings (ret : SetPal) : Nat :=
  (ret.drop 1).countP (fun c => (0xFF &&& c) ≠ 0xFF)

/-- The two fatal errors of the clustering loop of `main`, both followed by `return 1`. -/
inductive ClusterError where
  | moreThan4Colors (x y : Nat)
  | moreThan8Palettes
deriving DecidableEq, Repr

/-- The loop `for(i = 0; i < palettes.size(); ++i)` of `main`, started at index `i` on the
palettes from `i` on: the updated palettes and the final value of `i`. -/
def main.findPalette : List SetPal → SetPal → Nat → List SetPal × Nat
  | [], _, i => ([], i)
  | p :: ps, pal, i =>
    let merged := SetPal.insertAll p pal
    if merged.length ≤ 4 then
      ((if p.length ≤ 4 then merged else p) :: ps, i)
    else
      let r := main.findPalette ps pal (i + 1)
      (p :: r.1, r.2)

/-- The variables of the clustering loop of `main`: `palettes` and `palettes_per_tile`. -/
structure ClusterState where
  palettes : List SetPal
  palettes_per_tile : List Nat
deriving DecidableEq, Repr

deriving instance DecidableEq for Except

/-- The body of the clustering loops of `main` for the band anchored at `(x, y)`. -/
def main.band (tile_h : Nat) (image32 : PNGImage) (st : ClusterState) (x y : Nat) :
    Except ClusterError ClusterState :=
  let pal := GetPaletteColors image32 x y 8 tile_h
  if 4 < pal.length then
    .error (.moreThan4Colors x y)
  else
    let r := main.findPalette st.palettes pal 0
    let pos := (y / tile_h) * (image32.w / 8) + (x / 8)
    if r.2 = r.1.length then
      if r.1.length = 8 then
        .error .moreThan8Palettes
      else
        .ok ⟨r.1 ++ [pal], st.palettes_per_tile.set pos r.2⟩
    else
      .ok ⟨r.1, st.palettes_per_tile.set pos r.2⟩

/-- The band anchors visited by the clustering loops of `main`, in order. -/
def main.bands (tile_h : Nat) (image32 : PNGImage) : List (Nat × Nat) :=
  (loopVals 0 image32.h tile_h).flatMap
    (fun y => (loopVals 0 image32.w 8).map (fun x => (x, y)))

/-- The clustering loops of `main` over a list of band anchors; an error stops the run. -/
def main.clusterFrom (tile_h : Nat) (image32 : PNGImage) :
    List (Nat × Nat) → ClusterState → Except ClusterError ClusterState
  | [], st => .ok st
  | (x, y) :: rest, st =>
    match main.band tile_h image32 st x y with
    | .error e => .error e
    | .ok st1 => main.clusterFrom tile_h image32 rest st1

/-- The clustering loops of `main`; `ppt0` is the unspecified initial content of the array
`palettes_per_tile`, of `(w / 8) * (h / tile_h)` entries. -/
def main.cluster (tile_h : Nat) (image32 : PNGImage) (ppt0 : List Nat) :
    Except ClusterError ClusterState :=
  main.clusterFrom tile_h image32 (main.bands tile_h image32) ⟨[], ppt0⟩

/-- The bytes that `main` writes into `image.palette` for one palette: every colour of the
set as R, G, B, A; the slots of an under-full palette are left unwritten (0 here). -/
def main.paletteBytes (pal : SetPal) : List Nat :=
  let written := pal.flatMap
    (fun c => [colorByte c 3, colorByte c 2, colorByte c 1, colorByte c 0])
  written ++ List.replicate (16 - written.length) 0

/-- The index byte that `main` pushes for the pixel `(x, y)`. -/
def main.indexAt (tile_h : Nat) (image32 : PNGImage) (st : ClusterState) (x y : Nat) : Nat :=
  let c := color32 image32.data (image32.w * y + x)
  let palette := st.palettes_per_tile.getD ((y / tile_h) * (image32.w / 8) + (x / 8)) 0 % 256
  let index := SetPal.find (st.palettes.getD palette []) c % 256
  ((palette <<< 2) + index) % 256

/-- The construction of the indexed image by `main` from the result of the clustering. -/
def main.indexed (tile_h : Nat) (image32 : PNGImage) (st : ClusterState) : PNGImage :=
  let data := (loopVals 0 image32.h 1).foldl
    (fun (data : List Nat) y =>
      (loopVals 0 image32.w 1).foldl
        (fun (data : List Nat) x => data ++ [main.indexAt tile_h image32 st x y]) data)
    []
  ⟨data, image32.w, image32.h, st.palettes.flatMap main.paletteBytes⟩

/-- The true-colour branch of `main` up to the indexed image: `.error` stands for the
`return 1` of the clustering loop. -/
def main.quantize (tile_h : Nat) (image32 : PNGImage) (ppt0 : List Nat) :
    Except ClusterError PNGImage :=
  match main.cluster tile_h image32 ppt0 with
  | .error e => .error e
  | .ok st => .ok (main.indexed tile_h image32 st)

/-- The colour `palette[index >> 2][index & 3]` of an index byte `v`, read from the palette
bytes of the indexed image as the four bytes R, G, B, A. -/
def paletteColor (image : PNGImage) (v : Nat) : List Nat :=
  let o := ((v >>> 2) * 4 + (v &&& 3)) * 4
  [image.palette.getD o 0, image.palette.getD (o + 1) 0, image.palette.getD (o + 2) 0,
    image.palette.getD (o + 3) 0]

/-- The four bytes R, G, B, A of the pixel `(x, y)` of a true-colour image. -/
def pixelRGBA (image32 : PNGImage) (x y : Nat) : List Nat :=
  let o := (image32.w * y + x) * 4
  [image32.data.getD o 0, image32.data.getD (o + 1) 0, image32.data.getD (o + 2) 0,
    image32.data.getD (o + 3) 0]

/-! ## Predicates used in the statements -/

/-- Every byte of the tile fits an `unsigned char`, as the element type of `Tile::data`
guarantees in the source. -/
def Tile.bytes (t : Tile) : Prop := ∀ b ∈ t.data, b < 256

instance Tile.decidableBytes (t : Tile) : Decidable t.bytes := by
  unfold Tile.bytes; infer_instance

/-- The position `idx` holds the first tile of the library equal to `u`. -/
def IsFirstPos (tiles : List Tile) (u : Tile) (idx : Nat) : Prop :=
  tiles[idx]? = some u ∧ ∀ k < idx, tiles[k]? ≠ some u

instance IsFirstPos.decidable (tiles : List Tile) (u : Tile) (idx : Nat) :
    Decidable (IsFirstPos tiles u idx) := by
  unfold IsFirstPos; infer_instance

/-- The tile has `H` rows of two bytes, each byte an `unsigned char`. -/
def Tile.shaped (H : Nat) (t : Tile) : Prop := t.data.length = 2 * H ∧ t.bytes

instance Tile.decidableShaped (H : Nat) (t : Tile) : Decidable (t.shaped H) := by
  unfold Tile.shaped; infer_instance

/-- The mirror image selected by two flags: `FlipV` when `v` is set, then `FlipH` when `h`
is set. With the mirror bits of a property byte, `v` is bit 5 and `h` is bit 6. -/
def mirrorBy (v h : Bool) (u : Tile) : Tile :=
  let u1 := if v then FlipV u else u
  if h then FlipH u1 else u1

/-- The tile library after the resolve step has been run, from the empty library, on the
tiles `ts` in order. -/
def buildLibrary (cfg : Config) (ts : List Tile) : List Tile :=
  ts.foldl (fun lib t => (resolveTile cfg lib t).1) []

/-- The library invariant kept by the resolve step under mirror matching: all tiles have
`H` rows, and no tile is a mirror image of another one. -/
def Canonical (H : Nat) (lib : List Tile) : Prop :=
  (∀ u ∈ lib, u.shaped H) ∧
  lib.Pairwise (fun u w => ∀ v h, w ≠ mirrorBy v h u ∧ u ≠ mirrorBy v h w)

/-- The delta chain of a list of positions, written from the specification of the sprite
format: every position minus the one before it, the first one minus `start`. -/
def deltaChain : Int × Int → List (Nat × Nat) → List (Int × Int)
  | _, [] => []
  | start, p :: ps => ((p.1 : Int) - start.1, (p.2 : Int) - start.2) :: deltaChain (p.1, p.2) ps

/-- The sum of the first `k + 1` offsets of a chain, added to `start`. -/
def chainPosition (start : Int × Int) (offsets : List (Int × Int)) (k : Nat) : Int × Int :=
  (offsets.take (k + 1)).foldl (fun p d => (p.1 + d.1, p.2 + d.2)) start

/-- The pair (alpha, luminance) of a colour: `CmpIntColor` compares two colours through
this pair only. -/
def colorKey (c : Nat) : Nat × Nat := (colorByte c 0, lum c)

/-- The position of the band anchored at `b` in the array `palettes_per_tile`. -/
def main.bandPos (tile_h : Nat) (image32 : PNGImage) (b : Nat × Nat) : Nat :=
  (b.2 / tile_h) * (image32.w / 8) + (b.1 / 8)

/-- The colour `c` is the colour of a pixel of the image. -/
def IsPixel (image32 : PNGImage) (c : Nat) : Prop :=
  ∃ p, p < image32.w * image32.h ∧ c = color32 image32.data p

/-- The invariant of the clustering loop after the bands `done`: at most 8 palettes, each
of at most 4 colours, all of them colours of the image, and for every processed band the
palette recorded in `palettes_per_tile` exists and holds, for every pixel of the band, a
colour of the same alpha and luminance. -/
def ClusterInv (tile_h : Nat) (image32 : PNGImage) (done : List (Nat × Nat))
    (st : ClusterState) : Prop :=
  st.palettes.length ≤ 8
  ∧ (∀ pal ∈ st.palettes, pal.length ≤ 4 ∧ ∀ d ∈ pal, IsPixel image32 d)
  ∧ ∀ b ∈ done, ∃ i, st.palettes_per_tile[main.bandPos tile_h image32 b]? = some i
      ∧ i < st.palettes.length
      ∧ ∀ c ∈ GetPaletteColors.pixels image32 b.1 b.2 8 tile_h,
          ∃ d ∈ st.palettes.getD i [], colorKey d = colorKey c

/-! ## Concrete inputs -/

/-- Settings of a sprite run with tile height 8, mirror matching enabled. -/
def cfgSprite8 : Config := ⟨false, false, 8, 0, true⟩

/-- An 8 x 1 indexed image with the colour indices 0, 1, 2, 3, 0, 1, 2, 3. -/
def imgRow : PNGImage := ⟨[0, 1, 2, 3, 0, 1, 2, 3], 8, 1, []⟩

/-- An 8 x 8 tile with a single pixel of colour 1 in its top-left corner; its three mirror
images are all different from it. -/
def tileCorner : Tile := ⟨[0x80, 0, 0, 0, 0, 0, 0, 0, 0, 0, 0, 0, 0, 0, 0, 0], 0⟩

/-- A library of 256 different 8 x 8 tiles: tile `k` has `k` as its first byte. -/
def lib256 : List Tile :=
  (List.range 256).map (fun k => ⟨[k, 0, 0, 0, 0, 0, 0, 0, 0, 0, 0, 0, 0, 0, 0, 0], 0⟩)

/-- An 8 x 8 tile that is not in `lib256`, and none of whose mirror images is. -/
def tileSecond : Tile := ⟨[0, 1, 0, 0, 0, 0, 0, 0, 0, 0, 0, 0, 0, 0, 0, 0], 0⟩

/-- Settings of a map run without the attribute array, mirror matching enabled. -/
def cfgMap : Config := ⟨true, false, 8, 0, true⟩

/-- A 16 x 8 indexed image: colour 1 at pixel `(0, 0)`, colour 2 at pixel `(15, 0)`, colour 0
elsewhere. -/
def imgTwoBlocks : PNGImage :=
  ⟨[1, 0, 0, 0, 0, 0, 0, 0, 0, 0, 0, 0, 0, 0, 0, 2] ++ List.replicate 112 0, 16, 8, []⟩

/-- A 16 x 16 indexed image with two non-blank 8 x 8 blocks: colour 1 at pixel `(0, 0)` and
colour 2 at pixel `(8, 8)`; the blocks at `(8, 0)` and `(0, 8)` are blank. -/
def imgTwoSprites : PNGImage :=
  ⟨[1] ++ List.replicate 135 0 ++ [2] ++ List.replicate 119 0, 16, 16, []⟩

/-- An 8 x 8 true-colour image: the opaque green `(0, 130, 0)` at pixel `(1, 0)`, the opaque
red `(255, 0, 0)` everywhere else. The two colours have the luminance 76. -/
def imgRedGreen : PNGImage :=
  ⟨[255, 0, 0, 255, 0, 130, 0, 255] ++ (List.replicate 62 [255, 0, 0, 255]).flatten, 8, 8, []⟩

/-- An 8 x 8 true-colour image whose pixels take the five opaque colours `(0, 0, b)` with
`b = 0, ..., 4`, all of luminance 0. -/
def imgBlues : PNGImage :=
  ⟨(List.range 64).flatMap (fun p => [0, 0, p % 5, 255]), 8, 8, []⟩

/-- An 8 x 8 true-colour image whose pixels take the four colours `(0, 0, 0, a)` with
`a = 1, ..., 4`. -/
def imgFour : PNGImage :=
  ⟨(List.range 64).flatMap (fun p => [0, 0, 0, p % 4 + 1]), 8, 8, []⟩

/-- A 16 x 8 true-colour image of two bands: the left band (columns 0 to 7) is the opaque red
`(255, 0, 0)`, the right band (columns 8 to 15) is the opaque green `(0, 130, 0)`. The two
colours have the luminance 76. -/
def imgRedThenGreen : PNGImage :=
  ⟨(List.range 128).flatMap
      (fun p => if p % 16 < 8 then [255, 0, 0, 255] else [0, 130, 0, 255]), 16, 8, []⟩

/-- The elements of a colour set, in iteration order, are in strictly ascending order of the
comparator `CmpIntColor`. -/
def SetPal.Ordered (s : SetPal) : Prop := s.Pairwise (fun c d => CmpIntColor c d = true)

/-- The capacity of the palettes of the clustering loop: at most 8 palettes, each an ordered
set of at most 4 colours. -/
def PalettesInv (st : ClusterState) : Prop :=
  st.palettes.length ≤ 8 ∧ ∀ pal ∈ st.palettes, pal.length ≤ 4 ∧ SetPal.Ordered pal

/-- A 16 x 8 indexed image whose pixels all have the colour index 0 and the palette bits 1
(the byte 4). -/
def imgBlank : PNGImage := ⟨List.replicate 128 4, 16, 8, []⟩

/-- Settings of a sprite run with tile height 16, mirror matching enabled: the default
settings of the tool. -/
def cfgSprite16 : Config := ⟨false, false, 16, 0, true⟩

/-- A library of 128 different 8 x 16 tiles: tile `k` has `k + 1` as its second byte. -/
def lib128 : List Tile :=
  (List.range 128).map (fun k => ⟨[0, k + 1] ++ List.replicate 30 0, 0⟩)

/-- An 8 x 16 indexed image: colour 1 at pixel `(0, 0)`, colour 0 elsewhere. Its tile is not
in `lib128`, and none of the mirror images of its tile is. -/
def imgDot16 : PNGImage := ⟨[1] ++ List.replicate 127 0, 8, 16, []⟩

/-- Settings of a map run with the attribute array, mirror matching enabled. -/
def cfgMapAttr : Config := ⟨true, true, 8, 0, true⟩

/-- A 16 x 8 indexed image of two blocks with the same colour indices and the palette ids 1
and 2: colour 1 at the top-left pixel of each block (the bytes 5 and 9), colour 0 elsewhere
(the bytes 4 and 8). -/
def imgTwoPalettes : PNGImage :=
  ⟨(List.range 128).map (fun p =>
      if p = 0 then 5 else if p = 8 then 9 else if p % 16 < 8 then 4 else 8), 16, 8, []⟩

/-- Settings of a sprite run with tile height 8 and mirror matching disabled (`-noflip`). -/
def cfgNoFlip : Config := ⟨false, false, 8, 0, false⟩

/-- The resolve step run on the tiles `ts` one after another, from the library `tiles`: the
final library and the indices returned, in order. -/
def resolveSeq (cfg : Config) : List Tile → List Tile → List Tile × List Nat
  | tiles, [] => (tiles, [])
  | tiles, t :: ts =>
    let r := resolveTile cfg tiles t
    let rest := resolveSeq cfg r.1 ts
    (rest.1, r.2.1 :: rest.2)

/-- An 8 x 8 tile whose pixels all have the colour index 3: it equals its mirror images. -/
def tileFull : Tile := ⟨List.replicate 16 0xFF, 0⟩

/-- The luminance of a colour written from the specification: the weighted sum
`0.299 R + 0.587 G + 0.114 B` in exact arithmetic, truncated to an integer. -/
def lumExact (c : Nat) : Nat :=
  (299 * colorByte c 3 + 587 * colorByte c 2 + 114 * colorByte c 1) / 1000

/-- The order of a colour set written from the specification: the positions are in
ascending order of alpha, and colours of equal alpha are in descending order of luminance,
strictly for the luminance that the comparator computes and weakly for the exact one. -/
def SetPal.AlphaLumOrdered (s : SetPal) : Prop :=
  ∀ (i j c d : Nat), i < j → s[i]? = some c → s[j]? = some d →
    colorByte c 0 ≤ colorByte d 0
    ∧ (colorByte c 0 = colorByte d 0 → lum d < lum c ∧ lumExact d ≤ lumExact c)

/-- An 8 x 8 true-colour image whose pixels take, in turn, the four colours opaque black,
opaque red, opaque white and transparent black. -/
def imgTransparent : PNGImage :=
  ⟨(List.replicate 16 [0, 0, 0, 255, 255, 0, 0, 255, 255, 255, 255, 255, 0, 0, 0, 0]).flatten,
    8, 8, []⟩

/-- A 16 x 8 true-colour image of two bands: the pixels of the left band take, in turn, the
four opaque colours white, red, blue and black; the right band is the opaque green
`(0, 130, 0)`, which has the alpha and the luminance 76 of the red. -/
def imgFullThenGreen : PNGImage :=
  ⟨(List.range 128).flatMap (fun p =>
      if p % 16 < 8 then
        [[255, 255, 255, 255], [255, 0, 0, 255], [0, 0, 255, 255], [0, 0, 0, 255]].getD (p % 4) []
      else [0, 130, 0, 255]), 16, 8, []⟩

/-- An 8 x 8 true-colour image whose pixels take, in turn, the two half-transparent colours
`(255, 0, 0, 128)` and `(0, 130, 0, 128)`, of the same alpha and the same luminance 76. -/
def imgTwoTransparent : PNGImage :=
  ⟨(List.replicate 32 [255, 0, 0, 128, 0, 130, 0, 128]).flatten, 8, 8, []⟩

/-- The 8 x 1 indexed image `imgRow` with its columns reversed: the colour indices
3, 2, 1, 0, 3, 2, 1, 0. -/
def imgRowReversed : PNGImage := ⟨[3, 2, 1, 0, 3, 2, 1, 0], 8, 1, []⟩

/-- A 16 x 8 indexed image of two blocks, the second the first with its columns reversed:
colour 1 at the pixels `(0, 0)` and `(15, 0)`, colour 0 elsewhere. -/
def imgMirrorBlocks : PNGImage :=
  ⟨[1, 0, 0, 0, 0, 0, 0, 0, 0, 0, 0, 0, 0, 0, 0, 1] ++ List.replicate 112 0, 16, 8, []⟩

/-- Settings of a map run without the attribute array and without mirror matching. -/
def cfgMapNoFlip : Config := ⟨true, false, 8, 0, false⟩

/-! # Theorems -/

/-! ## Bits and bytes -/

theorem BIT_eq_toNat (v k : Nat) : BIT v k = (v.testBit k).toNat := by
  unfold BIT
  rw [Nat.one_and_eq_mod_two, Nat.testBit, Nat.one_and_eq_mod_two]
  rcases Nat.mod_two_eq_zero_or_one (v >>> k) with h | h <;> simp [h]

theorem BIT_lt_two (v k : Nat) : BIT v k < 2 := by
  rw [BIT_eq_toNat]; cases v.testBit k <;> simp

theorem BIT_eq_one_iff (v k : Nat) : BIT v k = 1 ↔ v.testBit k = true := by
  rw [BIT_eq_toNat]; cases v.testBit k <;> simp

theorem BIT_eq_of_testBit {a b k m : Nat} (h : a.testBit k = b.testBit m) : BIT a k = BIT b m := by
  rw [BIT_eq_toNat, BIT_eq_toNat, h]

theorem testBit_of_lt_two {b : Nat} (hb : b < 2) (m : Nat) :
    b.testBit m = (decide (m = 0) && decide (b = 1)) := by
  interval_cases b
  · simp
  · cases m <;> simp [Nat.testBit_succ]

/-- Bit `k` of a byte assembled by or-ing the bits `b i` at the positions `p i`. -/
theorem testBit_foldl_or (b p : Nat → Nat) (hb : ∀ i, b i < 2) (k : Nat) (hk : k < 8) :
    ∀ (is : List Nat) (l0 : Nat),
      (is.foldl (fun l i => (l ||| (b i <<< p i)) % 256) l0).testBit k
        = (l0.testBit k || is.any (fun i => decide (p i = k) && decide (b i = 1))) := by
  intro is
  induction is with
  | nil => intro l0; simp
  | cons i is ih =>
    intro l0
    rw [List.foldl_cons, ih, show (256 : Nat) = 2 ^ 8 from rfl, Nat.testBit_mod_two_pow,
      Nat.testBit_or, Nat.testBit_shiftLeft, testBit_of_lt_two (hb i), List.any_cons]
    have : (decide (k ≥ p i) && (decide (k - p i = 0) && decide (b i = 1)))
        = (decide (p i = k) && decide (b i = 1)) := by
      by_cases h1 : p i = k
      · subst h1; simp
      · by_cases h2 : p i ≤ k
        · have : ¬ (k - p i = 0) := by omega
          simp [h1, h2, this]
        · simp [h1, h2]
    rw [this]
    simp [hk, Bool.or_assoc]

theorem row_fst (img : PNGImage) (x y j : Nat) : ∀ (is : List Nat) (lh : Nat × Nat),
    (is.foldl (fun (lh : Nat × Nat) i =>
      let color := img.GetGBColor (x + i) (y + j)
      ((lh.1 ||| (BIT color 0 <<< (7 - i))) % 256, (lh.2 ||| (BIT color 1 <<< (7 - i))) % 256))
      lh)
    = (is.foldl (fun l i => (l ||| (BIT (img.GetGBColor (x + i) (y + j)) 0 <<< (7 - i))) % 256) lh.1,
       is.foldl (fun l i => (l ||| (BIT (img.GetGBColor (x + i) (y + j)) 1 <<< (7 - i))) % 256) lh.2) := by
  intro is
  induction is with
  | nil => intro lh; rfl
  | cons i is ih => intro lh; simp only [List.foldl_cons]; rw [ih]

theorem row_bits (img : PNGImage) (x y j i : Nat) (hi : i < 8) :
    BIT (PNGImage.ExtractGBTile.row img x y j).1 (7 - i) = BIT (img.GetGBColor (x + i) (y + j)) 0
    ∧ BIT (PNGImage.ExtractGBTile.row img x y j).2 (7 - i)
      = BIT (img.GetGBColor (x + i) (y + j)) 1 := by
  have key : ∀ plane, ((List.range 8).any (fun i1 => decide (7 - i1 = 7 - i)
      && decide (BIT (img.GetGBColor (x + i1) (y + j)) plane = 1)))
      = (img.GetGBColor (x + i) (y + j)).testBit plane := by
    intro plane
    rw [Bool.eq_iff_iff, List.any_eq_true, ← BIT_eq_one_iff]
    constructor
    · rintro ⟨i1, h1, h2⟩
      simp only [Bool.and_eq_true, decide_eq_true_eq, List.mem_range] at h1 h2
      have : i1 = i := by omega
      subst this; exact h2.2
    · intro h
      exact ⟨i, List.mem_range.2 hi, by simp [h]⟩
  unfold PNGImage.ExtractGBTile.row
  rw [row_fst]
  constructor
  · apply BIT_eq_of_testBit
    rw [testBit_foldl_or (fun i => BIT (img.GetGBColor (x + i) (y + j)) 0) (fun i => 7 - i)
      (fun _ => BIT_lt_two _ _) (7 - i) (by omega), key 0]
    simp
  · apply BIT_eq_of_testBit
    rw [testBit_foldl_or (fun i => BIT (img.GetGBColor (x + i) (y + j)) 1) (fun i => 7 - i)
      (fun _ => BIT_lt_two _ _) (7 - i) (by omega), key 1]
    simp

/-! ## C1: the tile encoder -/

theorem getD_set_eq (l : List Nat) (i v : Nat) (h : i < l.length) : (l.set i v).getD i 0 = v := by
  simp [List.getD_eq_getElem?_getD, List.getElem?_set, h]

theorem getD_set_ne (l : List Nat) (i k v : Nat) (h : i ≠ k) :
    (l.set i v).getD k 0 = l.getD k 0 := by
  simp [List.getD_eq_getElem?_getD, List.getElem?_set, h]

theorem rows_succ (img : PNGImage) (x y n : Nat) (data : List Nat) :
    PNGImage.ExtractGBTile.rows img x y (n + 1) data
      = ((((PNGImage.ExtractGBTile.rows img x y n data).1.set (n * 2)
            (PNGImage.ExtractGBTile.row img x y n).1).set (n * 2 + 1)
            (PNGImage.ExtractGBTile.row img x y n).2),
          (PNGImage.ExtractGBTile.rows img x y n data).2
            && ((PNGImage.ExtractGBTile.row img x y n).1 == 0)
            && ((PNGImage.ExtractGBTile.row img x y n).2 == 0)) := by
  simp [PNGImage.ExtractGBTile.rows, List.range_succ, List.foldl_append]

theorem rows_length (img : PNGImage) (x y n : Nat) (data : List Nat) :
    (PNGImage.ExtractGBTile.rows img x y n data).1.length = data.length := by
  induction n with
  | zero => simp [PNGImage.ExtractGBTile.rows]
  | succ n ih => rw [rows_succ]; simp [ih]

theorem rows_getD (img : PNGImage) (x y n : Nat) (data : List Nat) (j : Nat) (hj : j < n)
    (hlen : 2 * n ≤ data.length) :
    (PNGImage.ExtractGBTile.rows img x y n data).1.getD (2 * j) 0
        = (PNGImage.ExtractGBTile.row img x y j).1
      ∧ (PNGImage.ExtractGBTile.rows img x y n data).1.getD (2 * j + 1) 0
        = (PNGImage.ExtractGBTile.row img x y j).2 := by
  induction n with
  | zero => omega
  | succ n ih =>
    rw [rows_succ]
    have hl := rows_length img x y n data
    by_cases h : j = n
    · subst h
      constructor
      · rw [getD_set_ne _ _ _ _ (by omega), show 2 * j = j * 2 by omega, getD_set_eq _ _ _ (by omega)]
      · rw [show 2 * j + 1 = j * 2 + 1 by omega, getD_set_eq _ _ _ (by simp; omega)]
    · have ih1 := ih (by omega) (by omega)
      constructor
      · rw [getD_set_ne _ _ _ _ (by omega), getD_set_ne _ _ _ _ (by omega)]; exact ih1.1
      · rw [getD_set_ne _ _ _ _ (by omega), getD_set_ne _ _ _ _ (by omega)]; exact ih1.2

theorem decode_two_bits (c : Nat) (hc : c < 4) : BIT c 0 + 2 * BIT c 1 = c := by
  interval_cases c <;> decide

/-- C1: for an 8 x H block inside the image, `ExtractGBTile` leaves `tile.data` with its
`2 * H` bytes, and for every row `j < H` and column `i < 8` the pixel is inside the buffer,
bit `7 - i` of byte `2j` is bit 0 and bit `7 - i` of byte `2j + 1` is bit 1 of its colour
index `data[w * (y + j) + x + i] % 4`; decoding the two bit-planes gives back that index. -/
theorem ExtractGBTile_bitplanes (cfg : Config) (img : PNGImage) (x y H : Nat) (tile : Tile)
    (hlen : tile.data.length = 2 * H) (hdata : img.data.length = img.w * img.h)
    (hx : x + 8 ≤ img.w) (hy : y + H ≤ img.h) :
    (img.ExtractGBTile cfg x y H tile).2.data.length = 2 * H ∧
    ∀ j < H, ∀ i < 8, ∃ c, img.data[img.w * (y + j) + (x + i)]? = some c ∧
      BIT ((img.ExtractGBTile cfg x y H tile).2.data.getD (2 * j) 0) (7 - i) = BIT (c % 4) 0 ∧
      BIT ((img.ExtractGBTile cfg x y H tile).2.data.getD (2 * j + 1) 0) (7 - i) = BIT (c % 4) 1 ∧
      decodeTilePixel (img.ExtractGBTile cfg x y H tile).2 i j = c % 4 := by
  refine ⟨by simp [PNGImage.ExtractGBTile, rows_length, hlen], ?_⟩
  intro j hj i hi
  have hin : img.w * (y + j) + (x + i) < img.data.length := by
    rw [hdata]
    calc img.w * (y + j) + (x + i) < img.w * (y + j) + img.w := by omega
      _ = img.w * (y + j + 1) := by ring
      _ ≤ img.w * img.h := Nat.mul_le_mul_left _ (by omega)
  refine ⟨img.data[img.w * (y + j) + (x + i)], List.getElem?_eq_getElem hin, ?_⟩
  have hc : img.GetGBColor (x + i) (y + j) = img.data[img.w * (y + j) + (x + i)] % 4 := by
    simp [PNGImage.GetGBColor, List.getD_eq_getElem?_getD, List.getElem?_eq_getElem hin]
  have hg := rows_getD img x y H tile.data j hj (by omega)
  have hb := row_bits img x y j i hi
  simp only [PNGImage.ExtractGBTile, decodeTilePixel]
  rw [hg.1, hg.2, hb.1, hb.2, hc]
  exact ⟨rfl, rfl, decode_two_bits _ (Nat.mod_lt _ (by decide))⟩

/-- Witness of C1: the 8 x 1 image with the indices 0, 1, 2, 3, 0, 1, 2, 3. -/
theorem ExtractGBTile_bitplanes_witness :
    (Tile.new 2).data.length = 2 * 1 ∧ imgRow.data.length = imgRow.w * imgRow.h ∧
    0 + 8 ≤ imgRow.w ∧ 0 + 1 ≤ imgRow.h ∧
    (imgRow.ExtractGBTile cfgSprite8 0 0 1 (Tile.new 2)).2.data.length = 2 * 1 ∧
    ∀ j < 1, ∀ i < 8, ∃ c, imgRow.data[imgRow.w * (0 + j) + (0 + i)]? = some c ∧
      BIT ((imgRow.ExtractGBTile cfgSprite8 0 0 1 (Tile.new 2)).2.data.getD (2 * j) 0) (7 - i)
        = BIT (c % 4) 0 ∧
      BIT ((imgRow.ExtractGBTile cfgSprite8 0 0 1 (Tile.new 2)).2.data.getD (2 * j + 1) 0) (7 - i)
        = BIT (c % 4) 1 ∧
      decodeTilePixel (imgRow.ExtractGBTile cfgSprite8 0 0 1 (Tile.new 2)).2 i j = c % 4 :=
  ⟨by decide, by decide, by decide, by decide,
    ExtractGBTile_bitplanes cfgSprite8 imgRow 0 0 1 (Tile.new 2)
      (by decide) (by decide) (by decide) (by decide)⟩

/-- The tile of the 8 x 1 image `imgRow`: low plane `01010101`, high plane `00110011`. -/
theorem ExtractGBTile_imgRow :
    (imgRow.ExtractGBTile cfgSprite8 0 0 1 (Tile.new 2)).2.data = [0x55, 0x33] := by
  decide

/-! ## The two tile transforms -/

theorem foldl_append_singleton {α : Type} (f : Nat → α) (n : Nat) :
    (List.range n).foldl (fun (ret : List α) i => ret ++ [f i]) [] = (List.range n).map f := by
  induction n with
  | zero => rfl
  | succ n ih => simp [List.range_succ, List.foldl_append, ih]

theorem Tile.ext_data_pal {a b : Tile} (hd : a.data = b.data) (hp : a.pal = b.pal) : a = b := by
  cases a; cases b; simp_all

theorem FlipV_byte_zero : FlipV.byte 0 = 0 := by decide

theorem FlipV_data (t : Tile) : (FlipV t).data = t.data.map FlipV.byte := by
  unfold FlipV
  simp only
  rw [foldl_append_singleton (fun i => FlipV.byte (t.data.getD i 0))]
  apply List.ext_getElem
  · simp
  · intro i h1 h2
    simp at h1
    simp [List.getD_eq_getElem?_getD, List.getElem?_eq_getElem h1]

theorem FlipV_pal (t : Tile) : (FlipV t).pal = t.pal := rfl

theorem FlipV_length (t : Tile) : (FlipV t).data.length = t.data.length := by
  simp [FlipV_data]

theorem FlipV_byte_testBit (c k : Nat) (hk : k < 8) :
    (FlipV.byte c).testBit k = c.testBit (7 - k) := by
  unfold FlipV.byte
  rw [testBit_foldl_or (fun j => BIT c (7 - j)) (fun j => j) (fun _ => BIT_lt_two _ _) k hk]
  rw [Bool.eq_iff_iff]
  simp only [Nat.zero_testBit, Bool.false_or, List.any_eq_true, List.mem_range, Bool.and_eq_true,
    decide_eq_true_eq, BIT_eq_one_iff]
  constructor
  · rintro ⟨j, _, h1, h2⟩; subst h1; exact h2
  · intro h; exact ⟨k, hk, rfl, h⟩

theorem FlipV_byte_lt (c : Nat) : FlipV.byte c < 256 := by
  unfold FlipV.byte
  rw [List.range_succ, List.foldl_append]
  exact Nat.mod_lt _ (by decide)

theorem FlipV_byte_byte (c : Nat) (hc : c < 256) : FlipV.byte (FlipV.byte c) = c := by
  apply Nat.eq_of_testBit_eq
  intro k
  by_cases hk : k < 8
  · rw [FlipV_byte_testBit _ _ hk, FlipV_byte_testBit _ _ (by omega)]
    congr 1; omega
  · have h1 : FlipV.byte (FlipV.byte c) < 2 ^ k :=
      lt_of_lt_of_le (FlipV_byte_lt _) (by
        calc 256 = 2 ^ 8 := rfl
          _ ≤ 2 ^ k := Nat.pow_le_pow_right (by decide) (by omega))
    have h2 : c < 2 ^ k :=
      lt_of_lt_of_le hc (by
        calc 256 = 2 ^ 8 := rfl
          _ ≤ 2 ^ k := Nat.pow_le_pow_right (by decide) (by omega))
    rw [Nat.testBit_lt_two_pow h1, Nat.testBit_lt_two_pow h2]

theorem FlipV_bytes (t : Tile) : (FlipV t).bytes := by
  intro b hb
  rw [FlipV_data, List.mem_map] at hb
  obtain ⟨c, _, rfl⟩ := hb
  exact FlipV_byte_lt c

theorem FlipV_FlipV (t : Tile) (ht : t.bytes) : FlipV (FlipV t) = t := by
  have hd : (FlipV (FlipV t)).data = t.data := by
    rw [FlipV_data, FlipV_data, List.map_map]
    conv_rhs => rw [← List.map_id t.data]
    apply List.map_congr_left
    intro b hb
    exact FlipV_byte_byte b (ht b hb)
  exact Tile.ext_data_pal hd rfl

theorem foldl_append_pair {α : Type} (f g : Nat → α) (n : Nat) :
    (List.range n).foldl (fun (ret : List α) k => (ret ++ [f k]) ++ [g k]) []
      = (List.range n).flatMap (fun k => [f k, g k]) := by
  induction n with
  | zero => rfl
  | succ n ih =>
    rw [List.range_succ, List.foldl_append, ih]
    simp [List.flatMap_append]

theorem flatMap_pair_length {α : Type} (f g : Nat → α) (n : Nat) :
    ((List.range n).flatMap (fun k => [f k, g k])).length = 2 * n := by
  induction n with
  | zero => rfl
  | succ n ih => simp [List.range_succ, List.flatMap_append, ih]; omega

theorem flatMap_pair_getElem? {α : Type} (f g : Nat → α) (n k : Nat) (hk : k < n) :
    ((List.range n).flatMap (fun k => [f k, g k]))[2 * k]? = some (f k)
    ∧ ((List.range n).flatMap (fun k => [f k, g k]))[2 * k + 1]? = some (g k) := by
  induction n with
  | zero => omega
  | succ n ih =>
    have hl := flatMap_pair_length f g n
    simp only [List.range_succ, List.flatMap_append, List.flatMap_cons, List.flatMap_nil,
      List.append_nil]
    by_cases h : k = n
    · subst h
      constructor
      · rw [List.getElem?_append_right (by omega)]; simp [hl]
      · rw [List.getElem?_append_right (by omega)]; simp [hl]
    · have ih1 := ih (by omega)
      constructor
      · rw [List.getElem?_append_left (by omega)]; exact ih1.1
      · rw [List.getElem?_append_left (by omega)]; exact ih1.2

theorem FlipH_pal (t : Tile) : (FlipH t).pal = t.pal := rfl

theorem FlipH_length (t : Tile) (H : Nat) (h : t.data.length = 2 * H) :
    (FlipH t).data.length = 2 * H := by
  unfold FlipH
  simp only
  rw [foldl_append_pair, flatMap_pair_length, h]
  omega

theorem FlipH_getElem? (t : Tile) (H : Nat) (h : t.data.length = 2 * H) (k : Nat) (hk : k < H) :
    (FlipH t).data[2 * k]? = t.data[2 * (H - 1 - k)]?
    ∧ (FlipH t).data[2 * k + 1]? = t.data[2 * (H - 1 - k) + 1]? := by
  unfold FlipH
  simp only
  rw [foldl_append_pair, h, show (2 * H + 1) / 2 = H by omega]
  have := flatMap_pair_getElem? (fun k => t.data.getD (2 * H - 1 - 2 * k - 1) 0)
    (fun k => t.data.getD (2 * H - 1 - 2 * k) 0) H k hk
  rw [this.1, this.2]
  simp only
  have e1 : 2 * H - 1 - 2 * k - 1 = 2 * (H - 1 - k) := by omega
  have e2 : 2 * H - 1 - 2 * k = 2 * (H - 1 - k) + 1 := by omega
  rw [e1, e2]
  constructor
  · rw [List.getD_eq_getElem?_getD, List.getElem?_eq_getElem (by omega)]; rfl
  · rw [List.getD_eq_getElem?_getD, List.getElem?_eq_getElem (by omega)]; rfl

theorem list_ext_pairs {α : Type} (a b : List α) (H : Nat) (ha : a.length = 2 * H)
    (hb : b.length = 2 * H)
    (h : ∀ k < H, a[2 * k]? = b[2 * k]? ∧ a[2 * k + 1]? = b[2 * k + 1]?) : a = b := by
  apply List.ext_getElem?
  intro i
  by_cases hi : i < 2 * H
  · rcases Nat.even_or_odd' i with ⟨k, hk | hk⟩
    · subst hk; exact (h k (by omega)).1
    · subst hk; exact (h k (by omega)).2
  · rw [List.getElem?_eq_none (by omega), List.getElem?_eq_none (by omega)]

theorem FlipH_FlipH (t : Tile) (H : Nat) (h : t.data.length = 2 * H) : FlipH (FlipH t) = t := by
  refine Tile.ext_data_pal ?_ rfl
  have h1 := FlipH_length t H h
  apply list_ext_pairs _ _ H (FlipH_length _ H h1) h
  intro k hk
  have a := FlipH_getElem? (FlipH t) H h1 k hk
  have b := FlipH_getElem? t H h (H - 1 - k) (by omega)
  rw [a.1, a.2, b.1, b.2, show H - 1 - (H - 1 - k) = k by omega]
  exact ⟨rfl, rfl⟩

theorem FlipH_bytes (t : Tile) (H : Nat) (h : t.data.length = 2 * H) (ht : t.bytes) :
    (FlipH t).bytes := by
  intro b hb
  obtain ⟨i, hi, rfl⟩ := List.getElem_of_mem hb
  rw [FlipH_length t H h] at hi
  have key : ∀ j, j < 2 * H → ∀ v, t.data[j]? = some v → v < 256 := by
    intro j _ v hv
    exact ht v (List.mem_iff_getElem?.2 ⟨j, hv⟩)
  have hsome : (FlipH t).data[i]? = some (FlipH t).data[i] := List.getElem?_eq_getElem _
  rcases Nat.even_or_odd' i with ⟨k, hk | hk⟩
  · subst hk
    rw [(FlipH_getElem? t H h k (by omega)).1] at hsome
    exact key _ (by omega) _ hsome
  · subst hk
    rw [(FlipH_getElem? t H h k (by omega)).2] at hsome
    exact key _ (by omega) _ hsome

theorem FlipV_getElem? (t : Tile) (i : Nat) :
    (FlipV t).data[i]? = t.data[i]?.map FlipV.byte := by
  rw [FlipV_data, List.getElem?_map]

theorem FlipH_FlipV_comm (t : Tile) (H : Nat) (h : t.data.length = 2 * H) :
    FlipH (FlipV t) = FlipV (FlipH t) := by
  refine Tile.ext_data_pal ?_ rfl
  have hv : (FlipV t).data.length = 2 * H := by rw [FlipV_length, h]
  apply list_ext_pairs _ _ H (FlipH_length _ H hv) (by rw [FlipV_length, FlipH_length t H h])
  intro k hk
  have a := FlipH_getElem? (FlipV t) H hv k hk
  have b := FlipH_getElem? t H h k hk
  rw [a.1, a.2, FlipV_getElem?, FlipV_getElem?, FlipV_getElem?, FlipV_getElem?, b.1, b.2]
  exact ⟨rfl, rfl⟩

/-! ## The tile library: `find` and `FindTile` -/

theorem Tile.eq_iff (a b : Tile) : a.eq b = true ↔ a = b := by
  unfold Tile.eq
  constructor
  · intro h
    simp only [Bool.and_eq_true, decide_eq_true_eq] at h
    exact Tile.ext_data_pal h.1 h.2
  · rintro rfl; simp

theorem find_le (tiles : List Tile) (t : Tile) : find tiles t ≤ tiles.length :=
  List.findIdx_le_length _

theorem find_eq_length_iff (tiles : List Tile) (t : Tile) :
    find tiles t = tiles.length ↔ t ∉ tiles := by
  unfold find
  rw [List.findIdx_eq_length]
  constructor
  · intro h ht
    have := h t ht
    rw [Bool.eq_false_iff] at this
    exact this ((Tile.eq_iff t t).2 rfl)
  · intro h u hu
    rw [Bool.eq_false_iff]
    intro he
    exact h ((Tile.eq_iff u t).1 he ▸ hu)

theorem find_isFirstPos (tiles : List Tile) (t : Tile) (ht : t ∈ tiles) :
    IsFirstPos tiles t (find tiles t) := by
  have hlt : find tiles t < tiles.length :=
    lt_of_le_of_ne (find_le tiles t) (fun h => (find_eq_length_iff tiles t).1 h ht)
  constructor
  · rw [List.getElem?_eq_getElem hlt]
    have := List.findIdx_getElem (w := hlt)
    exact congrArg some ((Tile.eq_iff _ _).1 this)
  · intro k hk hsome
    have hk2 : k < tiles.length := lt_trans hk hlt
    rw [List.getElem?_eq_getElem hk2] at hsome
    have hn := List.not_of_lt_findIdx hk
    rw [Option.some.inj hsome, (Tile.eq_iff t t).2 rfl] at hn
    exact Bool.noConfusion hn

theorem IsFirstPos_unique {tiles : List Tile} {u : Tile} {i j : Nat}
    (hi : IsFirstPos tiles u i) (hj : IsFirstPos tiles u j) : i = j := by
  rcases Nat.lt_trichotomy i j with h | h | h
  · exact absurd hi.1 (hj.2 i h)
  · exact h
  · exact absurd hj.1 (hi.2 j h)

theorem find_eq_of_isFirstPos {tiles : List Tile} {u : Tile} {i : Nat}
    (hi : IsFirstPos tiles u i) : find tiles u = i :=
  IsFirstPos_unique (find_isFirstPos tiles u (List.mem_iff_getElem?.2 ⟨i, hi.1⟩)) hi

theorem find_lt_of_mem {tiles : List Tile} {u : Tile} (hu : u ∈ tiles) :
    find tiles u < tiles.length :=
  lt_of_le_of_ne (find_le tiles u) (fun h => (find_eq_length_iff tiles u).1 h hu)

theorem props_byte (pd m : Nat) (hpd : pd < 256) (hm : m < 256) : (pd ||| m) % 256 = pd ||| m :=
  Nat.mod_eq_of_lt (Nat.or_lt_two_pow (n := 8) hpd hm)

/-- The result of `FindTile` with mirror matching, by cases on the first of the four
transforms that is in the library. -/
theorem FindTile_flip_cases (cfg : Config) (tiles : List Tile) (t : Tile)
    (hflip : cfg.flip_tiles = true) :
    (t ∈ tiles → FindTile cfg tiles t = some (find tiles t % 256, cfg.props_default % 256)) ∧
    (t ∉ tiles → FlipV t ∈ tiles → FindTile cfg tiles t
      = some (find tiles (FlipV t) % 256, (cfg.props_default ||| 0x20) % 256)) ∧
    (t ∉ tiles → FlipV t ∉ tiles → FlipH (FlipV t) ∈ tiles → FindTile cfg tiles t
      = some (find tiles (FlipH (FlipV t)) % 256, (cfg.props_default ||| 0x20 ||| 0x40) % 256)) ∧
    (t ∉ tiles → FlipV t ∉ tiles → FlipH (FlipV t) ∉ tiles → FlipV (FlipH (FlipV t)) ∈ tiles →
      FindTile cfg tiles t
        = some (find tiles (FlipV (FlipH (FlipV t))) % 256, (cfg.props_default ||| 0x40) % 256)) ∧
    (t ∉ tiles → FlipV t ∉ tiles → FlipH (FlipV t) ∉ tiles → FlipV (FlipH (FlipV t)) ∉ tiles →
      FindTile cfg tiles t = none) := by
  have hin : ∀ u : Tile, u ∈ tiles → find tiles u ≠ tiles.length :=
    fun u hu h => (find_eq_length_iff tiles u).1 h hu
  have hout : ∀ u : Tile, u ∉ tiles → find tiles u = tiles.length :=
    fun u hu => (find_eq_length_iff tiles u).2 hu
  unfold FindTile
  simp only [hflip, if_true]
  refine ⟨?_, ?_, ?_, ?_, ?_⟩
  · intro h1; rw [if_pos (hin _ h1)]
  · intro h1 h2; rw [if_neg (not_not.2 (hout _ h1)), if_pos (hin _ h2)]; rfl
  · intro h1 h2 h3
    rw [if_neg (not_not.2 (hout _ h1)), if_neg (not_not.2 (hout _ h2)), if_pos (hin _ h3)]; rfl
  · intro h1 h2 h3 h4
    rw [if_neg (not_not.2 (hout _ h1)), if_neg (not_not.2 (hout _ h2)),
      if_neg (not_not.2 (hout _ h3)), if_pos (hin _ h4)]; rfl
  · intro h1 h2 h3 h4
    rw [if_neg (not_not.2 (hout _ h1)), if_neg (not_not.2 (hout _ h2)),
      if_neg (not_not.2 (hout _ h3)), if_neg (not_not.2 (hout _ h4))]

theorem find_mod_of_mem {tiles : List Tile} {u : Tile} (hlen : tiles.length ≤ 256)
    (hu : u ∈ tiles) : find tiles u % 256 = find tiles u :=
  Nat.mod_eq_of_lt (lt_of_lt_of_le (find_lt_of_mem hu) hlen)

/-! ## C2: the order of the mirror search -/

/-- C2: with mirror matching enabled (library of at most 256 tiles, default property byte),
`FindTile` tries `t`, `FlipV t`, `FlipH (FlipV t)` and `FlipV (FlipH (FlipV t))` in this
order; the first one that is in the library wins, `idx` is the position of the first library
tile equal to it and `props` is `props_default`, `props_default | 0x20`,
`props_default | 0x20 | 0x40`, `props_default | 0x40` respectively; the result is `false`
exactly when none of the four is in the library. `FlipV` bit-reverses every byte and, on
tiles of `H` rows, `FlipH` reverses the order of the rows. -/
theorem FindTile_search_order (cfg : Config) (tiles : List Tile) (t : Tile)
    (hflip : cfg.flip_tiles = true) (hlen : tiles.length ≤ 256)
    (hpd : cfg.props_default < 256) :
    (t ∈ tiles → ∃ idx, FindTile cfg tiles t = some (idx, cfg.props_default)
      ∧ IsFirstPos tiles t idx) ∧
    (t ∉ tiles → FlipV t ∈ tiles →
      ∃ idx, FindTile cfg tiles t = some (idx, cfg.props_default ||| 0x20)
        ∧ IsFirstPos tiles (FlipV t) idx) ∧
    (t ∉ tiles → FlipV t ∉ tiles → FlipH (FlipV t) ∈ tiles →
      ∃ idx, FindTile cfg tiles t = some (idx, cfg.props_default ||| 0x20 ||| 0x40)
        ∧ IsFirstPos tiles (FlipH (FlipV t)) idx) ∧
    (t ∉ tiles → FlipV t ∉ tiles → FlipH (FlipV t) ∉ tiles → FlipV (FlipH (FlipV t)) ∈ tiles →
      ∃ idx, FindTile cfg tiles t = some (idx, cfg.props_default ||| 0x40)
        ∧ IsFirstPos tiles (FlipV (FlipH (FlipV t))) idx) ∧
    (FindTile cfg tiles t = none ↔
      t ∉ tiles ∧ FlipV t ∉ tiles ∧ FlipH (FlipV t) ∉ tiles
        ∧ FlipV (FlipH (FlipV t)) ∉ tiles) ∧
    (∀ u : Tile, (FlipV u).pal = u.pal ∧ (FlipV u).data = u.data.map FlipV.byte
      ∧ ∀ c k, k < 8 → BIT (FlipV.byte c) k = BIT c (7 - k)) ∧
    (∀ (u : Tile) (H : Nat), u.data.length = 2 * H →
      (FlipH u).pal = u.pal ∧ (FlipH u).data.length = 2 * H ∧
      ∀ j < H, (FlipH u).data[2 * j]? = u.data[2 * (H - 1 - j)]?
        ∧ (FlipH u).data[2 * j + 1]? = u.data[2 * (H - 1 - j) + 1]?) := by
  obtain ⟨c1, c2, c3, c4, c5⟩ := FindTile_flip_cases cfg tiles t hflip
  have e0 : cfg.props_default % 256 = cfg.props_default := Nat.mod_eq_of_lt hpd
  have e1 := props_byte cfg.props_default 0x20 hpd (by decide)
  have e2 : (cfg.props_default ||| 0x20 ||| 0x40) % 256 = cfg.props_default ||| 0x20 ||| 0x40 :=
    Nat.mod_eq_of_lt (Nat.or_lt_two_pow (n := 8) (Nat.or_lt_two_pow (n := 8) hpd (by decide))
      (by decide))
  have e3 := props_byte cfg.props_default 0x40 hpd (by decide)
  refine ⟨?_, ?_, ?_, ?_, ?_, ?_, ?_⟩
  · intro h1
    exact ⟨_, by rw [c1 h1, find_mod_of_mem hlen h1, e0], find_isFirstPos _ _ h1⟩
  · intro h1 h2
    exact ⟨_, by rw [c2 h1 h2, find_mod_of_mem hlen h2, e1], find_isFirstPos _ _ h2⟩
  · intro h1 h2 h3
    exact ⟨_, by rw [c3 h1 h2 h3, find_mod_of_mem hlen h3, e2], find_isFirstPos _ _ h3⟩
  · intro h1 h2 h3 h4
    exact ⟨_, by rw [c4 h1 h2 h3 h4, find_mod_of_mem hlen h4, e3], find_isFirstPos _ _ h4⟩
  · constructor
    · intro hn
      by_cases h1 : t ∈ tiles
      · rw [c1 h1] at hn; exact Option.noConfusion hn
      by_cases h2 : FlipV t ∈ tiles
      · rw [c2 h1 h2] at hn; exact Option.noConfusion hn
      by_cases h3 : FlipH (FlipV t) ∈ tiles
      · rw [c3 h1 h2 h3] at hn; exact Option.noConfusion hn
      by_cases h4 : FlipV (FlipH (FlipV t)) ∈ tiles
      · rw [c4 h1 h2 h3 h4] at hn; exact Option.noConfusion hn
      exact ⟨h1, h2, h3, h4⟩
    · rintro ⟨h1, h2, h3, h4⟩
      exact c5 h1 h2 h3 h4
  · intro u
    refine ⟨rfl, FlipV_data u, ?_⟩
    intro c k hk
    exact BIT_eq_of_testBit (FlipV_byte_testBit c k hk)
  · intro u H hu
    exact ⟨rfl, FlipH_length u H hu, fun j hj => FlipH_getElem? u H hu j hj⟩

/-- Witness of C2: the library holds `tileCorner` and the candidate is its `FlipV` image, so
the second comparison matches at position 0 with `props = props_default | 0x20`. -/
theorem FindTile_search_order_witness :
    cfgSprite8.flip_tiles = true ∧ [tileCorner].length ≤ 256 ∧ cfgSprite8.props_default < 256 ∧
    ∃ idx, FindTile cfgSprite8 [tileCorner] (FlipV tileCorner)
        = some (idx, cfgSprite8.props_default ||| 0x20)
      ∧ IsFirstPos [tileCorner] (FlipV (FlipV tileCorner)) idx :=
  ⟨rfl, by decide, by decide,
    (FindTile_search_order cfgSprite8 [tileCorner] (FlipV tileCorner) rfl (by decide)
      (by decide)).2.1 (by decide) (by decide)⟩

/-- The four comparisons on the library `[tileCorner]`: the tile itself and its three mirror
images are found at position 0 with the four property values. -/
theorem FindTile_tileCorner :
    FindTile cfgSprite8 [tileCorner] tileCorner = some (0, 0x00)
    ∧ FindTile cfgSprite8 [tileCorner] (FlipV tileCorner) = some (0, 0x20)
    ∧ FindTile cfgSprite8 [tileCorner] (FlipH (FlipV tileCorner)) = some (0, 0x60)
    ∧ FindTile cfgSprite8 [tileCorner] (FlipH tileCorner) = some (0, 0x40) := by
  decide

/-! ## The mirror group on tiles -/

theorem shaped_FlipV {H : Nat} {t : Tile} (ht : t.shaped H) : (FlipV t).shaped H :=
  ⟨by rw [FlipV_length]; exact ht.1, FlipV_bytes t⟩

theorem shaped_FlipH {H : Nat} {t : Tile} (ht : t.shaped H) : (FlipH t).shaped H :=
  ⟨FlipH_length t H ht.1, FlipH_bytes t H ht.1 ht.2⟩

theorem shaped_mirrorBy {H : Nat} {t : Tile} (ht : t.shaped H) (v h : Bool) :
    (mirrorBy v h t).shaped H := by
  cases v <;> cases h <;> simp [mirrorBy, ht, shaped_FlipV, shaped_FlipH]

theorem FlipV_FlipH_FlipV {H : Nat} {t : Tile} (ht : t.shaped H) :
    FlipV (FlipH (FlipV t)) = FlipH t := by
  rw [FlipH_FlipV_comm t H ht.1, FlipV_FlipV _ (shaped_FlipH ht).2]

/-- Composition of two mirror images: the flags add up modulo 2. -/
theorem mirrorBy_mirrorBy {H : Nat} {t : Tile} (ht : t.shaped H) (a b c d : Bool) :
    mirrorBy a b (mirrorBy c d t) = mirrorBy (xor a c) (xor b d) t := by
  have vv := FlipV_FlipV t ht.2
  have hh := FlipH_FlipH t H ht.1
  have hv := FlipH_FlipV_comm t H ht.1
  have vhv := FlipV_FlipH_FlipV ht
  have hhv := FlipH_FlipH (FlipV t) H (shaped_FlipV ht).1
  have vvh := FlipV_FlipV (FlipH t) (shaped_FlipH ht).2
  cases a <;> cases b <;> cases c <;> cases d <;>
    simp [mirrorBy, vv, hh, vhv, hhv, vvh] <;> simp [← hv, vv, hh, hhv]

theorem mirrorBy_self_inverse {H : Nat} {t : Tile} (ht : t.shaped H) (a b : Bool) :
    mirrorBy a b (mirrorBy a b t) = t := by
  rw [mirrorBy_mirrorBy ht]; simp [mirrorBy]

/-- The outcome of `FindTile` with mirror matching, in terms of `mirrorBy`: a hit names a
mirror image of the candidate that is in the library, with its first position and the
mirror bits of the flags; a miss means that no mirror image is in the library. -/
theorem FindTile_flip_mirrorBy (cfg : Config) (tiles : List Tile) (t : Tile) (H : Nat)
    (hflip : cfg.flip_tiles = true) (ht : t.shaped H) :
    (∃ v h, mirrorBy v h t ∈ tiles ∧
      FindTile cfg tiles t = some (find tiles (mirrorBy v h t) % 256,
        (cfg.props_default ||| ((if v then 0x20 else 0) ||| (if h then 0x40 else 0))) % 256))
    ∨ (FindTile cfg tiles t = none ∧ ∀ v h, mirrorBy v h t ∉ tiles) := by
  obtain ⟨c1, c2, c3, c4, c5⟩ := FindTile_flip_cases cfg tiles t hflip
  have e4 := FlipV_FlipH_FlipV ht
  by_cases h1 : t ∈ tiles
  · exact Or.inl ⟨false, false, by simpa [mirrorBy] using h1, by rw [c1 h1]; simp [mirrorBy]⟩
  by_cases h2 : FlipV t ∈ tiles
  · exact Or.inl ⟨true, false, by simpa [mirrorBy] using h2, by rw [c2 h1 h2]; simp [mirrorBy]⟩
  by_cases h3 : FlipH (FlipV t) ∈ tiles
  · refine Or.inl ⟨true, true, by simpa [mirrorBy] using h3, ?_⟩
    rw [c3 h1 h2 h3, Nat.or_assoc]; simp [mirrorBy]
  by_cases h4 : FlipV (FlipH (FlipV t)) ∈ tiles
  · refine Or.inl ⟨false, true, by simpa [mirrorBy, e4] using h4, ?_⟩
    rw [c4 h1 h2 h3 h4, e4]; simp [mirrorBy]
  · refine Or.inr ⟨c5 h1 h2 h3 h4, ?_⟩
    intro v h
    rw [e4] at h4
    cases v <;> cases h <;> simp [mirrorBy, h1, h2, h3, h4]

theorem Canonical.eq_of_mirror {H : Nat} {lib : List Tile} (hc : Canonical H lib)
    {u w : Tile} (hu : u ∈ lib) (hw : w ∈ lib) {v h : Bool} (e : w = mirrorBy v h u) :
    w = u := by
  by_contra hne
  have hsym : Symmetric (fun u w : Tile => ∀ v h, w ≠ mirrorBy v h u ∧ u ≠ mirrorBy v h w) :=
    fun _ _ hr v h => ⟨(hr v h).2, (hr v h).1⟩
  exact ((hc.2.forall hsym hu hw (fun h => hne h.symm)) v h).1 e

theorem resolveTile_hit {cfg : Config} {tiles : List Tile} {t : Tile} {i p : Nat}
    (h : FindTile cfg tiles t = some (i, p)) : resolveTile cfg tiles t = (tiles, i, p) := by
  simp [resolveTile, h]

theorem resolveTile_miss {cfg : Config} {tiles : List Tile} {t : Tile}
    (h : FindTile cfg tiles t = none) :
    resolveTile cfg tiles t = (tiles ++ [t], tiles.length % 256, cfg.props_default % 256) := by
  simp only [resolveTile, h, List.length_append, List.length_singleton]
  congr 2
  omega

theorem find_append_self {tiles : List Tile} {t : Tile} (h : t ∉ tiles) :
    find (tiles ++ [t]) t = tiles.length := by
  apply find_eq_of_isFirstPos
  constructor
  · simp
  · intro k hk hs
    rw [List.getElem?_append_left hk] at hs
    exact h (List.mem_iff_getElem?.2 ⟨k, hs⟩)

theorem Canonical.resolve {cfg : Config} {H : Nat} {lib : List Tile} {t : Tile}
    (hflip : cfg.flip_tiles = true) (hc : Canonical H lib) (ht : t.shaped H) :
    Canonical H (resolveTile cfg lib t).1 := by
  rcases FindTile_flip_mirrorBy cfg lib t H hflip ht with ⟨v, h, _, hf⟩ | ⟨hf, hn⟩
  · rw [resolveTile_hit hf]; exact hc
  · rw [resolveTile_miss hf]
    refine ⟨?_, ?_⟩
    · intro u hu
      rcases List.mem_append.1 hu with h1 | h1
      · exact hc.1 u h1
      · rw [List.mem_singleton.1 h1]; exact ht
    · rw [List.pairwise_append]
      refine ⟨hc.2, List.pairwise_singleton _ _, ?_⟩
      intro u hu w hw v h
      rw [List.mem_singleton.1 hw]
      constructor
      · intro e
        apply hn v h
        rw [e, mirrorBy_self_inverse (hc.1 u hu)]
        exact hu
      · intro e
        exact hn v h (e ▸ hu)

theorem Canonical.build {cfg : Config} {H : Nat} (hflip : cfg.flip_tiles = true) :
    ∀ (ts : List Tile) (lib : List Tile), Canonical H lib → (∀ u ∈ ts, u.shaped H) →
      Canonical H (ts.foldl (fun lib t => (resolveTile cfg lib t).1) lib) := by
  intro ts
  induction ts with
  | nil => intro lib hc _; exact hc
  | cons t ts ih =>
    intro lib hc hts
    rw [List.foldl_cons]
    exact ih _ (Canonical.resolve hflip hc (hts t (List.mem_cons_self _ _)))
      (fun u hu => hts u (List.mem_cons_of_mem _ hu))

/-- In a canonical library that holds a mirror image `u` of `s`, the resolve step on `s`
returns the position of `u` and leaves the library as it is. -/
theorem Canonical.resolve_mirror {cfg : Config} {H : Nat} {lib : List Tile} {s u : Tile}
    (hflip : cfg.flip_tiles = true) (hc : Canonical H lib) (hs : s.shaped H) (hu : u ∈ lib)
    {a b : Bool} (e : u = mirrorBy a b s) :
    (resolveTile cfg lib s).1 = lib ∧ (resolveTile cfg lib s).2.1 = find lib u % 256 := by
  rcases FindTile_flip_mirrorBy cfg lib s H hflip hs with ⟨v, h, hm, hf⟩ | ⟨_, hn⟩
  · rw [resolveTile_hit hf]
    refine ⟨rfl, ?_⟩
    have e2 : mirrorBy v h s = mirrorBy (xor v a) (xor h b) u := by
      rw [e, mirrorBy_mirrorBy hs]
      simp
    rw [Canonical.eq_of_mirror hc hu hm e2]
  · exact absurd (e ▸ hu) (hn a b)

theorem Canonical.nil (H : Nat) : Canonical H [] :=
  ⟨fun _ h => absurd h (List.not_mem_nil _), List.Pairwise.nil⟩

theorem Canonical.buildLibrary {cfg : Config} {H : Nat} (hflip : cfg.flip_tiles = true)
    (ts : List Tile) (hts : ∀ u ∈ ts, u.shaped H) : Canonical H (buildLibrary cfg ts) :=
  Canonical.build hflip ts [] (Canonical.nil H) hts

/-- After the resolve step on `t` in a canonical library, every mirror image of `t` resolves
to the index returned for `t`, and the library stays as it is. -/
theorem Canonical.resolve_again {cfg : Config} {H : Nat} {lib : List Tile} {t : Tile}
    (hflip : cfg.flip_tiles = true) (hc : Canonical H lib) (ht : t.shaped H) (a b : Bool) :
    (resolveTile cfg (resolveTile cfg lib t).1 (mirrorBy a b t)).1 = (resolveTile cfg lib t).1
    ∧ (resolveTile cfg (resolveTile cfg lib t).1 (mirrorBy a b t)).2.1
        = (resolveTile cfg lib t).2.1 := by
  have hc1 := Canonical.resolve hflip hc ht
  have hs := shaped_mirrorBy ht a b
  rcases FindTile_flip_mirrorBy cfg lib t H hflip ht with ⟨v, h, hm, hf⟩ | ⟨hf, hn⟩
  · rw [resolveTile_hit hf] at hc1 ⊢
    have e : mirrorBy v h t = mirrorBy (xor v a) (xor h b) (mirrorBy a b t) := by
      rw [mirrorBy_mirrorBy ht]; simp
    exact Canonical.resolve_mirror hflip hc hs hm e
  · rw [resolveTile_miss hf] at hc1 ⊢
    have hnot : t ∉ lib := by simpa [mirrorBy] using hn false false
    have e : t = mirrorBy a b (mirrorBy a b t) := (mirrorBy_self_inverse ht a b).symm
    have := Canonical.resolve_mirror hflip hc1 hs (List.mem_append_right _ (List.mem_singleton_self t)) e
    rw [find_append_self hnot] at this
    exact this

/-! ## C3: a tile and its mirror images resolve to one index -/

/-- C3: with mirror matching enabled, in a library built from the empty library by resolve
steps over tiles of `H` rows, after the resolve step on a tile `t` of `H` rows each of `t`,
`FlipV t`, `FlipH t` and `FlipH (FlipV t)` resolves to the index returned for `t`, and the
library is not changed. -/
theorem mirrors_resolve_same_index (cfg : Config) (H : Nat) (ts : List Tile) (t : Tile)
    (hflip : cfg.flip_tiles = true) (hts : ∀ u ∈ ts, u.shaped H) (ht : t.shaped H) :
    ∀ s ∈ [t, FlipV t, FlipH t, FlipH (FlipV t)],
      (resolveTile cfg (resolveTile cfg (buildLibrary cfg ts) t).1 s).1
          = (resolveTile cfg (buildLibrary cfg ts) t).1
      ∧ (resolveTile cfg (resolveTile cfg (buildLibrary cfg ts) t).1 s).2.1
          = (resolveTile cfg (buildLibrary cfg ts) t).2.1 := by
  have hc := Canonical.buildLibrary hflip ts hts
  intro s hs
  simp only [List.mem_cons, List.mem_singleton, List.not_mem_nil, or_false] at hs
  rcases hs with rfl | rfl | rfl | rfl
  · exact Canonical.resolve_again hflip hc ht false false
  · exact Canonical.resolve_again hflip hc ht true false
  · exact Canonical.resolve_again hflip hc ht false true
  · exact Canonical.resolve_again hflip hc ht true true

/-- Witness of C3: the library built from `tileCorner` and its `FlipH` image, then the
candidate `FlipV tileCorner`. -/
theorem mirrors_resolve_same_index_witness :
    cfgSprite8.flip_tiles = true ∧ (∀ u ∈ [tileCorner, FlipH tileCorner], u.shaped 8)
    ∧ (FlipV tileCorner).shaped 8 ∧
    ∀ s ∈ [FlipV tileCorner, FlipV (FlipV tileCorner), FlipH (FlipV tileCorner),
        FlipH (FlipV (FlipV tileCorner))],
      (resolveTile cfgSprite8 (resolveTile cfgSprite8
          (buildLibrary cfgSprite8 [tileCorner, FlipH tileCorner]) (FlipV tileCorner)).1 s).1
        = (resolveTile cfgSprite8
          (buildLibrary cfgSprite8 [tileCorner, FlipH tileCorner]) (FlipV tileCorner)).1
      ∧ (resolveTile cfgSprite8 (resolveTile cfgSprite8
          (buildLibrary cfgSprite8 [tileCorner, FlipH tileCorner]) (FlipV tileCorner)).1 s).2.1
        = (resolveTile cfgSprite8
          (buildLibrary cfgSprite8 [tileCorner, FlipH tileCorner]) (FlipV tileCorner)).2.1 :=
  ⟨rfl, by decide, by decide,
    mirrors_resolve_same_index cfgSprite8 8 [tileCorner, FlipH tileCorner] (FlipV tileCorner)
      rfl (by decide) (by decide)⟩

/-! ## C4: the mirror bits name the transform -/

theorem BIT_eq_zero_iff (v k : Nat) : BIT v k = 0 ↔ v.testBit k = false := by
  rw [BIT_eq_toNat]; cases v.testBit k <;> simp

/-- Without mirror matching `FindTile` is the exact search. -/
theorem FindTile_noflip (cfg : Config) (tiles : List Tile) (t : Tile)
    (hflip : cfg.flip_tiles = false) :
    (t ∈ tiles → FindTile cfg tiles t = some (find tiles t % 256, cfg.props_default % 256)) ∧
    (t ∉ tiles → FindTile cfg tiles t = none) := by
  unfold FindTile
  constructor
  · intro h
    rw [if_pos (fun e => (find_eq_length_iff tiles t).1 e h)]
  · intro h
    rw [if_neg (not_not.2 ((find_eq_length_iff tiles t).2 h))]
    simp [hflip]

theorem mirror_bits (pd : Nat) (h5 : BIT pd 5 = 0) (h6 : BIT pd 6 = 0) (v h : Bool) :
    decide (BIT ((pd ||| ((if v then 0x20 else 0) ||| (if h then 0x40 else 0))) % 256) 5 = 1) = v
    ∧ decide (BIT ((pd ||| ((if v then 0x20 else 0) ||| (if h then 0x40 else 0))) % 256) 6 = 1)
      = h := by
  rw [BIT_eq_zero_iff] at h5 h6
  have t1 : Nat.testBit 32 5 = true := by decide
  have t2 : Nat.testBit 32 6 = false := by decide
  have t3 : Nat.testBit 64 5 = false := by decide
  have t4 : Nat.testBit 64 6 = true := by decide
  simp only [BIT_eq_one_iff, show (256 : Nat) = 2 ^ 8 from rfl, Nat.testBit_mod_two_pow,
    Nat.testBit_or, h5, h6]
  cases v <;> cases h <;> simp [t1, t2, t3, t4]

/-- C4: when `FindTile` returns true with `(idx, props)`, `props_default` has bits 5 and 6
clear, the candidate has `H` rows and the library holds at most 256 tiles, then the library
tile at `idx`, bit-reversed in every byte (`FlipV`) if bit 5 of `props` is set and with its
rows reversed (`FlipH`) if bit 6 is set, is exactly `t`; with neither bit set it is `t`. -/
theorem FindTile_props_identify (cfg : Config) (tiles : List Tile) (t : Tile)
    (idx props H : Nat) (hfind : FindTile cfg tiles t = some (idx, props))
    (h5 : BIT cfg.props_default 5 = 0) (h6 : BIT cfg.props_default 6 = 0)
    (ht : t.shaped H) (hlen : tiles.length ≤ 256) :
    ∃ u, tiles[idx]? = some u
      ∧ mirrorBy (decide (BIT props 5 = 1)) (decide (BIT props 6 = 1)) u = t
      ∧ (BIT props 5 = 0 → BIT props 6 = 0 → u = t) := by
  have key : ∃ v h, mirrorBy v h t ∈ tiles ∧
      FindTile cfg tiles t = some (find tiles (mirrorBy v h t) % 256,
        (cfg.props_default ||| ((if v then 0x20 else 0) ||| (if h then 0x40 else 0))) % 256) := by
    cases hflip : cfg.flip_tiles
    · by_cases hm : t ∈ tiles
      · exact ⟨false, false, by simpa [mirrorBy] using hm,
          by rw [(FindTile_noflip cfg tiles t hflip).1 hm]; simp [mirrorBy]⟩
      · rw [(FindTile_noflip cfg tiles t hflip).2 hm] at hfind
        exact Option.noConfusion hfind
    · rcases FindTile_flip_mirrorBy cfg tiles t H hflip ht with h | ⟨hn, _⟩
      · exact h
      · rw [hn] at hfind; exact Option.noConfusion hfind
  obtain ⟨v, h, hm, hf⟩ := key
  rw [hf] at hfind
  have hidx : find tiles (mirrorBy v h t) = idx := by
    have := congrArg (fun o => o.map Prod.fst) hfind
    simp only [Option.map_some', Option.some.injEq] at this
    rw [find_mod_of_mem hlen hm] at this
    exact this
  have hprops : props = (cfg.props_default
      ||| ((if v then 0x20 else 0) ||| (if h then 0x40 else 0))) % 256 := by
    have := congrArg (fun o => o.map Prod.snd) hfind
    simp only [Option.map_some', Option.some.injEq] at this
    exact this.symm
  have hb := mirror_bits cfg.props_default h5 h6 v h
  refine ⟨mirrorBy v h t, ?_, ?_, ?_⟩
  · rw [← hidx]; exact (find_isFirstPos tiles _ hm).1
  · rw [hprops, hb.1, hb.2]; exact mirrorBy_self_inverse ht v h
  · intro z5 z6
    rw [hprops] at z5 z6
    have e5 : v = false := by
      rw [← hb.1]; simp [z5]
    have e6 : h = false := by
      rw [← hb.2]; simp [z6]
    rw [e5, e6]; simp [mirrorBy]

/-- Witness of C4: the library holds `tileCorner` and the candidate is its row-reversed
image, found with `props = 0x40`. -/
theorem FindTile_props_identify_witness :
    FindTile cfgSprite8 [tileCorner] (FlipH tileCorner) = some (0, 0x40)
    ∧ BIT cfgSprite8.props_default 5 = 0 ∧ BIT cfgSprite8.props_default 6 = 0
    ∧ (FlipH tileCorner).shaped 8 ∧ [tileCorner].length ≤ 256
    ∧ ∃ u, [tileCorner][0]? = some u
      ∧ mirrorBy (decide (BIT 0x40 5 = 1)) (decide (BIT 0x40 6 = 1)) u = FlipH tileCorner
      ∧ (BIT 0x40 5 = 0 → BIT 0x40 6 = 0 → u = FlipH tileCorner) :=
  ⟨by decide, by decide, by decide, by decide, by decide,
    FindTile_props_identify cfgSprite8 [tileCorner] (FlipH tileCorner) 0 0x40 8
      (by decide) (by decide) (by decide) (by decide) (by decide)⟩

/-! ## C5: resolving a tile twice -/

theorem FindTile_of_mem (cfg : Config) (tiles : List Tile) (t : Tile) (h : t ∈ tiles) :
    FindTile cfg tiles t = some (find tiles t % 256, cfg.props_default % 256) := by
  unfold FindTile
  rw [if_pos (fun e => (find_eq_length_iff tiles t).1 e h)]

theorem not_mem_of_FindTile_none (cfg : Config) (tiles : List Tile) (t : Tile)
    (h : FindTile cfg tiles t = none) : t ∉ tiles := by
  intro hm
  rw [FindTile_of_mem cfg tiles t hm] at h
  exact Option.noConfusion h

theorem resolveTile_cases (cfg : Config) (tiles : List Tile) (t : Tile) :
    (∃ i p, FindTile cfg tiles t = some (i, p) ∧ resolveTile cfg tiles t = (tiles, i, p))
    ∨ (FindTile cfg tiles t = none ∧ t ∉ tiles ∧
        resolveTile cfg tiles t = (tiles ++ [t], tiles.length % 256, cfg.props_default % 256)) := by
  cases h : FindTile cfg tiles t with
  | none => exact Or.inr ⟨rfl, not_mem_of_FindTile_none cfg tiles t h, resolveTile_miss h⟩
  | some ip => exact Or.inl ⟨ip.1, ip.2, rfl, resolveTile_hit h⟩

/-- C5: for every library, every tile and either mirror-matching setting, a second resolve
step on the same tile returns the index of the first one and leaves the library (its length
and its entries) as the first one left it. -/
theorem resolveTile_idempotent (cfg : Config) (tiles : List Tile) (t : Tile) :
    (resolveTile cfg (resolveTile cfg tiles t).1 t).2.1 = (resolveTile cfg tiles t).2.1
    ∧ (resolveTile cfg (resolveTile cfg tiles t).1 t).1 = (resolveTile cfg tiles t).1
    ∧ (resolveTile cfg (resolveTile cfg tiles t).1 t).1.length
        = (resolveTile cfg tiles t).1.length := by
  rcases resolveTile_cases cfg tiles t with ⟨i, p, _, hr⟩ | ⟨_, hn, hr⟩
  · rw [hr]; simp only; rw [hr]; exact ⟨rfl, rfl, rfl⟩
  · rw [hr]; simp only
    have hm : t ∈ tiles ++ [t] := List.mem_append_right _ (List.mem_singleton_self t)
    rw [resolveTile_hit (FindTile_of_mem cfg (tiles ++ [t]) t hm), find_append_self hn]
    exact ⟨rfl, rfl, rfl⟩

/-! ## C6: the resolve step on a miss -/

set_option maxRecDepth 1000000 in
/-- C6 fails for a library of 256 tiles: the candidate `tileSecond` is not matched, it is
appended at position 256, and the index returned is 0. -/
theorem resolveTile_miss_index_wraps :
    FindTile cfgSprite8 lib256 tileSecond = none
    ∧ lib256.length = 256
    ∧ (resolveTile cfgSprite8 lib256 tileSecond).2.1 = 0
    ∧ (resolveTile cfgSprite8 lib256 tileSecond).2.1 ≠ lib256.length := by
  decide

/-- C6, amended: for a library of fewer than 256 tiles and a default property byte, when
`FindTile` does not match the candidate the resolve step appends the candidate unchanged as
the last entry, leaves every earlier entry at its position, and returns the library size
before the append as index and `props_default` as props. -/
theorem resolveTile_miss_appends (cfg : Config) (tiles : List Tile) (t : Tile)
    (hmiss : FindTile cfg tiles t = none) (hlen : tiles.length < 256)
    (hpd : cfg.props_default < 256) :
    (resolveTile cfg tiles t).1 = tiles ++ [t]
    ∧ (resolveTile cfg tiles t).1.length = tiles.length + 1
    ∧ (resolveTile cfg tiles t).1[tiles.length]? = some t
    ∧ (∀ k < tiles.length, (resolveTile cfg tiles t).1[k]? = tiles[k]?)
    ∧ (resolveTile cfg tiles t).2.1 = tiles.length
    ∧ (resolveTile cfg tiles t).2.2 = cfg.props_default := by
  rw [resolveTile_miss hmiss]
  refine ⟨rfl, by simp, by simp, ?_, Nat.mod_eq_of_lt hlen, Nat.mod_eq_of_lt hpd⟩
  intro k hk
  exact List.getElem?_append_left hk

/-- Witness of C6, amended: the candidate `tileSecond` and the library `[tileCorner]`. -/
theorem resolveTile_miss_appends_witness :
    FindTile cfgSprite8 [tileCorner] tileSecond = none ∧ [tileCorner].length < 256
    ∧ cfgSprite8.props_default < 256
    ∧ (resolveTile cfgSprite8 [tileCorner] tileSecond).1 = [tileCorner] ++ [tileSecond]
    ∧ (resolveTile cfgSprite8 [tileCorner] tileSecond).2.1 = [tileCorner].length
    ∧ (resolveTile cfgSprite8 [tileCorner] tileSecond).2.2 = cfgSprite8.props_default :=
  ⟨by decide, by decide, by decide,
    (resolveTile_miss_appends cfgSprite8 [tileCorner] tileSecond (by decide) (by decide)
      (by decide)).1,
    (resolveTile_miss_appends cfgSprite8 [tileCorner] tileSecond (by decide) (by decide)
      (by decide)).2.2.2.2⟩

/-! ## C7: the map is written in raster order -/

theorem foldl_flatMap_map {σ α β : Type} (f : σ → β → σ) (g : α → List β) :
    ∀ (l : List α) (s : σ),
      (l.flatMap g).foldl f s = l.foldl (fun s a => (g a).foldl f s) s := by
  intro l
  induction l with
  | nil => intro s; rfl
  | cons a l ih => intro s; simp [List.flatMap_cons, List.foldl_append, ih]

theorem GetMap_eq_run (cfg : Config) (img : PNGImage) (st : MapState) :
    GetMap cfg img st = GetMap.run cfg img st (GetMap.cells img) := by
  unfold GetMap GetMap.run GetMap.cells
  rw [foldl_flatMap_map]
  congr 1
  funext s y
  rw [List.foldl_map]

theorem loopVals_zero_mul (n s : Nat) (hs : 0 < s) :
    loopVals 0 (s * n) s = (List.range n).map (fun k => k * s) := by
  unfold loopVals
  have : (s * n - 0 + s - 1) / s = n := by
    rw [Nat.sub_zero, Nat.add_sub_assoc hs, Nat.mul_comm, Nat.add_comm, Nat.add_mul_div_right _ _ hs]
    rw [Nat.div_eq_of_lt (by omega)]; omega
  rw [this]
  simp

/-- Entry `r * m + c` of a list of `n` rows of `m` entries each. -/
theorem flatMap_rows_getElem? {α : Type} (f : Nat → Nat → α) (m : Nat) :
    ∀ (n r c : Nat), r < n → c < m →
      ((List.range n).flatMap (fun r => (List.range m).map (fun c => f r c)))[r * m + c]?
        = some (f r c) := by
  intro n
  induction n with
  | zero => intro r c hr; omega
  | succ n ih =>
    intro r c hr hc
    have hlen : ((List.range n).flatMap (fun r => (List.range m).map (fun c => f r c))).length
        = n * m := by
      clear ih hr
      induction n with
      | zero => simp
      | succ n ih2 => simp [List.range_succ, List.flatMap_append, ih2, Nat.succ_mul]
    rw [List.range_succ, List.flatMap_append]
    by_cases h : r = n
    · subst h
      rw [List.getElem?_append_right (by omega), hlen]
      simp [hc]
    · have hr2 : r < n := by omega
      have : r * m + c < n * m := by
        calc r * m + c < r * m + m := by omega
          _ = (r + 1) * m := by ring
          _ ≤ n * m := Nat.mul_le_mul_right _ hr2
      rw [List.getElem?_append_left (by omega)]
      exact ih r c hr2 hc

theorem flatMap_rows_length {α : Type} (f : Nat → Nat → α) (m n : Nat) :
    ((List.range n).flatMap (fun r => (List.range m).map (fun c => f r c))).length = n * m := by
  induction n with
  | zero => simp
  | succ n ih => simp [List.range_succ, List.flatMap_append, ih, Nat.succ_mul]

theorem GetMap_cells_eq (img : PNGImage) (W Hc : Nat) (hw : img.w = 8 * W) (hh : img.h = 8 * Hc) :
    GetMap.cells img
      = (List.range Hc).flatMap (fun r => (List.range W).map (fun c => (c * 8, r * 8))) := by
  unfold GetMap.cells
  rw [hw, hh, loopVals_zero_mul _ _ (by decide), loopVals_zero_mul _ _ (by decide)]
  simp [List.flatMap_map, List.map_map, Function.comp_def]

theorem GetMap_cell_tiles (cfg : Config) (img : PNGImage) (st : MapState) (x y : Nat) :
    (GetMap.cell cfg img st x y).tiles
      = (resolveTile cfg st.tiles (img.ExtractGBTile cfg x y 8 (Tile.new (8 * 2))).2).1 := by
  unfold GetMap.cell
  cases st.map_attributes <;> rfl

theorem GetMap_cell_map (cfg : Config) (img : PNGImage) (st : MapState) (x y : Nat) :
    (GetMap.cell cfg img st x y).map
      = st.map.set ((y / 8) * (img.w / 8) + (x / 8))
        (resolveTile cfg st.tiles (img.ExtractGBTile cfg x y 8 (Tile.new (8 * 2))).2).2.1 := by
  unfold GetMap.cell
  cases st.map_attributes <;> rfl

theorem resolveTile_length_le (cfg : Config) (tiles : List Tile) (t : Tile) :
    tiles.length ≤ (resolveTile cfg tiles t).1.length := by
  rcases resolveTile_cases cfg tiles t with ⟨i, p, _, hr⟩ | ⟨_, _, hr⟩
  · rw [hr]
  · rw [hr]; simp

theorem resolveTile_index_lt (cfg : Config) (tiles : List Tile) (t : Tile) :
    (resolveTile cfg tiles t).2.1 < (resolveTile cfg tiles t).1.length := by
  cases h : FindTile cfg tiles t with
  | none =>
    rw [resolveTile_miss h]
    simp only [List.length_append, List.length_singleton]
    exact lt_of_le_of_lt (Nat.mod_le _ _) (Nat.lt_succ_self _)
  | some ip =>
    have hr := resolveTile_hit (i := ip.1) (p := ip.2) h
    rw [hr]
    simp only
    -- a hit returns the position of a library tile, reduced modulo 256
    have hpos : ∃ u, u ∈ tiles ∧ ip.1 = find tiles u % 256 := by
      unfold FindTile at h
      simp only at h
      split_ifs at h with h1 h2 h3 h4 h5
      all_goals first
        | exact ⟨_, (by
            by_contra hc
            exact absurd ((find_eq_length_iff _ _).2 hc) (by assumption)),
            (by rw [← Option.some.inj h])⟩
    obtain ⟨u, hu, e⟩ := hpos
    rw [e]
    exact lt_of_le_of_lt (Nat.mod_le _ _) (find_lt_of_mem hu)

/-- The tile that `GetMap` extracts for the block anchored at `c`. -/
theorem GetMap_run_snoc (cfg : Config) (img : PNGImage) (st : MapState) (cs : List (Nat × Nat))
    (c : Nat × Nat) :
    GetMap.run cfg img st (cs ++ [c]) = GetMap.cell cfg img (GetMap.run cfg img st cs) c.1 c.2 := by
  simp [GetMap.run, List.foldl_append]

/-- State of `GetMap` after the first `n` blocks of a list whose `k`-th block is written at
position `k` of the map. -/
theorem GetMap_run_take (cfg : Config) (img : PNGImage) (st0 : MapState)
    (cs : List (Nat × Nat))
    (hpos : ∀ k c, cs[k]? = some c → (c.2 / 8) * (img.w / 8) + (c.1 / 8) = k)
    (hlen : cs.length ≤ st0.map.length) :
    ∀ n ≤ cs.length,
      (GetMap.run cfg img st0 (cs.take n)).map.length = st0.map.length
      ∧ st0.tiles.length ≤ (GetMap.run cfg img st0 (cs.take n)).tiles.length
      ∧ ∀ k < n, ∃ c, cs[k]? = some c
          ∧ (GetMap.run cfg img st0 (cs.take n)).map[k]?
              = some (resolveTile cfg (GetMap.run cfg img st0 (cs.take k)).tiles
                  (img.ExtractGBTile cfg c.1 c.2 8 (Tile.new (8 * 2))).2).2.1
          ∧ (resolveTile cfg (GetMap.run cfg img st0 (cs.take k)).tiles
                  (img.ExtractGBTile cfg c.1 c.2 8 (Tile.new (8 * 2))).2).2.1
              < (GetMap.run cfg img st0 (cs.take n)).tiles.length := by
  intro n
  induction n with
  | zero =>
    intro _
    refine ⟨by simp [GetMap.run], by simp [GetMap.run], ?_⟩
    intro k hk; omega
  | succ n ih =>
    intro hn
    obtain ⟨ih1, ih2, ih3⟩ := ih (by omega)
    have hn2 : n < cs.length := by omega
    have hc : cs[n]? = some cs[n] := List.getElem?_eq_getElem hn2
    have htake : cs.take (n + 1) = cs.take n ++ [cs[n]] := by
      rw [List.take_succ, hc]; rfl
    have hp := hpos n cs[n] hc
    rw [htake, GetMap_run_snoc]
    refine ⟨?_, ?_, ?_⟩
    · rw [GetMap_cell_map, List.length_set, ih1]
    · rw [GetMap_cell_tiles]
      exact le_trans ih2 (resolveTile_length_le _ _ _)
    · intro k hk
      rw [GetMap_cell_map, GetMap_cell_tiles, hp]
      by_cases hkn : k = n
      · subst hkn
        refine ⟨cs[k], hc, ?_, resolveTile_index_lt _ _ _⟩
        rw [List.getElem?_set_self (by omega)]
      · obtain ⟨c, h1, h2, h3⟩ := ih3 k (by omega)
        refine ⟨c, h1, ?_, lt_of_lt_of_le h3 (resolveTile_length_le _ _ _)⟩
        rw [List.getElem?_set_ne (by omega)]
        exact h2

/-- C7: for an indexed image whose width and height are multiples of 8, whatever the initial
content of the `(w * h) / 64` entries of `map`, after `GetMap` the map still has
`(w / 8) * (h / 8)` entries and, for every cell row `r < h / 8` and column `c < w / 8`, the
cell `r * (w / 8) + c` of the raster scan is the block anchored at `(8c, 8r)`, the entry
`map[r * (w / 8) + c]` is the index that the resolve step returned for the tile of this block
on the library left by the blocks before it, and this entry is below the size of the final
library. -/
theorem GetMap_raster (cfg : Config) (img : PNGImage) (m0 a0 : List Nat) (W Hc : Nat)
    (hw : img.w = 8 * W) (hh : img.h = 8 * Hc) (_hdata : img.data.length = img.w * img.h)
    (hm0 : m0.length = (img.w * img.h) / 64) :
    (mainMap cfg img m0 a0).map.length = (img.w / 8) * (img.h / 8)
    ∧ ∀ r < img.h / 8, ∀ c < img.w / 8,
        (GetMap.cells img)[r * (img.w / 8) + c]? = some (8 * c, 8 * r)
        ∧ (mainMap cfg img m0 a0).map[r * (img.w / 8) + c]?
            = some (resolveTile cfg
                (GetMap.run cfg img ⟨[], m0, if cfg.use_map_attributes then some a0 else none⟩
                  ((GetMap.cells img).take (r * (img.w / 8) + c))).tiles
                (img.ExtractGBTile cfg (8 * c) (8 * r) 8 (Tile.new (8 * 2))).2).2.1
        ∧ (mainMap cfg img m0 a0).map.getD (r * (img.w / 8) + c) 0
            < (mainMap cfg img m0 a0).tiles.length := by
  have hW : img.w / 8 = W := by omega
  have hH : img.h / 8 = Hc := by omega
  have hcells := GetMap_cells_eq img W Hc hw hh
  have hclen : (GetMap.cells img).length = Hc * W := by
    rw [hcells, flatMap_rows_length]
  have hm : m0.length = Hc * W := by
    rw [hm0, hw, hh, show 8 * W * (8 * Hc) = Hc * W * 64 by ring]
    exact Nat.mul_div_cancel _ (by decide)
  have hget : ∀ r < Hc, ∀ c < W, (GetMap.cells img)[r * W + c]? = some (c * 8, r * 8) := by
    intro r hr c hc
    rw [hcells]
    exact flatMap_rows_getElem? (fun r c => (c * 8, r * 8)) W Hc r c hr hc
  have hpos : ∀ k c, (GetMap.cells img)[k]? = some c → (c.2 / 8) * (img.w / 8) + (c.1 / 8) = k := by
    intro k c hk
    have hk2 : k < Hc * W := by
      by_contra hcon
      rw [List.getElem?_eq_none (by omega)] at hk
      exact Option.noConfusion hk
    have hWpos : 0 < W := by
      rcases Nat.eq_zero_or_pos W with h | h
      · rw [h] at hk2; omega
      · exact h
    have hdiv : k / W < Hc := Nat.div_lt_of_lt_mul (by rw [Nat.mul_comm]; exact hk2)
    have hmod : k % W < W := Nat.mod_lt _ hWpos
    have := hget (k / W) hdiv (k % W) hmod
    rw [Nat.div_add_mod'] at this
    rw [hk] at this
    rw [Option.some.inj this, hW]
    simp only
    rw [Nat.mul_div_cancel _ (by decide), Nat.mul_div_cancel _ (by decide)]
    exact Nat.div_add_mod' k W
  have key := GetMap_run_take cfg img
    ⟨[], m0, if cfg.use_map_attributes then some a0 else none⟩ (GetMap.cells img) hpos
    (by simp only; omega) (GetMap.cells img).length (le_refl _)
  rw [List.take_length] at key
  have hfinal : mainMap cfg img m0 a0 = GetMap.run cfg img
      ⟨[], m0, if cfg.use_map_attributes then some a0 else none⟩ (GetMap.cells img) := by
    unfold mainMap; exact GetMap_eq_run _ _ _
  rw [hfinal, hW, hH]
  obtain ⟨k1, _, k3⟩ := key
  refine ⟨by rw [k1]; simp only; rw [hm, Nat.mul_comm], ?_⟩
  intro r hr c hc
  have hk : r * W + c < (GetMap.cells img).length := by
    rw [hclen]
    calc r * W + c < r * W + W := by omega
      _ = (r + 1) * W := by ring
      _ ≤ Hc * W := Nat.mul_le_mul_right _ hr
  obtain ⟨cell, h1, h2, h3⟩ := k3 (r * W + c) hk
  have hcell : cell = (8 * c, 8 * r) := by
    have := hget r hr c hc
    rw [h1] at this
    rw [Option.some.inj this, Nat.mul_comm c, Nat.mul_comm r]
  subst hcell
  refine ⟨h1, h2, ?_⟩
  rw [List.getD_eq_getElem?_getD, h2]
  exact h3

set_option maxRecDepth 100000 in
/-- Witness of C7: the 16 x 8 image `imgTwoBlocks`, with a map array that holds 7, 7 before
the call. -/
theorem GetMap_raster_witness :
    imgTwoBlocks.w = 8 * 2 ∧ imgTwoBlocks.h = 8 * 1
    ∧ imgTwoBlocks.data.length = imgTwoBlocks.w * imgTwoBlocks.h
    ∧ [7, 7].length = (imgTwoBlocks.w * imgTwoBlocks.h) / 64
    ∧ (mainMap cfgMap imgTwoBlocks [7, 7] []).map.length
        = (imgTwoBlocks.w / 8) * (imgTwoBlocks.h / 8) :=
  ⟨by decide, by decide, by decide, by decide,
    (GetMap_raster cfgMap imgTwoBlocks [7, 7] [] 2 1 (by decide) (by decide) (by decide)
      (by decide)).1⟩

set_option maxRecDepth 100000 in
/-- The map and the library of `imgTwoBlocks`: two different tiles, indices 0 and 1. -/
theorem mainMap_imgTwoBlocks :
    (mainMap cfgMap imgTwoBlocks [7, 7] []).map = [0, 1]
    ∧ (mainMap cfgMap imgTwoBlocks [7, 7] []).tiles.length = 2 := by
  decide

/-! ## C8: the delta chain of a metasprite -/

theorem GetMetaSprite_loop_eq_run (cfg : Config) (img : PNGImage) (_x _y _w _h : Nat)
    (st : SpriteState) :
    GetMetaSprite.loop cfg img _x _y _w _h st
      = GetMetaSprite.run cfg img st (GetMetaSprite.anchors cfg img _x _y _w _h) := by
  unfold GetMetaSprite.loop GetMetaSprite.run GetMetaSprite.anchors
  rw [foldl_flatMap_map]
  congr 1
  funext s y
  rw [List.foldl_map]

/-- The offsets written by the loop body over a list of anchors: the delta chain of the
non-blank blocks, every delta converted to `char`. -/
theorem GetMetaSprite_run_offsets (cfg : Config) (img : PNGImage) :
    ∀ (cs : List (Nat × Nat)) (st : SpriteState),
      (GetMetaSprite.run cfg img st cs).mt_sprite.map (fun m => (m.offset_x, m.offset_y))
        = st.mt_sprite.map (fun m => (m.offset_x, m.offset_y))
          ++ (deltaChain (st.last_x, st.last_y) (cs.filter (fun c =>
              (img.ExtractGBTile cfg c.1 c.2 cfg.tile_h (Tile.new (cfg.tile_h * 2))).1))).map
            (fun d => (toChar d.1, toChar d.2)) := by
  intro cs
  induction cs with
  | nil => intro st; simp [GetMetaSprite.run, deltaChain]
  | cons c cs ih =>
    intro st
    have hstep : GetMetaSprite.run cfg img st (c :: cs)
        = GetMetaSprite.run cfg img (GetMetaSprite.block cfg img st c.1 c.2) cs := rfl
    rw [hstep, ih]
    cases hb : (img.ExtractGBTile cfg c.1 c.2 cfg.tile_h (Tile.new (cfg.tile_h * 2))).1
    · have : GetMetaSprite.block cfg img st c.1 c.2 = st := by
        simp [GetMetaSprite.block, hb]
      rw [this, List.filter_cons_of_neg (by simp [hb])]
    · rw [List.filter_cons_of_pos (by simp [hb])]
      simp [GetMetaSprite.block, hb, deltaChain]

theorem toChar_of_fits (v : Int) (h1 : -128 ≤ v) (h2 : v ≤ 127) : toChar v = v := by
  unfold toChar; omega

/-- The running sum of a delta chain gives the positions back. -/
theorem chainPosition_deltaChain :
    ∀ (ps : List (Nat × Nat)) (start : Int × Int) (k : Nat) (p : Nat × Nat),
      ps[k]? = some p → chainPosition start (deltaChain start ps) k = ((p.1 : Int), (p.2 : Int)) := by
  intro ps
  induction ps with
  | nil => intro start k p h; simp at h
  | cons q qs ih =>
    intro start k p h
    cases k with
    | zero =>
      simp only [List.getElem?_cons_zero, Option.some.injEq] at h
      subst h
      simp [chainPosition, deltaChain]
    | succ k =>
      simp only [List.getElem?_cons_succ] at h
      have := ih ((q.1 : Int), (q.2 : Int)) k p h
      simp only [chainPosition, deltaChain, List.take_succ_cons, List.foldl_cons] at this ⊢
      rw [show start.1 + ((q.1 : Int) - start.1) = (q.1 : Int) by ring,
        show start.2 + ((q.2 : Int) - start.2) = (q.2 : Int) by ring]
      exact this

/-- C8: when the deltas of the non-blank blocks of a cell fit a signed byte, `GetMetaSprite`
appends one metasprite with one placement per non-blank 8 x tile_h block of the cell, in the
order of the raster scan; the offsets of the placements are the delta chain of the block
positions started at `(_x + pivot_x, _y + pivot_y)`, so that this point plus the sum of the
offsets up to the `k`-th one is the position of the `k`-th block. -/
theorem GetMetaSprite_delta_chain (cfg : Config) (img : PNGImage) (tiles : List Tile)
    (sprites : List (List MTTile)) (_x _y _w _h : Nat) (pivot_x pivot_y : Int)
    (hfit : ∀ d ∈ deltaChain ((_x : Int) + pivot_x, (_y : Int) + pivot_y)
        (GetMetaSprite.placed cfg img _x _y _w _h),
      -128 ≤ d.1 ∧ d.1 ≤ 127 ∧ -128 ≤ d.2 ∧ d.2 ≤ 127) :
    ∃ sp, (GetMetaSprite cfg img tiles sprites _x _y _w _h pivot_x pivot_y).2 = sprites ++ [sp]
      ∧ sp.length = (GetMetaSprite.placed cfg img _x _y _w _h).length
      ∧ sp.map (fun m => (m.offset_x, m.offset_y))
          = deltaChain ((_x : Int) + pivot_x, (_y : Int) + pivot_y)
              (GetMetaSprite.placed cfg img _x _y _w _h)
      ∧ ∀ k p, (GetMetaSprite.placed cfg img _x _y _w _h)[k]? = some p →
          chainPosition ((_x : Int) + pivot_x, (_y : Int) + pivot_y)
            (sp.map (fun m => (m.offset_x, m.offset_y))) k = ((p.1 : Int), (p.2 : Int)) := by
  have hoff := GetMetaSprite_run_offsets cfg img (GetMetaSprite.anchors cfg img _x _y _w _h)
    ⟨tiles, [], (_x : Int) + pivot_x, (_y : Int) + pivot_y⟩
  simp only [List.map_nil, List.nil_append] at hoff
  have hid : (deltaChain ((_x : Int) + pivot_x, (_y : Int) + pivot_y)
      (GetMetaSprite.placed cfg img _x _y _w _h)).map (fun d => (toChar d.1, toChar d.2))
      = deltaChain ((_x : Int) + pivot_x, (_y : Int) + pivot_y)
        (GetMetaSprite.placed cfg img _x _y _w _h) := by
    conv_rhs => rw [← List.map_id (deltaChain _ _)]
    apply List.map_congr_left
    intro d hd
    obtain ⟨h1, h2, h3, h4⟩ := hfit d hd
    rw [toChar_of_fits _ h1 h2, toChar_of_fits _ h3 h4]
    rfl
  have hchain : ((GetMetaSprite.run cfg img ⟨tiles, [], (_x : Int) + pivot_x, (_y : Int) + pivot_y⟩
      (GetMetaSprite.anchors cfg img _x _y _w _h)).mt_sprite).map
        (fun m => (m.offset_x, m.offset_y))
      = deltaChain ((_x : Int) + pivot_x, (_y : Int) + pivot_y)
          (GetMetaSprite.placed cfg img _x _y _w _h) := by
    rw [hoff]; exact hid
  have hlen : ∀ (start : Int × Int) (ps : List (Nat × Nat)),
      (deltaChain start ps).length = ps.length := by
    intro start ps
    induction ps generalizing start with
    | nil => rfl
    | cons p ps ih => simp [deltaChain, ih]
  refine ⟨_, ?_, ?_, hchain, ?_⟩
  · simp only [GetMetaSprite, GetMetaSprite_loop_eq_run]
  · have := congrArg List.length hchain
    rw [List.length_map, hlen] at this
    exact this
  · intro k p hk
    rw [hchain]
    exact chainPosition_deltaChain _ _ k p hk

set_option maxRecDepth 100000 in
/-- Witness of C8: the 16 x 16 image `imgTwoSprites` as a single cell, tile height 8,
pivot `(8, 8)`: the non-blank blocks are those at `(0, 0)` and `(8, 8)` and the two
placements have the offsets `(-8, -8)` and `(8, 8)`. -/
theorem GetMetaSprite_delta_chain_witness :
    (∀ d ∈ deltaChain (((0 : Nat) : Int) + 8, ((0 : Nat) : Int) + 8)
        (GetMetaSprite.placed cfgSprite8 imgTwoSprites 0 0 16 16),
      -128 ≤ d.1 ∧ d.1 ≤ 127 ∧ -128 ≤ d.2 ∧ d.2 ≤ 127)
    ∧ GetMetaSprite.placed cfgSprite8 imgTwoSprites 0 0 16 16 = [(0, 0), (8, 8)]
    ∧ ∃ sp, (GetMetaSprite cfgSprite8 imgTwoSprites [] [] 0 0 16 16 8 8).2 = [] ++ [sp]
      ∧ sp.length = (GetMetaSprite.placed cfgSprite8 imgTwoSprites 0 0 16 16).length
      ∧ sp.map (fun m => (m.offset_x, m.offset_y))
          = deltaChain (((0 : Nat) : Int) + 8, ((0 : Nat) : Int) + 8)
              (GetMetaSprite.placed cfgSprite8 imgTwoSprites 0 0 16 16)
      ∧ ∀ k p, (GetMetaSprite.placed cfgSprite8 imgTwoSprites 0 0 16 16)[k]? = some p →
          chainPosition (((0 : Nat) : Int) + 8, ((0 : Nat) : Int) + 8)
            (sp.map (fun m => (m.offset_x, m.offset_y))) k = ((p.1 : Int), (p.2 : Int)) :=
  ⟨by decide, by decide,
    GetMetaSprite_delta_chain cfgSprite8 imgTwoSprites [] [] 0 0 16 16 8 8 (by decide)⟩

set_option maxRecDepth 100000 in
/-- The example of the specification: `imgTwoSprites` as a single cell with tile height 8 and
pivot `(8, 8)` gives one metasprite of exactly two placements, with the offsets `(-8, -8)`
and `(8, 8)`, the tile indices 0 and 1 and the properties 0. -/
theorem GetMetaSprite_imgTwoSprites :
    (GetMetaSprite cfgSprite8 imgTwoSprites [] [] 0 0 16 16 8 8).2
      = [[⟨-8, -8, 0, 0⟩, ⟨8, 8, 1, 0⟩]] := by
  decide

/-! ## C9: the round trip of the palette clustering -/

set_option maxRecDepth 1000000 in
/-- C9 at a failing input. The image `imgRedGreen` has one 8 x 8 band with two distinct
colours, red and green, of equal alpha and equal luminance: `CmpIntColor` orders neither
before the other, the set of the band keeps red only, the clustering succeeds with the single
palette `[red]`, every pixel gets the index 0, and the colour rebuilt for the green pixel
`(1, 0)` is red. -/
theorem quantize_imgRedGreen :
    (GetPaletteColors.pixels imgRedGreen 0 0 8 8).dedup = [0x008200FF, 0xFF0000FF]
    ∧ lum 0xFF0000FF = 76 ∧ lum 0x008200FF = 76
    ∧ CmpIntColor 0xFF0000FF 0x008200FF = false ∧ CmpIntColor 0x008200FF 0xFF0000FF = false
    ∧ GetPaletteColors imgRedGreen 0 0 8 8 = [0xFF0000FF]
    ∧ main.quantize 8 imgRedGreen [0]
        = .ok ⟨List.replicate 64 0, 8, 8, [255, 0, 0, 255, 0, 0, 0, 0, 0, 0, 0, 0, 0, 0, 0, 0]⟩
    ∧ pixelRGBA imgRedGreen 1 0 = [0, 130, 0, 255]
    ∧ paletteColor ⟨List.replicate 64 0, 8, 8, [255, 0, 0, 255, 0, 0, 0, 0, 0, 0, 0, 0, 0, 0, 0, 0]⟩
        ((List.replicate 64 0).getD (8 * 0 + 1) 0) = [255, 0, 0, 255] := by
  decide

/-! ## C10: a band with five colours -/

theorem colorKey_eq_of_equiv {c d : Nat} (h1 : CmpIntColor c d = false)
    (h2 : CmpIntColor d c = false) : colorKey c = colorKey d := by
  unfold CmpIntColor at h1 h2
  unfold colorKey
  by_cases ha : colorByte c 0 = colorByte d 0
  · rw [if_neg (not_not.2 ha)] at h1
    rw [if_neg (not_not.2 ha.symm)] at h2
    simp only [decide_eq_false_iff_not, not_lt] at h1 h2
    rw [ha, Nat.le_antisymm h2 h1]
  · rw [if_pos ha] at h1
    rw [if_pos (fun e => ha e.symm)] at h2
    simp only [decide_eq_false_iff_not, not_lt] at h1 h2
    exact absurd (Nat.le_antisymm h2 h1) ha

theorem SetPal.mem_insert_of_mem {a : Nat} : ∀ (s : SetPal) (c : Nat),
    a ∈ s → a ∈ SetPal.insert s c := by
  intro s
  induction s with
  | nil => intro c h; exact absurd h (List.not_mem_nil _)
  | cons d ds ih =>
    intro c h
    unfold SetPal.insert
    split_ifs
    · exact List.mem_cons_of_mem _ h
    · rcases List.mem_cons.1 h with h | h
      · rw [h]; exact List.mem_cons_self _ _
      · exact List.mem_cons_of_mem _ (ih c h)
    · exact h

theorem SetPal.exists_key_insert : ∀ (s : SetPal) (c : Nat),
    ∃ d ∈ SetPal.insert s c, colorKey d = colorKey c := by
  intro s
  induction s with
  | nil => intro c; exact ⟨c, List.mem_singleton_self c, rfl⟩
  | cons d ds ih =>
    intro c
    unfold SetPal.insert
    split_ifs with h1 h2
    · exact ⟨c, List.mem_cons_self _ _, rfl⟩
    · obtain ⟨e, he, hk⟩ := ih c
      exact ⟨e, List.mem_cons_of_mem _ he, hk⟩
    · refine ⟨d, List.mem_cons_self _ _, ?_⟩
      exact (colorKey_eq_of_equiv (by simpa using h1) (by simpa using h2)).symm

theorem SetPal.foldl_insert_keys : ∀ (cs : List Nat) (s : SetPal),
    (∀ a ∈ s, a ∈ cs.foldl SetPal.insert s)
    ∧ ∀ c ∈ cs, ∃ d ∈ cs.foldl SetPal.insert s, colorKey d = colorKey c := by
  intro cs
  induction cs with
  | nil => intro s; exact ⟨fun a h => h, fun c h => absurd h (List.not_mem_nil _)⟩
  | cons c cs ih =>
    intro s
    obtain ⟨ih1, ih2⟩ := ih (SetPal.insert s c)
    rw [List.foldl_cons]
    refine ⟨fun a h => ih1 a (SetPal.mem_insert_of_mem s c h), ?_⟩
    intro e he
    rcases List.mem_cons.1 he with h | h
    · obtain ⟨d, hd, hk⟩ := SetPal.exists_key_insert s c
      exact ⟨d, ih1 d hd, by rw [hk, h]⟩
    · exact ih2 e h

theorem GetPaletteColors_eq_foldl (image : PNGImage) (x y w h : Nat) :
    GetPaletteColors image x y w h
      = (GetPaletteColors.pixels image x y w h).foldl SetPal.insert [] := by
  unfold GetPaletteColors GetPaletteColors.pixels
  rw [foldl_flatMap_map]
  congr 1
  funext s j
  rw [List.foldl_map]

theorem flatMap_quad_length (f : Nat → List Nat) (hf : ∀ p, (f p).length = 4) (n : Nat) :
    ((List.range n).flatMap f).length = 4 * n := by
  induction n with
  | zero => rfl
  | succ n ih => simp [List.range_succ, List.flatMap_append, ih, hf]; omega

theorem flatMap_quad_getD (f : Nat → List Nat) (hf : ∀ p, (f p).length = 4) (n p i : Nat)
    (hp : p < n) (hi : i < 4) :
    ((List.range n).flatMap f).getD (p * 4 + i) 0 = (f p).getD i 0 := by
  induction n with
  | zero => omega
  | succ n ih =>
    have hl := flatMap_quad_length f hf n
    simp only [List.range_succ, List.flatMap_append, List.flatMap_cons, List.flatMap_nil,
      List.append_nil, List.getD_eq_getElem?_getD] at ih ⊢
    by_cases h : p = n
    · subst h
      rw [List.getElem?_append_right (by omega), hl, show p * 4 + i - 4 * p = i by omega]
    · rw [List.getElem?_append_left (by omega)]
      exact ih (by omega)

/-- The colour of pixel `p` of a buffer given pixel by pixel. -/
theorem color32_flatMap (r g b a : Nat → Nat) (n p : Nat) (hp : p < n) :
    color32 ((List.range n).flatMap (fun p => [r p, g p, b p, a p])) p
      = ((r p <<< 24) ||| (g p <<< 16) ||| (b p <<< 8) ||| a p) % 2 ^ 32 := by
  have h := flatMap_quad_getD (fun p => [r p, g p, b p, a p]) (fun _ => rfl) n p
  unfold color32
  rw [show p * 4 = p * 4 + 0 by rfl, h 0 hp (by decide), h 1 hp (by decide),
    h 2 hp (by decide), h 3 hp (by decide)]
  rfl

set_option maxRecDepth 1000000 in
/-- The colour check on a band whose five distinct colours have the same alpha and the same
luminance: on `imgBlues` the set of the band keeps one colour, no error is raised and every
pixel gets the index 0. -/
theorem quantize_imgBlues :
    (GetPaletteColors.pixels imgBlues 0 0 8 8).dedup.length = 5
    ∧ ((GetPaletteColors.pixels imgBlues 0 0 8 8).map colorKey).dedup = [(255, 0)]
    ∧ GetPaletteColors imgBlues 0 0 8 8 = [0x000000FF]
    ∧ main.quantize 8 imgBlues [0]
        = .ok ⟨List.replicate 64 0, 8, 8, [0, 0, 0, 255, 0, 0, 0, 0, 0, 0, 0, 0, 0, 0, 0, 0]⟩ := by
  decide

/-! ## The clustering on images without colliding colours

The round trip that C9 states holds when no two distinct colours of the image have the same
alpha and the same luminance. -/

theorem CmpIntColor_self (c : Nat) : CmpIntColor c c = false := by
  unfold CmpIntColor
  simp

theorem SetPal.mem_insert {a : Nat} : ∀ (s : SetPal) (c : Nat),
    a ∈ SetPal.insert s c → a ∈ s ∨ a = c := by
  intro s
  induction s with
  | nil =>
    intro c h
    exact Or.inr (List.mem_singleton.1 h)
  | cons d ds ih =>
    intro c h
    unfold SetPal.insert at h
    split_ifs at h
    · rcases List.mem_cons.1 h with h | h
      · exact Or.inr h
      · exact Or.inl h
    · rcases List.mem_cons.1 h with h | h
      · exact Or.inl (h ▸ List.mem_cons_self _ _)
      · rcases ih c h with h | h
        · exact Or.inl (List.mem_cons_of_mem _ h)
        · exact Or.inr h
    · exact Or.inl h

theorem SetPal.length_le_insert : ∀ (s : SetPal) (c : Nat),
    s.length ≤ (SetPal.insert s c).length := by
  intro s
  induction s with
  | nil => intro c; simp [SetPal.insert]
  | cons d ds ih =>
    intro c
    unfold SetPal.insert
    split_ifs
    · simp
    · simp only [List.length_cons]; exact Nat.succ_le_succ (ih c)
    · exact le_refl _

theorem SetPal.mem_foldl_insert {a : Nat} : ∀ (cs : List Nat) (s : SetPal),
    a ∈ cs.foldl SetPal.insert s → a ∈ s ∨ a ∈ cs := by
  intro cs
  induction cs with
  | nil => intro s h; exact Or.inl h
  | cons c cs ih =>
    intro s h
    rw [List.foldl_cons] at h
    rcases ih _ h with h | h
    · rcases SetPal.mem_insert s c h with h | h
      · exact Or.inl h
      · exact Or.inr (h ▸ List.mem_cons_self _ _)
    · exact Or.inr (List.mem_cons_of_mem _ h)

theorem SetPal.length_le_foldl_insert : ∀ (cs : List Nat) (s : SetPal),
    s.length ≤ (cs.foldl SetPal.insert s).length := by
  intro cs
  induction cs with
  | nil => intro s; exact le_refl _
  | cons c cs ih =>
    intro s
    rw [List.foldl_cons]
    exact le_trans (SetPal.length_le_insert s c) (ih _)

/-- The position returned by `find` for a colour of the set holds a colour with the same
alpha and luminance. -/
theorem SetPal.find_spec (s : SetPal) (c : Nat) (hc : c ∈ s) :
    SetPal.find s c < s.length
    ∧ ∃ d, s[SetPal.find s c]? = some d ∧ colorKey d = colorKey c := by
  have hex : ∃ d ∈ s, (!CmpIntColor c d && !CmpIntColor d c) = true :=
    ⟨c, hc, by simp [CmpIntColor_self]⟩
  have hlt : SetPal.find s c < s.length := List.findIdx_lt_length_of_exists hex
  refine ⟨hlt, s[SetPal.find s c], List.getElem?_eq_getElem hlt, ?_⟩
  have hp := List.findIdx_getElem (w := hlt)
  simp only [Bool.and_eq_true, Bool.not_eq_true'] at hp
  exact (colorKey_eq_of_equiv hp.1 hp.2).symm

/-- The loop that looks for a palette: the palettes keep their number and their colours,
the palette at the returned position (when there is one) is the merged set, of at most four
colours, and every palette of the result is an old one or a merged set. -/
theorem findPalette_spec (pal : SetPal) : ∀ (ps : List SetPal) (i0 : Nat),
    (main.findPalette ps pal i0).1.length = ps.length
    ∧ i0 ≤ (main.findPalette ps pal i0).2
    ∧ (main.findPalette ps pal i0).2 ≤ i0 + ps.length
    ∧ (∀ k, ∀ d ∈ ps.getD k [], d ∈ (main.findPalette ps pal i0).1.getD k [])
    ∧ ((main.findPalette ps pal i0).2 < i0 + ps.length →
        ∃ p, ps[(main.findPalette ps pal i0).2 - i0]? = some p
          ∧ (main.findPalette ps pal i0).1[(main.findPalette ps pal i0).2 - i0]?
              = some (SetPal.insertAll p pal)
          ∧ (SetPal.insertAll p pal).length ≤ 4)
    ∧ (∀ q ∈ (main.findPalette ps pal i0).1,
        q ∈ ps ∨ ∃ p ∈ ps, q = SetPal.insertAll p pal ∧ (SetPal.insertAll p pal).length ≤ 4) := by
  intro ps
  induction ps with
  | nil =>
    intro i0
    simp [main.findPalette]
  | cons p ps ih =>
    intro i0
    unfold main.findPalette
    simp only
    by_cases hm : (SetPal.insertAll p pal).length ≤ 4
    · have hp4 : p.length ≤ 4 := le_trans (SetPal.length_le_foldl_insert pal p) hm
      rw [if_pos hm, if_pos hp4]
      refine ⟨rfl, le_refl _, by omega, ?_, ?_, ?_⟩
      · intro k d hd
        cases k with
        | zero =>
          simp only [List.getD_cons_zero] at hd ⊢
          exact (SetPal.foldl_insert_keys pal p).1 d hd
        | succ k => exact hd
      · intro _
        refine ⟨p, by simp, by simp, hm⟩
      · intro q hq
        rcases List.mem_cons.1 hq with h | h
        · exact Or.inr ⟨p, List.mem_cons_self _ _, h, hm⟩
        · exact Or.inl (List.mem_cons_of_mem _ h)
    · rw [if_neg hm]
      obtain ⟨h1, h2, h3, h4, h5, h6⟩ := ih (i0 + 1)
      simp only [List.length_cons]
      refine ⟨by rw [h1], by omega, by omega, ?_, ?_, ?_⟩
      · intro k d hd
        cases k with
        | zero => exact hd
        | succ k =>
          simp only [List.getD_cons_succ] at hd ⊢
          exact h4 k d hd
      · intro hlt
        obtain ⟨q, hq1, hq2, hq3⟩ := h5 (by omega)
        have e : (main.findPalette ps pal (i0 + 1)).2 - i0
            = ((main.findPalette ps pal (i0 + 1)).2 - (i0 + 1)) + 1 := by omega
        refine ⟨q, ?_, ?_, hq3⟩
        · rw [e, List.getElem?_cons_succ]; exact hq1
        · rw [e, List.getElem?_cons_succ]; exact hq2
      · intro q hq
        rcases List.mem_cons.1 hq with h | h
        · exact Or.inl (h ▸ List.mem_cons_self _ _)
        · rcases h6 q h with h | ⟨p1, hp1, e, hl⟩
          · exact Or.inl (List.mem_cons_of_mem _ h)
          · exact Or.inr ⟨p1, List.mem_cons_of_mem _ hp1, e, hl⟩

theorem GetPaletteColors_mem_pixels {image : PNGImage} {x y w h c : Nat}
    (hc : c ∈ GetPaletteColors image x y w h) : c ∈ GetPaletteColors.pixels image x y w h := by
  rw [GetPaletteColors_eq_foldl] at hc
  rcases SetPal.mem_foldl_insert _ _ hc with h | h
  · exact absurd h (List.not_mem_nil _)
  · exact h

theorem GetPaletteColors_key {image : PNGImage} {x y w h c : Nat}
    (hc : c ∈ GetPaletteColors.pixels image x y w h) :
    ∃ d ∈ GetPaletteColors image x y w h, colorKey d = colorKey c := by
  rw [GetPaletteColors_eq_foldl]
  exact (SetPal.foldl_insert_keys _ []).2 c hc

theorem insertAll_key {p pal : SetPal} {c : Nat} (hc : c ∈ pal) :
    ∃ d ∈ SetPal.insertAll p pal, colorKey d = colorKey c :=
  (SetPal.foldl_insert_keys pal p).2 c hc

/-- One band keeps the invariant of the clustering loop. -/
theorem ClusterInv.band {tile_h : Nat} {image32 : PNGImage} {done : List (Nat × Nat)}
    {st st1 : ClusterState} {x y : Nat} (hinv : ClusterInv tile_h image32 done st)
    (hstep : main.band tile_h image32 st x y = .ok st1)
    (hpos : main.bandPos tile_h image32 (x, y) < st.palettes_per_tile.length)
    (hnew : ∀ b ∈ done, main.bandPos tile_h image32 b ≠ main.bandPos tile_h image32 (x, y))
    (hpix : ∀ c ∈ GetPaletteColors.pixels image32 x y 8 tile_h, IsPixel image32 c) :
    ClusterInv tile_h image32 (done ++ [(x, y)]) st1
    ∧ st1.palettes_per_tile.length = st.palettes_per_tile.length := by
  obtain ⟨i1, i2, i3⟩ := hinv
  obtain ⟨s1, s2, s3, s4, s5, s6⟩ :=
    findPalette_spec (GetPaletteColors image32 x y 8 tile_h) st.palettes 0
  have hpalpix : ∀ d ∈ GetPaletteColors image32 x y 8 tile_h, IsPixel image32 d :=
    fun d hd => hpix d (GetPaletteColors_mem_pixels hd)
  -- the palettes returned by the search are of at most four colours, all pixels
  have hr1 : ∀ q ∈ (main.findPalette st.palettes (GetPaletteColors image32 x y 8 tile_h) 0).1,
      q.length ≤ 4 ∧ ∀ d ∈ q, IsPixel image32 d := by
    intro q hq
    rcases s6 q hq with h | ⟨p, hp, e, hl⟩
    · exact i2 q h
    · subst e
      refine ⟨hl, ?_⟩
      intro d hd
      rcases SetPal.mem_foldl_insert _ _ hd with h | h
      · exact (i2 p hp).2 d h
      · exact hpalpix d h
  -- the bands done before keep their palette
  have hold : ∀ (ps1 : List SetPal) (v : Nat),
      (∀ k, ∀ d ∈ (main.findPalette st.palettes
        (GetPaletteColors image32 x y 8 tile_h) 0).1.getD k [], d ∈ ps1.getD k []) →
      st.palettes.length ≤ ps1.length →
      ∀ b ∈ done, ∃ i,
        (st.palettes_per_tile.set (main.bandPos tile_h image32 (x, y)) v)[
          main.bandPos tile_h image32 b]? = some i
        ∧ i < ps1.length
        ∧ ∀ c ∈ GetPaletteColors.pixels image32 b.1 b.2 8 tile_h,
            ∃ d ∈ ps1.getD i [], colorKey d = colorKey c := by
    intro ps1 v hsub hlen b hb
    obtain ⟨i, h1, h2, h3⟩ := i3 b hb
    refine ⟨i, ?_, by omega, ?_⟩
    · rw [List.getElem?_set_ne (fun e => hnew b hb e.symm)]
      exact h1
    · intro c hc
      obtain ⟨d, hd, hk⟩ := h3 c hc
      exact ⟨d, hsub i d (s4 i d hd), hk⟩
  have hposdef : (y / tile_h) * (image32.w / 8) + (x / 8)
      = main.bandPos tile_h image32 (x, y) := rfl
  unfold main.band at hstep
  simp only at hstep
  rw [hposdef] at hstep
  split_ifs at hstep with h4 hnf h8
  · -- no palette fits: a new palette is appended
    have e := (Except.ok.inj hstep).symm
    subst e
    dsimp only
    have hlen : (main.findPalette st.palettes (GetPaletteColors image32 x y 8 tile_h) 0).1.length
        = st.palettes.length := s1
    refine ⟨⟨?_, ?_, ?_⟩, by simp⟩
    · simp only [List.length_append, List.length_singleton]
      omega
    · intro q hq
      rcases List.mem_append.1 hq with h | h
      · exact hr1 q h
      · rw [List.mem_singleton.1 h]
        exact ⟨by omega, hpalpix⟩
    · intro b hb
      rcases List.mem_append.1 hb with h | h
      · refine hold _ _ ?_ (by simp; omega) b h
        intro k d hd
        by_cases hk : k < (main.findPalette st.palettes
            (GetPaletteColors image32 x y 8 tile_h) 0).1.length
        · rw [List.getD_eq_getElem?_getD, List.getElem?_append_left hk,
            ← List.getD_eq_getElem?_getD]
          exact hd
        · rw [List.getD_eq_getElem?_getD, List.getElem?_eq_none (by omega)] at hd
          exact absurd hd (List.not_mem_nil _)
      · rw [List.mem_singleton.1 h]
        refine ⟨_, by rw [List.getElem?_set_self hpos], by simp; omega, ?_⟩
        intro c hc
        obtain ⟨d, hd, hk⟩ := GetPaletteColors_key hc
        refine ⟨d, ?_, hk⟩
        rw [hnf, List.getD_eq_getElem?_getD, List.getElem?_append_right (le_refl _)]
        simpa using hd
  · -- a palette fits and holds the merged set
    have e := (Except.ok.inj hstep).symm
    subst e
    dsimp only
    have hlt : (main.findPalette st.palettes (GetPaletteColors image32 x y 8 tile_h) 0).2
        < st.palettes.length := by
      have := s3
      rw [s1] at hnf
      omega
    obtain ⟨p, hp1, hp2, hp3⟩ := s5 (by omega)
    simp only [Nat.sub_zero] at hp1 hp2
    refine ⟨⟨by rw [s1]; exact i1, hr1, ?_⟩, by simp⟩
    intro b hb
    rcases List.mem_append.1 hb with h | h
    · exact hold _ _ (fun k d hd => hd) (by rw [s1]) b h
    · rw [List.mem_singleton.1 h]
      refine ⟨_, by rw [List.getElem?_set_self hpos], by rw [s1]; exact hlt, ?_⟩
      intro c hc
      obtain ⟨d, hd, hk⟩ := GetPaletteColors_key hc
      obtain ⟨d2, hd2, hk2⟩ := insertAll_key (p := p) hd
      refine ⟨d2, ?_, by rw [hk2, hk]⟩
      rw [List.getD_eq_getElem?_getD, hp2]
      exact hd2

/-- The clustering loop keeps the invariant over a list of bands that are written at
different positions of `palettes_per_tile`. -/
theorem ClusterInv.clusterFrom {tile_h : Nat} {image32 : PNGImage} :
    ∀ (bs done : List (Nat × Nat)) (st st1 : ClusterState),
      ClusterInv tile_h image32 done st →
      main.clusterFrom tile_h image32 bs st = .ok st1 →
      (∀ b ∈ bs, main.bandPos tile_h image32 b < st.palettes_per_tile.length) →
      ((done ++ bs).map (main.bandPos tile_h image32)).Nodup →
      (∀ b ∈ bs, ∀ c ∈ GetPaletteColors.pixels image32 b.1 b.2 8 tile_h, IsPixel image32 c) →
      ClusterInv tile_h image32 (done ++ bs) st1
      ∧ st1.palettes_per_tile.length = st.palettes_per_tile.length := by
  intro bs
  induction bs with
  | nil =>
    intro done st st1 hinv hrun _ _ _
    simp only [main.clusterFrom] at hrun
    rw [← Except.ok.inj hrun, List.append_nil]
    exact ⟨hinv, rfl⟩
  | cons b bs ih =>
    intro done st st1 hinv hrun hpos hnd hpix
    obtain ⟨x, y⟩ := b
    simp only [main.clusterFrom] at hrun
    cases hb : main.band tile_h image32 st x y with
    | error e => rw [hb] at hrun; exact Except.noConfusion hrun
    | ok st2 =>
      rw [hb] at hrun
      simp only at hrun
      have hnew : ∀ b ∈ done, main.bandPos tile_h image32 b
          ≠ main.bandPos tile_h image32 (x, y) := by
        intro b hbd e
        rw [List.map_append, List.map_cons, List.nodup_append] at hnd
        exact hnd.2.2 (List.mem_map.2 ⟨b, hbd, rfl⟩) (e ▸ List.mem_cons_self _ _)
      obtain ⟨hinv2, hlen2⟩ := ClusterInv.band hinv hb (hpos _ (List.mem_cons_self _ _)) hnew
        (hpix _ (List.mem_cons_self _ _))
      have happ : done ++ (x, y) :: bs = (done ++ [(x, y)]) ++ bs := by simp
      rw [happ] at hnd ⊢
      obtain ⟨r1, r2⟩ := ih (done ++ [(x, y)]) st2 st1 hinv2 hrun
        (fun b hb2 => by rw [hlen2]; exact hpos b (List.mem_cons_of_mem _ hb2)) hnd
        (fun b hb2 => hpix b (List.mem_cons_of_mem _ hb2))
      exact ⟨r1, by rw [r2, hlen2]⟩

theorem mem_loopVals_one (a b v : Nat) : v ∈ loopVals a b 1 ↔ a ≤ v ∧ v < b := by
  unfold loopVals
  simp only [List.mem_map, List.mem_range, Nat.add_sub_cancel, Nat.div_one, Nat.mul_one]
  constructor
  · rintro ⟨k, hk, rfl⟩; omega
  · intro h; exact ⟨v - a, by omega, by omega⟩

theorem mem_pixels_iff (image : PNGImage) (x y w h c : Nat) :
    c ∈ GetPaletteColors.pixels image x y w h
      ↔ ∃ j i, y ≤ j ∧ j < y + h ∧ x ≤ i ∧ i < x + w ∧ c = color32 image.data (j * image.w + i) := by
  unfold GetPaletteColors.pixels
  simp only [List.mem_flatMap, List.mem_map, mem_loopVals_one]
  constructor
  · rintro ⟨j, ⟨h1, h2⟩, i, ⟨h3, h4⟩, rfl⟩
    exact ⟨j, i, h1, h2, h3, h4, rfl⟩
  · rintro ⟨j, i, h1, h2, h3, h4, rfl⟩
    exact ⟨j, ⟨h1, h2⟩, i, ⟨h3, h4⟩, rfl⟩

theorem main_bands_eq (tile_h : Nat) (image32 : PNGImage) (W Hb : Nat) (ht : 0 < tile_h)
    (hw : image32.w = 8 * W) (hh : image32.h = tile_h * Hb) :
    main.bands tile_h image32
      = (List.range Hb).flatMap (fun r => (List.range W).map (fun c => (c * 8, r * tile_h))) := by
  unfold main.bands
  rw [hw, hh, loopVals_zero_mul _ _ ht, loopVals_zero_mul _ _ (by decide)]
  simp [List.flatMap_map, List.map_map, Function.comp_def]

/-- The bands of the raster scan are written at the positions `0, 1, 2, ...` of
`palettes_per_tile`. -/
theorem main_bands_pos (tile_h : Nat) (image32 : PNGImage) (W Hb : Nat) (ht : 0 < tile_h)
    (hw : image32.w = 8 * W) (hh : image32.h = tile_h * Hb) :
    (main.bands tile_h image32).map (main.bandPos tile_h image32) = List.range (Hb * W) := by
  rw [main_bands_eq tile_h image32 W Hb ht hw hh]
  apply List.ext_getElem?
  intro k
  by_cases hk : k < Hb * W
  · have hWpos : 0 < W := by
      rcases Nat.eq_zero_or_pos W with h | h
      · rw [h] at hk; omega
      · exact h
    have hdiv : k / W < Hb := Nat.div_lt_of_lt_mul (by rw [Nat.mul_comm]; exact hk)
    have hmod : k % W < W := Nat.mod_lt _ hWpos
    have hget := flatMap_rows_getElem? (fun r c => (c * 8, r * tile_h)) W Hb (k / W) (k % W)
      hdiv hmod
    rw [Nat.div_add_mod'] at hget
    rw [List.getElem?_map, hget, List.getElem?_range hk]
    simp only [Option.map_some', main.bandPos, hw]
    rw [Nat.mul_div_cancel _ ht, Nat.mul_div_cancel _ (by decide : 0 < 8),
      Nat.mul_div_cancel_left _ (by decide : 0 < 8), Nat.div_add_mod']
  · have hl := flatMap_rows_length (fun r c => (c * 8, r * tile_h)) W Hb
    rw [List.getElem?_eq_none (by rw [List.length_map, hl]; omega),
      List.getElem?_eq_none (by rw [List.length_range]; omega)]

theorem mem_main_bands (tile_h : Nat) (image32 : PNGImage) (W Hb : Nat) (ht : 0 < tile_h)
    (hw : image32.w = 8 * W) (hh : image32.h = tile_h * Hb) (b : Nat × Nat) :
    b ∈ main.bands tile_h image32 ↔ ∃ r c, r < Hb ∧ c < W ∧ b = (c * 8, r * tile_h) := by
  rw [main_bands_eq tile_h image32 W Hb ht hw hh]
  simp only [List.mem_flatMap, List.mem_map, List.mem_range]
  constructor
  · rintro ⟨r, hr, c, hc, rfl⟩; exact ⟨r, c, hr, hc, rfl⟩
  · rintro ⟨r, c, hr, hc, rfl⟩; exact ⟨r, hr, c, hc, rfl⟩

/-- The invariant holds at the end of a clustering that raises no error. -/
theorem ClusterInv.cluster (tile_h : Nat) (image32 : PNGImage) (ppt0 : List Nat)
    (st : ClusterState) (W Hb : Nat) (ht : 0 < tile_h) (hw : image32.w = 8 * W)
    (hh : image32.h = tile_h * Hb) (hppt : ppt0.length = (image32.w / 8) * (image32.h / tile_h))
    (hok : main.cluster tile_h image32 ppt0 = .ok st) :
    ClusterInv tile_h image32 (main.bands tile_h image32) st
    ∧ st.palettes_per_tile.length = ppt0.length := by
  have hlen : ppt0.length = Hb * W := by
    rw [hppt, hw, hh, Nat.mul_div_cancel_left _ (by decide : 0 < 8),
      Nat.mul_div_cancel_left _ ht, Nat.mul_comm]
  have hposl := main_bands_pos tile_h image32 W Hb ht hw hh
  have h0 : ClusterInv tile_h image32 [] ⟨[], ppt0⟩ :=
    ⟨by simp, fun _ h => absurd h (List.not_mem_nil _), fun _ h => absurd h (List.not_mem_nil _)⟩
  have := ClusterInv.clusterFrom (main.bands tile_h image32) [] ⟨[], ppt0⟩ st h0 hok ?_ ?_ ?_
  · simpa using this
  · intro b hb
    have : main.bandPos tile_h image32 b ∈ List.range (Hb * W) := by
      rw [← hposl]; exact List.mem_map.2 ⟨b, hb, rfl⟩
    simp only
    rw [hlen]
    exact List.mem_range.1 this
  · rw [List.nil_append, hposl]
    exact List.nodup_range _
  · intro b hb c hc
    obtain ⟨r, cc, hr, hcc, rfl⟩ := (mem_main_bands tile_h image32 W Hb ht hw hh b).1 hb
    obtain ⟨j, i, h1, h2, h3, h4, rfl⟩ := (mem_pixels_iff _ _ _ _ _ _).1 hc
    simp only at h1 h2 h3 h4
    refine ⟨j * image32.w + i, ?_, rfl⟩
    have hj : j < image32.h := by
      rw [hh]
      calc j < r * tile_h + tile_h := h2
        _ = tile_h * (r + 1) := by ring
        _ ≤ tile_h * Hb := Nat.mul_le_mul_left _ hr
    have hi : i < image32.w := by
      rw [hw]; omega
    calc j * image32.w + i < j * image32.w + image32.w := by omega
      _ = image32.w * (j + 1) := by ring
      _ ≤ image32.w * image32.h := Nat.mul_le_mul_left _ hj

/-- The four bytes of a packed colour. -/
theorem colorByte_pack (a b c d : Nat) (ha : a < 256) (hb : b < 256) (hc : c < 256)
    (hd : d < 256) :
    colorByte (((a <<< 24) ||| (b <<< 16) ||| (c <<< 8) ||| d) % 2 ^ 32) 3 = a
    ∧ colorByte (((a <<< 24) ||| (b <<< 16) ||| (c <<< 8) ||| d) % 2 ^ 32) 2 = b
    ∧ colorByte (((a <<< 24) ||| (b <<< 16) ||| (c <<< 8) ||| d) % 2 ^ 32) 1 = c
    ∧ colorByte (((a <<< 24) ||| (b <<< 16) ||| (c <<< 8) ||| d) % 2 ^ 32) 0 = d := by
  have e1 : (a <<< 24) ||| (b <<< 16) = 2 ^ 16 * (2 ^ 8 * a + b) := by
    rw [Nat.shiftLeft_eq, Nat.shiftLeft_eq, Nat.mul_comm a, Nat.mul_comm b,
      ← Nat.mul_add_lt_is_or (i := 24) (by omega)]
    omega
  have e2 : 2 ^ 16 * (2 ^ 8 * a + b) ||| (c <<< 8) = 2 ^ 8 * (2 ^ 8 * (2 ^ 8 * a + b) + c) := by
    rw [Nat.shiftLeft_eq, Nat.mul_comm c, ← Nat.mul_add_lt_is_or (i := 16) (by omega)]
    omega
  have e3 : 2 ^ 8 * (2 ^ 8 * (2 ^ 8 * a + b) + c) ||| d
      = 2 ^ 8 * (2 ^ 8 * (2 ^ 8 * a + b) + c) + d := by
    rw [← Nat.mul_add_lt_is_or (i := 8) (by omega)]
  rw [e1, e2, e3]
  unfold colorByte
  simp only [Nat.shiftRight_eq_div_pow]
  refine ⟨?_, ?_, ?_, ?_⟩ <;> omega

theorem flatMap_chunk_length {α : Type} (f : α → List Nat) (m : Nat) : ∀ (l : List α),
    (∀ a ∈ l, (f a).length = m) → (l.flatMap f).length = l.length * m := by
  intro l
  induction l with
  | nil => intro _; simp
  | cons a l ih =>
    intro hf
    rw [List.flatMap_cons, List.length_append, hf a (List.mem_cons_self _ _),
      ih (fun b hb => hf b (List.mem_cons_of_mem _ hb)), List.length_cons]
    ring

/-- Entry `i * m + k` of a list of chunks of `m` entries each. -/
theorem flatMap_chunk_getD {α : Type} (f : α → List Nat) (m : Nat) : ∀ (l : List α),
    (∀ a ∈ l, (f a).length = m) → ∀ (i k : Nat) (a : α), l[i]? = some a → k < m →
      (l.flatMap f).getD (i * m + k) 0 = (f a).getD k 0 := by
  intro l
  induction l with
  | nil => intro _ i k a h; simp at h
  | cons a0 l ih =>
    intro hf i k a hi hk
    have h0 := hf a0 (List.mem_cons_self _ _)
    rw [List.flatMap_cons]
    cases i with
    | zero =>
      simp only [List.getElem?_cons_zero, Option.some.injEq] at hi
      subst hi
      rw [Nat.zero_mul, Nat.zero_add, List.getD_append _ _ _ _ (by omega)]
    | succ i =>
      simp only [List.getElem?_cons_succ] at hi
      rw [List.getD_append_right _ _ _ _ (by rw [h0, Nat.succ_mul]; omega), h0,
        show (i + 1) * m + k - m = i * m + k by rw [Nat.succ_mul]; omega]
      exact ih (fun b hb => hf b (List.mem_cons_of_mem _ hb)) i k a hi hk

theorem paletteBytes_length (pal : SetPal) (h : pal.length ≤ 4) :
    (main.paletteBytes pal).length = 16 := by
  unfold main.paletteBytes
  simp only [List.length_append, List.length_replicate]
  have := flatMap_chunk_length
    (fun c => [colorByte c 3, colorByte c 2, colorByte c 1, colorByte c 0]) 4 pal
    (fun _ _ => rfl)
  omega

/-- The bytes written for the colour at position `k` of a palette. -/
theorem paletteBytes_getD (pal : SetPal) (k c b : Nat) (hk : pal[k]? = some c) (hb : b < 4) :
    (main.paletteBytes pal).getD (k * 4 + b) 0
      = [colorByte c 3, colorByte c 2, colorByte c 1, colorByte c 0].getD b 0 := by
  unfold main.paletteBytes
  simp only
  have hlen := flatMap_chunk_length
    (fun c => [colorByte c 3, colorByte c 2, colorByte c 1, colorByte c 0]) 4 pal
    (fun _ _ => rfl)
  have hklt : k < pal.length := by
    by_contra hc
    rw [List.getElem?_eq_none (by omega)] at hk
    exact Option.noConfusion hk
  rw [List.getD_append _ _ _ _ (by rw [hlen]; omega)]
  exact flatMap_chunk_getD
    (fun c => [colorByte c 3, colorByte c 2, colorByte c 1, colorByte c 0]) 4 pal
    (fun _ _ => rfl) k b c hk hb

/-- The bytes of the palette table at the slot of colour `k` of palette `i`. -/
theorem palette_table_getD (palettes : List SetPal) (h4 : ∀ pal ∈ palettes, pal.length ≤ 4)
    (i k c b : Nat) (pal : SetPal) (hi : palettes[i]? = some pal) (hk : pal[k]? = some c)
    (hb : b < 4) :
    (palettes.flatMap main.paletteBytes).getD ((i * 4 + k) * 4 + b) 0
      = [colorByte c 3, colorByte c 2, colorByte c 1, colorByte c 0].getD b 0 := by
  have hklt : k < pal.length := by
    by_contra hc
    rw [List.getElem?_eq_none (by omega)] at hk
    exact Option.noConfusion hk
  have hpal4 : pal.length ≤ 4 := h4 pal (List.mem_iff_getElem?.2 ⟨i, hi⟩)
  rw [show (i * 4 + k) * 4 + b = i * 16 + (k * 4 + b) by ring,
    flatMap_chunk_getD main.paletteBytes 16 palettes
      (fun p hp => paletteBytes_length p (h4 p hp)) i (k * 4 + b) pal hi (by omega)]
  exact paletteBytes_getD pal k c b hk hb

theorem foldl_rows_append {α : Type} (f : Nat → Nat → α) (xs : List Nat) :
    ∀ (ys : List Nat) (init : List α),
      ys.foldl (fun data y => xs.foldl (fun data x => data ++ [f x y]) data) init
        = init ++ ys.flatMap (fun y => xs.map (fun x => f x y)) := by
  have inner : ∀ (y : Nat) (xs : List Nat) (init : List α),
      xs.foldl (fun data x => data ++ [f x y]) init = init ++ xs.map (fun x => f x y) := by
    intro y xs
    induction xs with
    | nil => intro init; simp
    | cons x xs ih => intro init; simp [ih]
  intro ys
  induction ys with
  | nil => intro init; simp
  | cons y ys ih =>
    intro init
    simp only [List.foldl_cons, List.flatMap_cons]
    rw [inner, ih, List.append_assoc]

theorem loopVals_zero_one (n : Nat) : loopVals 0 n 1 = List.range n := by
  unfold loopVals
  simp

/-- The index byte pushed for the pixel `(x, y)` sits at offset `w * y + x`. -/
theorem indexed_data_getD (tile_h : Nat) (image32 : PNGImage) (st : ClusterState) (x y : Nat)
    (hx : x < image32.w) (hy : y < image32.h) :
    (main.indexed tile_h image32 st).data.getD (image32.w * y + x) 0
      = main.indexAt tile_h image32 st x y := by
  unfold main.indexed
  simp only
  rw [foldl_rows_append (fun x y => main.indexAt tile_h image32 st x y), List.nil_append,
    loopVals_zero_one, loopVals_zero_one, List.getD_eq_getElem?_getD, Nat.mul_comm image32.w y,
    flatMap_rows_getElem? (fun y x => main.indexAt tile_h image32 st x y) image32.w image32.h
      y x hy hx]
  rfl

theorem index_byte (i k : Nat) (hi : i < 8) (hk : k < 4) :
    (((i % 256) <<< 2) + k % 256) % 256 = i * 4 + k
    ∧ (i * 4 + k) >>> 2 = i ∧ (i * 4 + k) &&& 3 = k := by
  refine ⟨?_, ?_, ?_⟩
  · rw [Nat.shiftLeft_eq, Nat.mod_eq_of_lt (show i < 256 by omega),
      Nat.mod_eq_of_lt (show k < 256 by omega)]
    have : (2 : Nat) ^ 2 = 4 := rfl
    rw [this]; omega
  · rw [Nat.shiftRight_eq_div_pow]
    have : (2 : Nat) ^ 2 = 4 := rfl
    rw [this]; omega
  · have := Nat.and_pow_two_sub_one_eq_mod (i * 4 + k) 2
    simp only [Nat.reducePow, Nat.reduceSub] at this
    rw [this]; omega

theorem pixelRGBA_eq_bytes (image32 : PNGImage) (x y : Nat)
    (hbytes : ∀ b ∈ image32.data, b < 256) :
    pixelRGBA image32 x y
      = [colorByte (color32 image32.data (image32.w * y + x)) 3,
        colorByte (color32 image32.data (image32.w * y + x)) 2,
        colorByte (color32 image32.data (image32.w * y + x)) 1,
        colorByte (color32 image32.data (image32.w * y + x)) 0] := by
  have hb : ∀ k, image32.data.getD k 0 < 256 := by
    intro k
    rw [List.getD_eq_getElem?_getD]
    by_cases hk : k < image32.data.length
    · rw [List.getElem?_eq_getElem hk]
      exact hbytes _ (List.getElem_mem _)
    · rw [List.getElem?_eq_none (by omega)]
      exact (by decide : (0 : Nat) < 256)
  obtain ⟨e3, e2, e1, e0⟩ := colorByte_pack
    (image32.data.getD ((image32.w * y + x) * 4) 0)
    (image32.data.getD ((image32.w * y + x) * 4 + 1) 0)
    (image32.data.getD ((image32.w * y + x) * 4 + 2) 0)
    (image32.data.getD ((image32.w * y + x) * 4 + 3) 0) (hb _) (hb _) (hb _) (hb _)
  unfold pixelRGBA color32
  simp only
  rw [e3, e2, e1, e0]

/-- The round trip of the palette clustering: when the clustering of an image (width a
multiple of 8, height a multiple of the tile height) raises no error and no two colours of
the image with the same alpha and the same luminance are different, the indexed image is
built and, for every pixel, the colour `palette[index >> 2][index & 3]` read from the palette
table is the colour of the pixel in the true-colour image. -/
theorem quantize_round_trip (tile_h : Nat) (image32 : PNGImage) (ppt0 : List Nat)
    (st : ClusterState) (W Hb : Nat) (ht : 0 < tile_h) (hw : image32.w = 8 * W)
    (hh : image32.h = tile_h * Hb)
    (hppt : ppt0.length = (image32.w / 8) * (image32.h / tile_h))
    (hbytes : ∀ b ∈ image32.data, b < 256)
    (_hdata : image32.data.length = image32.w * image32.h * 4)
    (hok : main.cluster tile_h image32 ppt0 = .ok st)
    (hinj : ∀ p q, p < image32.w * image32.h → q < image32.w * image32.h →
      colorKey (color32 image32.data p) = colorKey (color32 image32.data q) →
      color32 image32.data p = color32 image32.data q) :
    main.quantize tile_h image32 ppt0 = .ok (main.indexed tile_h image32 st)
    ∧ ∀ x < image32.w, ∀ y < image32.h,
        paletteColor (main.indexed tile_h image32 st)
          ((main.indexed tile_h image32 st).data.getD (image32.w * y + x) 0)
        = pixelRGBA image32 x y := by
  refine ⟨by unfold main.quantize; rw [hok], ?_⟩
  intro x hx y hy
  obtain ⟨⟨i1, i2, i3⟩, _⟩ := ClusterInv.cluster tile_h image32 ppt0 st W Hb ht hw hh hppt hok
  -- the band of the pixel
  have hW : x / 8 < W := by omega
  have hHb : y / tile_h < Hb := by
    apply Nat.div_lt_of_lt_mul
    rw [← hh]; exact hy
  have hband : (x / 8 * 8, y / tile_h * tile_h) ∈ main.bands tile_h image32 :=
    (mem_main_bands tile_h image32 W Hb ht hw hh _).2 ⟨y / tile_h, x / 8, hHb, hW, rfl⟩
  obtain ⟨i, hi1, hi2, hi3⟩ := i3 _ hband
  have hpos : main.bandPos tile_h image32 (x / 8 * 8, y / tile_h * tile_h)
      = (y / tile_h) * (image32.w / 8) + (x / 8) := by
    unfold main.bandPos
    simp only
    rw [Nat.mul_div_cancel _ ht, Nat.mul_div_cancel _ (by decide : 0 < 8)]
  rw [hpos] at hi1
  -- the colour of the pixel is a colour of the image and of its band
  have hp : image32.w * y + x < image32.w * image32.h := by
    calc image32.w * y + x < image32.w * y + image32.w := by omega
      _ = image32.w * (y + 1) := by ring
      _ ≤ image32.w * image32.h := Nat.mul_le_mul_left _ hy
  have hcpix : color32 image32.data (image32.w * y + x)
      ∈ GetPaletteColors.pixels image32 (x / 8 * 8) (y / tile_h * tile_h) 8 tile_h := by
    rw [mem_pixels_iff]
    refine ⟨y, x, Nat.div_mul_le_self _ _, ?_, Nat.div_mul_le_self _ _, ?_, by rw [Nat.mul_comm]⟩
    · have := Nat.lt_div_mul_add ht (a := y)
      omega
    · omega
  obtain ⟨d, hd, hkd⟩ := hi3 _ hcpix
  -- the palette of the band
  have hilt : i < st.palettes.length := hi2
  have hpal : st.palettes[i]? = some st.palettes[i] := List.getElem?_eq_getElem hilt
  have hgetD : st.palettes.getD i [] = st.palettes[i] := by
    rw [List.getD_eq_getElem?_getD, hpal]; rfl
  have hmem : st.palettes[i] ∈ st.palettes := List.getElem_mem _
  obtain ⟨hlen4, hpixs⟩ := i2 _ hmem
  rw [hgetD] at hd
  obtain ⟨q, hq, hdq⟩ := hpixs d hd
  have hdc : d = color32 image32.data (image32.w * y + x) := by
    rw [hdq] at hkd ⊢
    exact hinj q _ hq hp hkd
  rw [hdc] at hd
  -- the position of the colour in the palette
  obtain ⟨hflt, e, he1, he2⟩ := SetPal.find_spec _ _ hd
  have hec : e = color32 image32.data (image32.w * y + x) := by
    obtain ⟨q2, hq2, hdq2⟩ := hpixs e (List.mem_iff_getElem?.2 ⟨_, he1⟩)
    rw [hdq2] at he2 ⊢
    exact hinj q2 _ hq2 hp he2
  rw [hec] at he1
  -- the index byte
  have hidx := indexed_data_getD tile_h image32 st x y hx hy
  have hi8 : i < 8 := by omega
  have hk4 : SetPal.find st.palettes[i] (color32 image32.data (image32.w * y + x)) < 4 := by
    omega
  obtain ⟨b1, b2, b3⟩ := index_byte i _ hi8 hk4
  have hval : main.indexAt tile_h image32 st x y
      = i * 4 + SetPal.find st.palettes[i] (color32 image32.data (image32.w * y + x)) := by
    unfold main.indexAt
    simp only
    rw [List.getD_eq_getElem?_getD, hi1]
    simp only [Option.getD_some]
    rw [Nat.mod_eq_of_lt (show i < 256 by omega), hgetD]
    rw [Nat.mod_eq_of_lt (show i < 256 by omega)] at b1
    exact b1
  rw [hidx, hval, pixelRGBA_eq_bytes image32 x y hbytes]
  unfold paletteColor
  simp only
  rw [b2, b3]
  have htab := fun b hb => palette_table_getD st.palettes (fun p hp => (i2 p hp).1) i
    (SetPal.find st.palettes[i] (color32 image32.data (image32.w * y + x)))
    (color32 image32.data (image32.w * y + x)) b st.palettes[i] hpal he1 hb
  unfold main.indexed
  simp only
  have t0 := htab 0 (by decide)
  have t1 := htab 1 (by decide)
  have t2 := htab 2 (by decide)
  have t3 := htab 3 (by decide)
  rw [Nat.add_zero] at t0
  rw [t0, t1, t2, t3]
  rfl

theorem color32_imgFour (p : Nat) (hp : p < 64) : color32 imgFour.data p = p % 4 + 1 := by
  have := color32_flatMap (fun _ => 0) (fun _ => 0) (fun _ => 0) (fun p => p % 4 + 1) 64 p hp
  simp only [Nat.zero_shiftLeft, Nat.zero_or] at this
  rw [Nat.mod_eq_of_lt (by omega)] at this
  simp only [imgFour]
  exact this

set_option maxRecDepth 1000000 in
/-- The round trip on `imgFour`: one band of four colours, one palette, and every pixel is
rebuilt. -/
theorem quantize_round_trip_witness :
    main.cluster 8 imgFour [0] = .ok ⟨[[1, 2, 3, 4]], [0]⟩
    ∧ main.quantize 8 imgFour [0] = .ok (main.indexed 8 imgFour ⟨[[1, 2, 3, 4]], [0]⟩)
    ∧ ∀ x < imgFour.w, ∀ y < imgFour.h,
        paletteColor (main.indexed 8 imgFour ⟨[[1, 2, 3, 4]], [0]⟩)
          ((main.indexed 8 imgFour ⟨[[1, 2, 3, 4]], [0]⟩).data.getD (imgFour.w * y + x) 0)
        = pixelRGBA imgFour x y := by
  have hok : main.cluster 8 imgFour [0] = .ok ⟨[[1, 2, 3, 4]], [0]⟩ := by decide
  refine ⟨hok, quantize_round_trip 8 imgFour [0] _ 1 1 (by decide) (by decide)
    (by decide) (by decide) (by decide) (by decide) hok ?_⟩
  intro p q hp hq hk
  have hp2 : p < 64 := hp
  have hq2 : q < 64 := hq
  rw [color32_imgFour p hp2, color32_imgFour q hq2] at hk ⊢
  have h0 := congrArg Prod.fst hk
  simp only [colorKey, colorByte, Nat.mul_zero, Nat.shiftRight_zero] at h0
  omega

/-! ## C11: the capacity invariant of the clustering loop -/

set_option maxRecDepth 100000 in
/-- C11 at a failing input. On the two-band image `imgRedThenGreen` (tile height 8) the
clustering succeeds with the single palette `{red}`, recorded for both bands, while the colour
set that `GetPaletteColors` returns for the right band is `{green}`: the colour set of a
processed band is not contained in the palette recorded for it. The two colours have the same
alpha and the same luminance, so inserting green into `{red}` leaves the set unchanged. -/
theorem cluster_imgRedThenGreen :
    main.cluster 8 imgRedThenGreen [0, 0] = .ok ⟨[[0xFF0000FF]], [0, 0]⟩
    ∧ GetPaletteColors imgRedThenGreen 8 0 8 8 = [0x008200FF]
    ∧ SetPal.insertAll [0xFF0000FF] [0x008200FF] = [0xFF0000FF]
    ∧ ¬ (∀ c ∈ GetPaletteColors imgRedThenGreen 8 0 8 8, c ∈ [0xFF0000FF]) := by
  decide

theorem findPalette_no_fit (pal : SetPal) : ∀ (ps : List SetPal) (i0 : Nat),
    (∀ p ∈ ps, 4 < (SetPal.insertAll p pal).length) →
    main.findPalette ps pal i0 = (ps, i0 + ps.length) := by
  intro ps
  induction ps with
  | nil => intro i0 _; rfl
  | cons p ps ih =>
    intro i0 h
    unfold main.findPalette
    simp only
    rw [if_neg (by have := h p (List.mem_cons_self _ _); omega),
      ih (i0 + 1) (fun q hq => h q (List.mem_cons_of_mem _ hq))]
    simp only [List.length_cons]
    congr 1
    omega

/-- A band of at most four colours that fits no existing palette (merging it into any of
them gives more than four colours): with 8 palettes the loop ends with the error
"more than 8 palettes", with fewer the set of the band is appended as a new palette and its
position is recorded for the band. -/
theorem band_no_fit (tile_h : Nat) (image32 : PNGImage) (st : ClusterState) (x y : Nat)
    (h4 : (GetPaletteColors image32 x y 8 tile_h).length ≤ 4)
    (hfit : ∀ p ∈ st.palettes,
      4 < (SetPal.insertAll p (GetPaletteColors image32 x y 8 tile_h)).length) :
    main.band tile_h image32 st x y
      = if st.palettes.length = 8 then .error .moreThan8Palettes
        else .ok ⟨st.palettes ++ [GetPaletteColors image32 x y 8 tile_h],
          st.palettes_per_tile.set ((y / tile_h) * (image32.w / 8) + (x / 8))
            st.palettes.length⟩ := by
  unfold main.band
  simp only
  rw [if_neg (by omega), findPalette_no_fit _ _ _ hfit]
  simp

theorem findPalette_fit (pal : SetPal) : ∀ (ps : List SetPal) (i0 : Nat),
    (∃ p ∈ ps, (SetPal.insertAll p pal).length ≤ 4) →
    (main.findPalette ps pal i0).2 < i0 + ps.length := by
  intro ps
  induction ps with
  | nil => intro i0 h; obtain ⟨p, hp, _⟩ := h; exact absurd hp (List.not_mem_nil _)
  | cons p ps ih =>
    intro i0 h
    unfold main.findPalette
    simp only
    by_cases hm : (SetPal.insertAll p pal).length ≤ 4
    · rw [if_pos hm]
      simp only [List.length_cons]
      omega
    · rw [if_neg hm]
      obtain ⟨q, hq, hq4⟩ := h
      rcases List.mem_cons.1 hq with e | hq2
      · rw [e] at hq4; exact absurd hq4 hm
      · have := ih (i0 + 1) ⟨q, hq2, hq4⟩
        simp only [List.length_cons]
        omega

/-- The error "more than 8 palettes" is raised by a band of at most four colours exactly
when the band fits no existing palette and 8 palettes exist. -/
theorem band_moreThan8_iff (tile_h : Nat) (image32 : PNGImage) (st : ClusterState) (x y : Nat)
    (h4 : (GetPaletteColors image32 x y 8 tile_h).length ≤ 4) :
    main.band tile_h image32 st x y = .error .moreThan8Palettes
      ↔ (∀ p ∈ st.palettes,
          4 < (SetPal.insertAll p (GetPaletteColors image32 x y 8 tile_h)).length)
        ∧ st.palettes.length = 8 := by
  constructor
  · intro h
    by_cases hfit : ∀ p ∈ st.palettes,
        4 < (SetPal.insertAll p (GetPaletteColors image32 x y 8 tile_h)).length
    · refine ⟨hfit, ?_⟩
      rw [band_no_fit tile_h image32 st x y h4 hfit] at h
      by_contra h8
      rw [if_neg h8] at h
      exact Except.noConfusion h
    · exfalso
      have hex : ∃ p ∈ st.palettes,
          (SetPal.insertAll p (GetPaletteColors image32 x y 8 tile_h)).length ≤ 4 := by
        by_contra hc
        apply hfit
        intro p hp
        by_contra hc2
        exact hc ⟨p, hp, by omega⟩
      have hlt := findPalette_fit _ st.palettes 0 hex
      have hlen := (findPalette_spec (GetPaletteColors image32 x y 8 tile_h) st.palettes 0).1
      unfold main.band at h
      simp only at h
      rw [if_neg (by omega), if_neg (by rw [hlen]; omega)] at h
      exact Except.noConfusion h
  · rintro ⟨hfit, h8⟩
    rw [band_no_fit tile_h image32 st x y h4 hfit, if_pos h8]

/-- Every pixel read for a band of the raster scan is a pixel of the image. -/
theorem band_pixels_isPixel (tile_h : Nat) (image32 : PNGImage) (W Hb : Nat) (ht : 0 < tile_h)
    (hw : image32.w = 8 * W) (hh : image32.h = tile_h * Hb) (b : Nat × Nat)
    (hb : b ∈ main.bands tile_h image32) :
    ∀ c ∈ GetPaletteColors.pixels image32 b.1 b.2 8 tile_h, IsPixel image32 c := by
  intro c hc
  obtain ⟨r, cc, hr, hcc, rfl⟩ := (mem_main_bands tile_h image32 W Hb ht hw hh b).1 hb
  obtain ⟨j, i, h1, h2, h3, h4, rfl⟩ := (mem_pixels_iff _ _ _ _ _ _).1 hc
  simp only at h1 h2 h3 h4
  refine ⟨j * image32.w + i, ?_, rfl⟩
  have hj : j < image32.h := by
    rw [hh]
    calc j < r * tile_h + tile_h := h2
      _ = tile_h * (r + 1) := by ring
      _ ≤ tile_h * Hb := Nat.mul_le_mul_left _ hr
  have hi : i < image32.w := by
    rw [hw]; omega
  calc j * image32.w + i < j * image32.w + image32.w := by omega
    _ = image32.w * (j + 1) := by ring
    _ ≤ image32.w * image32.h := Nat.mul_le_mul_left _ hj

/-- The containment that C11 states holds on images without colliding colours: when the
clustering raises no error and no two different colours of the image have the same alpha and
the same luminance, the colour set of every band is contained in the palette recorded for
the band. -/
theorem cluster_contains_exact (tile_h : Nat) (image32 : PNGImage) (ppt0 : List Nat)
    (st : ClusterState) (W Hb : Nat) (ht : 0 < tile_h) (hw : image32.w = 8 * W)
    (hh : image32.h = tile_h * Hb)
    (hppt : ppt0.length = (image32.w / 8) * (image32.h / tile_h))
    (hok : main.cluster tile_h image32 ppt0 = .ok st)
    (hinj : ∀ p q, p < image32.w * image32.h → q < image32.w * image32.h →
      colorKey (color32 image32.data p) = colorKey (color32 image32.data q) →
      color32 image32.data p = color32 image32.data q) :
    ∀ b ∈ main.bands tile_h image32, ∃ i,
      st.palettes_per_tile[main.bandPos tile_h image32 b]? = some i
      ∧ i < st.palettes.length
      ∧ ∀ c ∈ GetPaletteColors image32 b.1 b.2 8 tile_h, c ∈ st.palettes.getD i [] := by
  obtain ⟨⟨_, i2, i3⟩, _⟩ := ClusterInv.cluster tile_h image32 ppt0 st W Hb ht hw hh hppt hok
  intro b hb
  obtain ⟨i, h1, h2, h3⟩ := i3 b hb
  refine ⟨i, h1, h2, ?_⟩
  intro c hc
  have hcp := GetPaletteColors_mem_pixels hc
  obtain ⟨p, hp, hcp2⟩ := band_pixels_isPixel tile_h image32 W Hb ht hw hh b hb c hcp
  obtain ⟨d, hd, hk⟩ := h3 c hcp
  have hmem : st.palettes.getD i [] ∈ st.palettes := by
    rw [List.getD_eq_getElem?_getD, List.getElem?_eq_getElem h2]
    exact List.getElem_mem _
  obtain ⟨q, hq, hdq⟩ := (i2 _ hmem).2 d hd
  have : d = c := by
    rw [hdq, hcp2] at hk ⊢
    exact hinj q p hq hp hk
  rw [← this]; exact hd

/-! ## The order of a colour set -/

theorem CmpIntColor_iff (c d : Nat) :
    CmpIntColor c d = true
      ↔ colorByte c 0 < colorByte d 0 ∨ (colorByte c 0 = colorByte d 0 ∧ lum d < lum c) := by
  unfold CmpIntColor
  by_cases h : colorByte c 0 = colorByte d 0
  · simp [h]
  · simp [h]

theorem CmpIntColor_trans {a b c : Nat} (h1 : CmpIntColor a b = true)
    (h2 : CmpIntColor b c = true) : CmpIntColor a c = true := by
  rw [CmpIntColor_iff] at h1 h2 ⊢
  omega

theorem CmpIntColor_asymm {a b : Nat} (h1 : CmpIntColor a b = true) :
    CmpIntColor b a = false := by
  rw [← Bool.not_eq_true, CmpIntColor_iff]
  rw [CmpIntColor_iff] at h1
  omega

theorem CmpIntColor_of_key_eq {c d : Nat} (h : colorKey c = colorKey d) :
    CmpIntColor c d = false := by
  unfold colorKey at h
  have h1 := congrArg Prod.fst h
  have h2 := congrArg Prod.snd h
  simp only at h1 h2
  rw [← Bool.not_eq_true, CmpIntColor_iff]
  omega

theorem SetPal.ordered_insert : ∀ (s : SetPal) (c : Nat),
    SetPal.Ordered s → SetPal.Ordered (SetPal.insert s c) := by
  intro s
  induction s with
  | nil => intro c _; simp [SetPal.insert, SetPal.Ordered]
  | cons d ds ih =>
    intro c h
    unfold SetPal.Ordered at h ⊢
    rw [List.pairwise_cons] at h
    unfold SetPal.insert
    split_ifs with h1 h2
    · rw [List.pairwise_cons, List.pairwise_cons]
      refine ⟨?_, h⟩
      intro a ha
      rcases List.mem_cons.1 ha with e | ha2
      · rw [e]; exact h1
      · exact CmpIntColor_trans h1 (h.1 a ha2)
    · rw [List.pairwise_cons]
      refine ⟨?_, ih c h.2⟩
      intro a ha
      rcases SetPal.mem_insert ds c ha with ha2 | e
      · exact h.1 a ha2
      · rw [e]; exact h2
    · rw [List.pairwise_cons]; exact h

theorem SetPal.ordered_insertAll : ∀ (cs : List Nat) (s : SetPal),
    SetPal.Ordered s → SetPal.Ordered (SetPal.insertAll s cs) := by
  intro cs
  induction cs with
  | nil => intro s h; exact h
  | cons c cs ih =>
    intro s h
    unfold SetPal.insertAll
    rw [List.foldl_cons]
    exact ih _ (SetPal.ordered_insert s c h)

theorem GetPaletteColors_ordered (image : PNGImage) (x y w h : Nat) :
    SetPal.Ordered (GetPaletteColors image x y w h) := by
  rw [GetPaletteColors_eq_foldl]
  exact SetPal.ordered_insertAll _ [] List.Pairwise.nil

/-- One band keeps the capacity of the palettes. -/
theorem PalettesInv.of_band {tile_h : Nat} {image32 : PNGImage} {st st1 : ClusterState}
    {x y : Nat} (hinv : PalettesInv st) (hstep : main.band tile_h image32 st x y = .ok st1) :
    PalettesInv st1 := by
  obtain ⟨i1, i2⟩ := hinv
  obtain ⟨s1, -, -, -, -, s6⟩ :=
    findPalette_spec (GetPaletteColors image32 x y 8 tile_h) st.palettes 0
  have hr1 : ∀ q ∈ (main.findPalette st.palettes (GetPaletteColors image32 x y 8 tile_h) 0).1,
      q.length ≤ 4 ∧ SetPal.Ordered q := by
    intro q hq
    rcases s6 q hq with h | ⟨p, hp, e, hl⟩
    · exact i2 q h
    · rw [e]
      exact ⟨hl, SetPal.ordered_insertAll _ p (i2 p hp).2⟩
  unfold main.band at hstep
  simp only at hstep
  split_ifs at hstep with h4 hnf h8
  · rw [← Except.ok.inj hstep]
    refine ⟨?_, ?_⟩
    · simp only [List.length_append, List.length_singleton]
      omega
    · intro q hq
      rcases List.mem_append.1 hq with h | h
      · exact hr1 q h
      · rw [List.mem_singleton.1 h]
        exact ⟨by omega, GetPaletteColors_ordered _ _ _ _ _⟩
  · rw [← Except.ok.inj hstep]
    exact ⟨by simp only; rw [s1]; exact i1, hr1⟩

/-- The capacity of the palettes holds after every band of a run of the clustering loop
that raises no error. -/
theorem PalettesInv.of_clusterFrom {tile_h : Nat} {image32 : PNGImage} :
    ∀ (bs : List (Nat × Nat)) (st st1 : ClusterState), PalettesInv st →
      main.clusterFrom tile_h image32 bs st = .ok st1 → PalettesInv st1 := by
  intro bs
  induction bs with
  | nil =>
    intro st st1 hinv hrun
    simp only [main.clusterFrom] at hrun
    rw [← Except.ok.inj hrun]; exact hinv
  | cons b bs ih =>
    intro st st1 hinv hrun
    obtain ⟨x, y⟩ := b
    simp only [main.clusterFrom] at hrun
    cases hb : main.band tile_h image32 st x y with
    | error e => rw [hb] at hrun; exact Except.noConfusion hrun
    | ok st2 =>
      rw [hb] at hrun
      exact ih st2 st1 (PalettesInv.of_band hinv hb) hrun

theorem PalettesInv.init (ppt0 : List Nat) : PalettesInv ⟨[], ppt0⟩ :=
  ⟨by simp, fun _ h => absurd h (List.not_mem_nil _)⟩

/-! ## C12: the index bytes -/

set_option maxRecDepth 1000000 in
/-- C12 at a failing input. On `imgRedGreen` (tile height 8, one band) the clustering
succeeds with the single palette `[red]`. The pixel `(1, 0)` is green, a colour that is not
in this palette and so has no position in it; its index byte is `v = 0`, and `v & 3 = 0` is
the position of red, the colour that the comparator takes green for. -/
theorem indexed_imgRedGreen :
    main.cluster 8 imgRedGreen [0] = .ok ⟨[[0xFF0000FF]], [0]⟩
    ∧ imgRedGreen.w = 8 * 1 ∧ imgRedGreen.h = 8 * 1
    ∧ color32 imgRedGreen.data (imgRedGreen.w * 0 + 1) = 0x008200FF
    ∧ (main.indexed 8 imgRedGreen ⟨[[0xFF0000FF]], [0]⟩).data.getD (imgRedGreen.w * 0 + 1) 0 = 0
    ∧ 0x008200FF ∉ [0xFF0000FF]
    ∧ (∀ k : Nat, [0xFF0000FF][k]? ≠ some 0x008200FF)
    ∧ [0xFF0000FF][0 &&& 3]? = some 0xFF0000FF
    ∧ SetPal.find [0xFF0000FF] 0x008200FF = 0 := by
  refine ⟨by decide, by decide, by decide, by decide, by decide, by decide, ?_, by decide,
    by decide⟩
  intro k
  cases k with
  | zero => decide
  | succ k => simp

theorem CmpIntColor_congr_right {a c d : Nat} (h : colorKey c = colorKey d) :
    CmpIntColor a c = CmpIntColor a d := by
  unfold colorKey at h
  have h1 := congrArg Prod.fst h
  have h2 := congrArg Prod.snd h
  simp only at h1 h2
  rw [Bool.eq_iff_iff, CmpIntColor_iff, CmpIntColor_iff, h1, h2]

theorem CmpIntColor_congr_left {a c d : Nat} (h : colorKey c = colorKey d) :
    CmpIntColor c a = CmpIntColor d a := by
  unfold colorKey at h
  have h1 := congrArg Prod.fst h
  have h2 := congrArg Prod.snd h
  simp only at h1 h2
  rw [Bool.eq_iff_iff, CmpIntColor_iff, CmpIntColor_iff, h1, h2]

/-- The lookup `find` succeeds for a colour that has an element of the same alpha and
luminance in the set, and returns the position of such an element. -/
theorem SetPal.find_of_key (s : SetPal) (c d : Nat) (hd : d ∈ s)
    (hk : colorKey d = colorKey c) :
    SetPal.find s c < s.length
    ∧ ∃ e, s[SetPal.find s c]? = some e ∧ colorKey e = colorKey c := by
  have hex : ∃ d ∈ s, (!CmpIntColor c d && !CmpIntColor d c) = true :=
    ⟨d, hd, by simp [CmpIntColor_of_key_eq hk, CmpIntColor_of_key_eq hk.symm]⟩
  have hlt : SetPal.find s c < s.length := List.findIdx_lt_length_of_exists hex
  refine ⟨hlt, s[SetPal.find s c], List.getElem?_eq_getElem hlt, ?_⟩
  have hp := List.findIdx_getElem (w := hlt)
  simp only [Bool.and_eq_true, Bool.not_eq_true'] at hp
  exact (colorKey_eq_of_equiv hp.1 hp.2).symm

theorem SetPal.ordered_ne {s : SetPal} (hs : SetPal.Ordered s) {a b : Nat} (ha : a ∈ s)
    (hb : b ∈ s) (hne : a ≠ b) : CmpIntColor a b = true ∨ CmpIntColor b a = true := by
  unfold SetPal.Ordered at hs
  induction s with
  | nil => exact absurd ha (List.not_mem_nil _)
  | cons d ds ih =>
    rw [List.pairwise_cons] at hs
    rcases List.mem_cons.1 ha with ea | ha2
    · rcases List.mem_cons.1 hb with eb | hb2
      · exact absurd (ea.trans eb.symm) hne
      · rw [ea]; exact Or.inl (hs.1 b hb2)
    · rcases List.mem_cons.1 hb with eb | hb2
      · rw [eb]; exact Or.inr (hs.1 a ha2)
      · exact ih hs.2 ha2 hb2

/-- In an ordered set the lookup of a colour of the set returns the position of this very
colour. -/
theorem SetPal.find_mem_ordered {s : SetPal} (hs : SetPal.Ordered s) {c : Nat} (hc : c ∈ s) :
    s[SetPal.find s c]? = some c := by
  obtain ⟨_, e, he, hk⟩ := SetPal.find_of_key s c c hc rfl
  rw [he]
  by_cases hec : e = c
  · rw [hec]
  · exfalso
    have hmem : e ∈ s := List.mem_iff_getElem?.2 ⟨_, he⟩
    rcases SetPal.ordered_ne hs hmem hc hec with h | h
    · rw [CmpIntColor_of_key_eq hk] at h; exact Bool.noConfusion h
    · rw [CmpIntColor_of_key_eq hk.symm] at h; exact Bool.noConfusion h

/-- In an ordered set the position returned by the lookup of a colour is the number of
elements that the comparator orders before this colour. -/
theorem SetPal.find_eq_rank : ∀ (s : SetPal) (c : Nat), SetPal.Ordered s →
    (∃ e ∈ s, colorKey e = colorKey c) →
    SetPal.find s c = s.countP (fun d => CmpIntColor d c) := by
  intro s
  induction s with
  | nil => intro c _ h; obtain ⟨e, he, _⟩ := h; exact absurd he (List.not_mem_nil _)
  | cons d ds ih =>
    intro c hs hex
    unfold SetPal.Ordered at hs
    rw [List.pairwise_cons] at hs
    unfold SetPal.find
    rw [List.findIdx_cons, List.countP_cons]
    by_cases hq : (!CmpIntColor c d && !CmpIntColor d c) = true
    · simp only [Bool.and_eq_true, Bool.not_eq_true'] at hq
      have hkey := colorKey_eq_of_equiv hq.1 hq.2
      have hz : ds.countP (fun a => CmpIntColor a c) = 0 := by
        rw [List.countP_eq_zero]
        intro a ha
        rw [CmpIntColor_congr_right hkey, CmpIntColor_asymm (hs.1 a ha)]
        exact Bool.noConfusion
      simp [hq.1, hq.2, hz]
    · obtain ⟨e, he, hk⟩ := hex
      have hed : e ∈ ds := by
        rcases List.mem_cons.1 he with h | h
        · exfalso
          apply hq
          rw [h] at hk
          simp [CmpIntColor_of_key_eq hk, CmpIntColor_of_key_eq hk.symm]
        · exact h
      have hdc : CmpIntColor d c = true := by
        rw [← CmpIntColor_congr_right hk]; exact hs.1 e hed
      have := ih c hs.2 ⟨e, hed, hk⟩
      unfold SetPal.find at this
      simp only [Bool.not_eq_true] at hq
      simp [hq, hdc, this]

theorem index_or (i k : Nat) (hk : k < 4) :
    (i <<< 2) + k = (i <<< 2) ||| k ∧ i * 4 + k = (i <<< 2) ||| k := by
  have h := Nat.mul_add_lt_is_or (i := 2) (b := k) (by simpa using hk) i
  rw [Nat.shiftLeft_eq, Nat.mul_comm i (2 ^ 2), ← h]
  exact ⟨rfl, by omega⟩

/-- What holds of C12 for every input: when the clustering of an image (width a multiple of
8, height a multiple of the tile height) raises no error, there are `N ≤ 8` palettes and
every index byte `v` of the indexed image, for the pixel `(x, y)` of colour `c`, satisfies: `v >> 2` is the palette index
`i < N` recorded in `palettes_per_tile` for the band of the pixel; `v & 3` is the position
that the lookup of `c` in this palette returns, which is below the size of the palette, at
most 4, is the number of colours of the palette that the comparator orders before `c`, holds
a colour with the alpha and luminance of `c`, and holds `c` itself when `c` is a colour of the
palette; and `v = (i << 2) | position = (i << 2) + position`. -/
theorem index_byte_decomposition (tile_h : Nat) (image32 : PNGImage) (ppt0 : List Nat)
    (st : ClusterState) (W Hb : Nat) (ht : 0 < tile_h) (hw : image32.w = 8 * W)
    (hh : image32.h = tile_h * Hb)
    (hppt : ppt0.length = (image32.w / 8) * (image32.h / tile_h))
    (hok : main.cluster tile_h image32 ppt0 = .ok st) :
    st.palettes.length ≤ 8
    ∧ ∀ x < image32.w, ∀ y < image32.h, ∀ v c,
        v = (main.indexed tile_h image32 st).data.getD (image32.w * y + x) 0 →
        c = color32 image32.data (image32.w * y + x) →
        ∃ i pal, st.palettes_per_tile[(y / tile_h) * (image32.w / 8) + x / 8]? = some i
          ∧ st.palettes[i]? = some pal
          ∧ i < st.palettes.length
          ∧ v >>> 2 = i
          ∧ v &&& 3 = SetPal.find pal c
          ∧ SetPal.find pal c < pal.length ∧ pal.length ≤ 4
          ∧ SetPal.find pal c = pal.countP (fun d => CmpIntColor d c)
          ∧ (∃ e, pal[v &&& 3]? = some e ∧ colorKey e = colorKey c)
          ∧ (c ∈ pal → pal[v &&& 3]? = some c)
          ∧ v = (i <<< 2) ||| SetPal.find pal c
          ∧ (i <<< 2) + SetPal.find pal c = (i <<< 2) ||| SetPal.find pal c := by
  obtain ⟨⟨i1, i2, i3⟩, _⟩ := ClusterInv.cluster tile_h image32 ppt0 st W Hb ht hw hh hppt hok
  have hord := (PalettesInv.of_clusterFrom _ _ _ (PalettesInv.init ppt0) hok).2
  refine ⟨i1, ?_⟩
  intro x hx y hy v c hv hc
  -- the band of the pixel
  have hW : x / 8 < W := by omega
  have hHb : y / tile_h < Hb := by
    apply Nat.div_lt_of_lt_mul
    rw [← hh]; exact hy
  have hband : (x / 8 * 8, y / tile_h * tile_h) ∈ main.bands tile_h image32 :=
    (mem_main_bands tile_h image32 W Hb ht hw hh _).2 ⟨y / tile_h, x / 8, hHb, hW, rfl⟩
  obtain ⟨i, hi1, hi2, hi3⟩ := i3 _ hband
  have hpos : main.bandPos tile_h image32 (x / 8 * 8, y / tile_h * tile_h)
      = (y / tile_h) * (image32.w / 8) + (x / 8) := by
    unfold main.bandPos
    simp only
    rw [Nat.mul_div_cancel _ ht, Nat.mul_div_cancel _ (by decide : 0 < 8)]
  rw [hpos] at hi1
  have hcpix : c ∈ GetPaletteColors.pixels image32 (x / 8 * 8) (y / tile_h * tile_h) 8 tile_h := by
    rw [mem_pixels_iff, hc]
    refine ⟨y, x, Nat.div_mul_le_self _ _, ?_, Nat.div_mul_le_self _ _, ?_, by rw [Nat.mul_comm]⟩
    · have := Nat.lt_div_mul_add ht (a := y)
      omega
    · omega
  obtain ⟨d, hd, hkd⟩ := hi3 _ hcpix
  -- the palette of the band
  have hilt : i < st.palettes.length := hi2
  have hpal : st.palettes[i]? = some st.palettes[i] := List.getElem?_eq_getElem hilt
  have hgetD : st.palettes.getD i [] = st.palettes[i] := by
    rw [List.getD_eq_getElem?_getD, hpal]; rfl
  have hmem : st.palettes[i] ∈ st.palettes := List.getElem_mem _
  obtain ⟨hlen4, _⟩ := i2 _ hmem
  have hordi := (hord _ hmem).2
  rw [hgetD] at hd
  obtain ⟨hflt, e, he1, he2⟩ := SetPal.find_of_key _ c d hd hkd
  -- the index byte
  have hidx := indexed_data_getD tile_h image32 st x y hx hy
  have hi8 : i < 8 := by omega
  have hk4 : SetPal.find st.palettes[i] c < 4 := by omega
  obtain ⟨b1, b2, b3⟩ := index_byte i _ hi8 hk4
  have hval : v = i * 4 + SetPal.find st.palettes[i] c := by
    rw [hv, hidx]
    unfold main.indexAt
    simp only
    rw [List.getD_eq_getElem?_getD, hi1]
    simp only [Option.getD_some]
    rw [Nat.mod_eq_of_lt (show i < 256 by omega), hgetD, ← hc]
    rw [Nat.mod_eq_of_lt (show i < 256 by omega)] at b1
    exact b1
  obtain ⟨o1, o2⟩ := index_or i _ hk4
  have hv3 : v &&& 3 = SetPal.find st.palettes[i] c := by rw [hval]; exact b3
  refine ⟨i, st.palettes[i], hi1, hpal, hilt, by rw [hval]; exact b2, hv3, hflt, hlen4,
    SetPal.find_eq_rank _ c hordi ⟨d, hd, hkd⟩, ⟨e, by rw [hv3]; exact he1, he2⟩, ?_,
    by rw [hval]; exact o2, o1⟩
  intro hcm
  rw [hv3]
  exact SetPal.find_mem_ordered hordi hcm

set_option maxRecDepth 1000000 in
/-- The decomposition at the image `imgFour`, one band of four colours and one palette. -/
theorem index_byte_decomposition_witness :
    ∃ st, main.cluster 8 imgFour [0] = .ok st
      ∧ imgFour.w = 8 * 1 ∧ imgFour.h = 8 * 1
      ∧ [0].length = (imgFour.w / 8) * (imgFour.h / 8)
      ∧ st.palettes.length ≤ 8
      ∧ ∀ x < imgFour.w, ∀ y < imgFour.h, ∀ v c,
        v = (main.indexed 8 imgFour st).data.getD (imgFour.w * y + x) 0 →
        c = color32 imgFour.data (imgFour.w * y + x) →
        ∃ i pal, st.palettes_per_tile[(y / 8) * (imgFour.w / 8) + x / 8]? = some i
          ∧ st.palettes[i]? = some pal
          ∧ i < st.palettes.length
          ∧ v >>> 2 = i
          ∧ v &&& 3 = SetPal.find pal c
          ∧ SetPal.find pal c < pal.length ∧ pal.length ≤ 4
          ∧ SetPal.find pal c = pal.countP (fun d => CmpIntColor d c)
          ∧ (∃ e, pal[v &&& 3]? = some e ∧ colorKey e = colorKey c)
          ∧ (c ∈ pal → pal[v &&& 3]? = some c)
          ∧ v = (i <<< 2) ||| SetPal.find pal c
          ∧ (i <<< 2) + SetPal.find pal c = (i <<< 2) ||| SetPal.find pal c := by
  have hok : main.cluster 8 imgFour [0] = .ok ⟨[[1, 2, 3, 4]], [0]⟩ := by decide
  exact ⟨⟨[[1, 2, 3, 4]], [0]⟩, hok, by decide, by decide, by decide,
    index_byte_decomposition 8 imgFour [0] ⟨[[1, 2, 3, 4]], [0]⟩ 1 1 (by decide) (by decide)
      (by decide) (by decide) hok⟩

/-! ## C13: the blank report of the tile encoder -/

theorem foldl_or_mod_lt (f : Nat → Nat) : ∀ (is : List Nat) (l0 : Nat), l0 < 256 →
    is.foldl (fun l i => (l ||| f i) % 256) l0 < 256 := by
  intro is
  induction is with
  | nil => intro l0 h; exact h
  | cons i is ih => intro l0 _; exact ih _ (Nat.mod_lt _ (by decide))

theorem row_lt (img : PNGImage) (x y j : Nat) :
    (PNGImage.ExtractGBTile.row img x y j).1 < 256
    ∧ (PNGImage.ExtractGBTile.row img x y j).2 < 256 := by
  unfold PNGImage.ExtractGBTile.row
  rw [row_fst]
  exact ⟨foldl_or_mod_lt _ _ _ (by decide), foldl_or_mod_lt _ _ _ (by decide)⟩

theorem byte_eq_zero_iff (b : Nat) (hb : b < 256) : b = 0 ↔ ∀ i < 8, BIT b (7 - i) = 0 := by
  constructor
  · intro h i _
    rw [h]; simp [BIT]
  · intro h
    apply Nat.eq_of_testBit_eq
    intro k
    rw [Nat.zero_testBit]
    by_cases hk : k < 8
    · have := h (7 - k) (by omega)
      rw [show 7 - (7 - k) = k by omega, BIT_eq_zero_iff] at this
      exact this
    · exact Nat.testBit_lt_two_pow (lt_of_lt_of_le hb
        (by
          calc 256 = 2 ^ 8 := rfl
            _ ≤ 2 ^ k := Nat.pow_le_pow_right (by decide) (by omega)))

theorem two_bits_zero (c : Nat) (hc : c < 4) : (BIT c 0 = 0 ∧ BIT c 1 = 0) ↔ c = 0 := by
  interval_cases c <;> decide

/-- Both bytes of a row are zero exactly when the eight pixels of the row have index 0. -/
theorem row_eq_zero_iff (img : PNGImage) (x y j : Nat) :
    ((PNGImage.ExtractGBTile.row img x y j).1 = 0 ∧ (PNGImage.ExtractGBTile.row img x y j).2 = 0)
      ↔ ∀ i < 8, img.GetGBColor (x + i) (y + j) = 0 := by
  obtain ⟨h1, h2⟩ := row_lt img x y j
  rw [byte_eq_zero_iff _ h1, byte_eq_zero_iff _ h2]
  have hc : ∀ i, img.GetGBColor (x + i) (y + j) < 4 := fun i => Nat.mod_lt _ (by decide)
  constructor
  · rintro ⟨a, b⟩ i hi
    have hb := row_bits img x y j i hi
    exact (two_bits_zero _ (hc i)).1 ⟨by rw [← hb.1]; exact a i hi, by rw [← hb.2]; exact b i hi⟩
  · intro h
    constructor
    · intro i hi
      rw [(row_bits img x y j i hi).1, h i hi]; rfl
    · intro i hi
      rw [(row_bits img x y j i hi).2, h i hi]; rfl

theorem rows_snd (img : PNGImage) (x y n : Nat) (data : List Nat) :
    (PNGImage.ExtractGBTile.rows img x y n data).2 = true
      ↔ ∀ j < n, (PNGImage.ExtractGBTile.row img x y j).1 = 0
          ∧ (PNGImage.ExtractGBTile.row img x y j).2 = 0 := by
  induction n with
  | zero => simp [PNGImage.ExtractGBTile.rows]
  | succ n ih =>
    rw [rows_succ]
    simp only [Bool.and_eq_true, beq_iff_eq, ih]
    constructor
    · rintro ⟨⟨a, b⟩, c⟩ j hj
      by_cases h : j = n
      · rw [h]; exact ⟨b, c⟩
      · exact a j (by omega)
    · intro h
      exact ⟨⟨fun j hj => h j (by omega), (h n (by omega)).1⟩, (h n (by omega)).2⟩

/-- The flag returned by `ExtractGBTile` is false exactly when all the pixels of the block
have the colour index 0, and exactly when all the bytes written are zero. -/
theorem ExtractGBTile_blank_iff (cfg : Config) (img : PNGImage) (x y H : Nat) (tile : Tile)
    (hlen : tile.data.length = 2 * H) :
    ((img.ExtractGBTile cfg x y H tile).1 = false
      ↔ ∀ j < H, ∀ i < 8, img.GetGBColor (x + i) (y + j) = 0)
    ∧ ((img.ExtractGBTile cfg x y H tile).1 = false
      ↔ ∀ k < 2 * H, (img.ExtractGBTile cfg x y H tile).2.data.getD k 0 = 0) := by
  have hflag : (img.ExtractGBTile cfg x y H tile).1 = false
      ↔ ∀ j < H, (PNGImage.ExtractGBTile.row img x y j).1 = 0
          ∧ (PNGImage.ExtractGBTile.row img x y j).2 = 0 := by
    rw [← rows_snd img x y H tile.data]
    simp [PNGImage.ExtractGBTile]
  refine ⟨?_, ?_⟩
  · rw [hflag]
    constructor
    · intro h j hj
      exact (row_eq_zero_iff img x y j).1 (h j hj)
    · intro h j hj
      exact (row_eq_zero_iff img x y j).2 (h j hj)
  · rw [hflag]
    simp only [PNGImage.ExtractGBTile]
    constructor
    · intro h k hk
      have hg := rows_getD img x y H tile.data (k / 2) (by omega) (by omega)
      rcases Nat.mod_two_eq_zero_or_one k with h0 | h1
      · rw [show k = 2 * (k / 2) by omega, hg.1]
        exact (h (k / 2) (by omega)).1
      · rw [show k = 2 * (k / 2) + 1 by omega, hg.2]
        exact (h (k / 2) (by omega)).2
    · intro h j hj
      have hg := rows_getD img x y H tile.data j hj (by omega)
      exact ⟨by rw [← hg.1]; exact h _ (by omega), by rw [← hg.2]; exact h _ (by omega)⟩

/-- C13: `ExtractGBTile`, called with a tile of `2 * H` bytes, returns false exactly when
every one of the `2 * H` bytes it wrote is zero; this holds exactly when every pixel of the
8 x H block has the colour index 0, that is `data % 4 = 0` whatever the palette bits of the
pixel; and it returns true exactly when some pixel of the block has a colour index other
than 0. -/
theorem ExtractGBTile_reports_blank (cfg : Config) (img : PNGImage) (x y H : Nat) (tile : Tile)
    (hlen : tile.data.length = 2 * H) :
    ((img.ExtractGBTile cfg x y H tile).1 = false
      ↔ ∀ k < 2 * H, (img.ExtractGBTile cfg x y H tile).2.data.getD k 0 = 0)
    ∧ ((∀ k < 2 * H, (img.ExtractGBTile cfg x y H tile).2.data.getD k 0 = 0)
      ↔ ∀ j < H, ∀ i < 8, img.data.getD (img.w * (y + j) + (x + i)) 0 % 4 = 0)
    ∧ ((img.ExtractGBTile cfg x y H tile).1 = true
      ↔ ∃ j < H, ∃ i < 8, img.data.getD (img.w * (y + j) + (x + i)) 0 % 4 ≠ 0) := by
  obtain ⟨h1, h2⟩ := ExtractGBTile_blank_iff cfg img x y H tile hlen
  refine ⟨h2, h2.symm.trans h1, ?_⟩
  rw [← Bool.not_eq_false, h1]
  simp only [PNGImage.GetGBColor]
  push_neg
  rfl

/-- Witness of C13: the 8 x 1 block of `imgRow` is not blank, and the report is true. -/
theorem ExtractGBTile_reports_blank_witness :
    (Tile.new 2).data.length = 2 * 1
    ∧ (imgRow.ExtractGBTile cfgSprite8 0 0 1 (Tile.new 2)).1 = true
    ∧ ((imgRow.ExtractGBTile cfgSprite8 0 0 1 (Tile.new 2)).1 = true
      ↔ ∃ j < 1, ∃ i < 8, imgRow.data.getD (imgRow.w * (0 + j) + (0 + i)) 0 % 4 ≠ 0) :=
  ⟨by decide, by decide,
    (ExtractGBTile_reports_blank cfgSprite8 imgRow 0 0 1 (Tile.new 2) (by decide)).2.2⟩

/-! ## C14: a blank sprite cell -/

theorem GetMetaSprite_block_blank (cfg : Config) (img : PNGImage) (st : SpriteState) (x y : Nat)
    (h : (img.ExtractGBTile cfg x y cfg.tile_h (Tile.new (cfg.tile_h * 2))).1 = false) :
    GetMetaSprite.block cfg img st x y = st := by
  simp [GetMetaSprite.block, h]

theorem GetMetaSprite_run_blank (cfg : Config) (img : PNGImage) :
    ∀ (cs : List (Nat × Nat)) (st : SpriteState),
      (∀ c ∈ cs, (img.ExtractGBTile cfg c.1 c.2 cfg.tile_h (Tile.new (cfg.tile_h * 2))).1 = false) →
      GetMetaSprite.run cfg img st cs = st := by
  intro cs
  induction cs with
  | nil => intro st _; rfl
  | cons c cs ih =>
    intro st h
    have hstep : GetMetaSprite.run cfg img st (c :: cs)
        = GetMetaSprite.run cfg img (GetMetaSprite.block cfg img st c.1 c.2) cs := rfl
    rw [hstep, GetMetaSprite_block_blank cfg img st c.1 c.2 (h c (List.mem_cons_self _ _))]
    exact ih st (fun d hd => h d (List.mem_cons_of_mem _ hd))

theorem Tile_new_length (n : Nat) : (Tile.new n).data.length = n := by
  simp [Tile.new]

/-- C14: when every pixel of every 8 x tile_h block that `GetMetaSprite` visits in a cell has
the colour index 0, the call appends exactly one metasprite to `sprites`, this metasprite has
no placement, and the tile library is the one before the call. -/
theorem GetMetaSprite_blank_cell (cfg : Config) (img : PNGImage) (tiles : List Tile)
    (sprites : List (List MTTile)) (_x _y _w _h : Nat) (pivot_x pivot_y : Int)
    (_ht : 0 < cfg.tile_h)
    (hblank : ∀ b ∈ GetMetaSprite.anchors cfg img _x _y _w _h, ∀ j < cfg.tile_h, ∀ i < 8,
      img.data.getD (img.w * (b.2 + j) + (b.1 + i)) 0 % 4 = 0) :
    GetMetaSprite cfg img tiles sprites _x _y _w _h pivot_x pivot_y = (tiles, sprites ++ [[]])
    ∧ (GetMetaSprite cfg img tiles sprites _x _y _w _h pivot_x pivot_y).2.length
        = sprites.length + 1 := by
  have hrun := GetMetaSprite_run_blank cfg img (GetMetaSprite.anchors cfg img _x _y _w _h)
    ⟨tiles, [], (_x : Int) + pivot_x, (_y : Int) + pivot_y⟩
    (fun b hb => (ExtractGBTile_blank_iff cfg img b.1 b.2 cfg.tile_h _
      (by rw [Tile_new_length, Nat.mul_comm])).1.2 (hblank b hb))
  have hres : GetMetaSprite cfg img tiles sprites _x _y _w _h pivot_x pivot_y
      = (tiles, sprites ++ [[]]) := by
    unfold GetMetaSprite
    simp only
    rw [GetMetaSprite_loop_eq_run, hrun]
  rw [hres]
  exact ⟨rfl, by simp⟩
set_option maxRecDepth 100000 in
/-- Witness of C14: the image `imgBlank` as one cell of 16 x 8 pixels, tile height 8, with a
library of one tile and one metasprite before the call. -/
theorem GetMetaSprite_blank_cell_witness :
    0 < cfgSprite8.tile_h
    ∧ GetMetaSprite.anchors cfgSprite8 imgBlank 0 0 16 8 = [(0, 0), (8, 0)]
    ∧ (∀ b ∈ GetMetaSprite.anchors cfgSprite8 imgBlank 0 0 16 8, ∀ j < cfgSprite8.tile_h,
        ∀ i < 8, imgBlank.data.getD (imgBlank.w * (b.2 + j) + (b.1 + i)) 0 % 4 = 0)
    ∧ GetMetaSprite cfgSprite8 imgBlank [tileCorner] [[⟨0, 0, 0, 0⟩]] 0 0 16 8 8 4
        = ([tileCorner], [[⟨0, 0, 0, 0⟩]] ++ [[]]) :=
  ⟨by decide, by decide, by decide,
    (GetMetaSprite_blank_cell cfgSprite8 imgBlank [tileCorner] [[⟨0, 0, 0, 0⟩]] 0 0 16 8 8 4
      (by decide) (by decide)).1⟩

/-! ## C15: the index stored in a placement record -/

set_option maxRecDepth 1000000 in
/-- C15 is false for a library index of 128 or more. With tile height 16 and the library
`lib128`, the block of `imgDot16` is not found: it is appended at position 128, the resolve
step returns the index 128, and the index stored in the placement record is 0, not 256. -/
theorem GetMetaSprite_index_wraps :
    (imgDot16.ExtractGBTile cfgSprite16 0 0 16 (Tile.new (16 * 2))).1 = true
    ∧ (resolveTile cfgSprite16 lib128
        (imgDot16.ExtractGBTile cfgSprite16 0 0 16 (Tile.new (16 * 2))).2).2.1 = 128
    ∧ (GetMetaSprite cfgSprite16 imgDot16 lib128 [] 0 0 8 16 4 8).2 = [[⟨-4, -8, 0, 0⟩]]
    ∧ ¬ (∀ m ∈ ((GetMetaSprite cfgSprite16 imgDot16 lib128 [] 0 0 8 16 4 8).2.getD 0 []),
        m.offset_idx = 2 * (resolveTile cfgSprite16 lib128
          (imgDot16.ExtractGBTile cfgSprite16 0 0 16 (Tile.new (16 * 2))).2).2.1) := by
  decide

theorem GetMetaSprite_run_snoc (cfg : Config) (img : PNGImage) (st : SpriteState)
    (cs : List (Nat × Nat)) (c : Nat × Nat) :
    GetMetaSprite.run cfg img st (cs ++ [c])
      = GetMetaSprite.block cfg img (GetMetaSprite.run cfg img st cs) c.1 c.2 := by
  simp [GetMetaSprite.run, List.foldl_append]

/-- The blank blocks leave the state of the loop unchanged: the loop over a list of anchors
is the loop over its non-blank blocks. -/
theorem GetMetaSprite_run_filter (cfg : Config) (img : PNGImage) :
    ∀ (cs : List (Nat × Nat)) (st : SpriteState),
      GetMetaSprite.run cfg img st cs
        = GetMetaSprite.run cfg img st (cs.filter (fun c =>
            (img.ExtractGBTile cfg c.1 c.2 cfg.tile_h (Tile.new (cfg.tile_h * 2))).1)) := by
  intro cs
  induction cs with
  | nil => intro st; rfl
  | cons c cs ih =>
    intro st
    have hstep : ∀ l, GetMetaSprite.run cfg img st (c :: l)
        = GetMetaSprite.run cfg img (GetMetaSprite.block cfg img st c.1 c.2) l := fun _ => rfl
    cases hb : (img.ExtractGBTile cfg c.1 c.2 cfg.tile_h (Tile.new (cfg.tile_h * 2))).1
    · rw [List.filter_cons_of_neg (by simp [hb]), hstep,
        GetMetaSprite_block_blank cfg img st c.1 c.2 hb]
      exact ih st
    · rw [List.filter_cons_of_pos (by simp [hb]), hstep, hstep]
      exact ih _

/-- The record that the loop body appends for a non-blank block. -/
theorem GetMetaSprite_block_record (cfg : Config) (img : PNGImage) (st : SpriteState) (x y : Nat)
    (h : (img.ExtractGBTile cfg x y cfg.tile_h (Tile.new (cfg.tile_h * 2))).1 = true) :
    ∃ m, (GetMetaSprite.block cfg img st x y).mt_sprite = st.mt_sprite ++ [m]
      ∧ m.offset_idx
          = (if cfg.tile_h = 16 then
              ((resolveTile cfg st.tiles
                (img.ExtractGBTile cfg x y cfg.tile_h (Tile.new (cfg.tile_h * 2))).2).2.1 * 2) % 256
            else
              (resolveTile cfg st.tiles
                (img.ExtractGBTile cfg x y cfg.tile_h (Tile.new (cfg.tile_h * 2))).2).2.1)
      ∧ m.props
          = ((resolveTile cfg st.tiles
              (img.ExtractGBTile cfg x y cfg.tile_h (Tile.new (cfg.tile_h * 2))).2).2.2
              ||| (img.data.getD (y * img.w + x) 0 >>> 2)) % 256 := by
  unfold GetMetaSprite.block
  simp only [h, if_true]
  exact ⟨_, rfl, rfl, rfl⟩

/-- State of the loop of `GetMetaSprite` after the first `n` blocks of a list of non-blank
blocks: one record per block, with the index and the properties that the resolve step
returned on the library left by the blocks before it. -/
theorem GetMetaSprite_run_take (cfg : Config) (img : PNGImage) (st0 : SpriteState)
    (ps : List (Nat × Nat))
    (hnb : ∀ p ∈ ps, (img.ExtractGBTile cfg p.1 p.2 cfg.tile_h (Tile.new (cfg.tile_h * 2))).1 = true) :
    ∀ n ≤ ps.length,
      (GetMetaSprite.run cfg img st0 (ps.take n)).mt_sprite.length = st0.mt_sprite.length + n
      ∧ ∀ k < n, ∃ p m, ps[k]? = some p
          ∧ (GetMetaSprite.run cfg img st0 (ps.take n)).mt_sprite[st0.mt_sprite.length + k]? = some m
          ∧ m.offset_idx
              = (if cfg.tile_h = 16 then
                  ((resolveTile cfg (GetMetaSprite.run cfg img st0 (ps.take k)).tiles
                    (img.ExtractGBTile cfg p.1 p.2 cfg.tile_h (Tile.new (cfg.tile_h * 2))).2).2.1 * 2)
                    % 256
                else
                  (resolveTile cfg (GetMetaSprite.run cfg img st0 (ps.take k)).tiles
                    (img.ExtractGBTile cfg p.1 p.2 cfg.tile_h (Tile.new (cfg.tile_h * 2))).2).2.1)
          ∧ m.props
              = ((resolveTile cfg (GetMetaSprite.run cfg img st0 (ps.take k)).tiles
                  (img.ExtractGBTile cfg p.1 p.2 cfg.tile_h (Tile.new (cfg.tile_h * 2))).2).2.2
                  ||| (img.data.getD (p.2 * img.w + p.1) 0 >>> 2)) % 256 := by
  intro n
  induction n with
  | zero =>
    intro _
    refine ⟨by simp [GetMetaSprite.run], ?_⟩
    intro k hk; omega
  | succ n ih =>
    intro hn
    obtain ⟨ih1, ih2⟩ := ih (by omega)
    have hn2 : n < ps.length := by omega
    have hc : ps[n]? = some ps[n] := List.getElem?_eq_getElem hn2
    have htake : ps.take (n + 1) = ps.take n ++ [ps[n]] := by
      rw [List.take_succ, hc]; rfl
    obtain ⟨m, hm1, hm2, hm3⟩ := GetMetaSprite_block_record cfg img
      (GetMetaSprite.run cfg img st0 (ps.take n)) ps[n].1 ps[n].2 (hnb _ (List.getElem_mem _))
    rw [htake, GetMetaSprite_run_snoc, hm1]
    refine ⟨by rw [List.length_append, ih1]; rfl, ?_⟩
    intro k hk
    by_cases hkn : k = n
    · subst hkn
      refine ⟨ps[k], m, hc, ?_, hm2, hm3⟩
      rw [List.getElem?_append_right (by omega), ih1]
      simp
    · obtain ⟨p, m2, h1, h2, h3, h4⟩ := ih2 k (by omega)
      refine ⟨p, m2, h1, ?_, h3, h4⟩
      rw [List.getElem?_append_left (by omega)]
      exact h2

/-- C15, amended: `GetMetaSprite` appends one metasprite with one placement record per
non-blank block of the cell, in raster order. With tile height 16 the index stored in the
record of a block is twice the index that the resolve step returned for the block, reduced
modulo 256 as the index field is one byte: it is exactly twice that index when the index is
below 128. With any other tile height (8) the stored index is the index returned by the
resolve step. The library that the `k`-th non-blank block is resolved on is the one left by
the non-blank blocks before it. -/
theorem GetMetaSprite_stored_index (cfg : Config) (img : PNGImage) (tiles : List Tile)
    (sprites : List (List MTTile)) (_x _y _w _h : Nat) (pivot_x pivot_y : Int) :
    ∃ sp, (GetMetaSprite cfg img tiles sprites _x _y _w _h pivot_x pivot_y).2 = sprites ++ [sp]
      ∧ sp.length = (GetMetaSprite.placed cfg img _x _y _w _h).length
      ∧ ∀ k p idx, (GetMetaSprite.placed cfg img _x _y _w _h)[k]? = some p →
          idx = (resolveTile cfg
            (GetMetaSprite.run cfg img ⟨tiles, [], (_x : Int) + pivot_x, (_y : Int) + pivot_y⟩
              ((GetMetaSprite.placed cfg img _x _y _w _h).take k)).tiles
            (img.ExtractGBTile cfg p.1 p.2 cfg.tile_h (Tile.new (cfg.tile_h * 2))).2).2.1 →
          ∃ m, sp[k]? = some m
            ∧ (cfg.tile_h = 16 → m.offset_idx = (2 * idx) % 256
                ∧ (idx < 128 → m.offset_idx = 2 * idx))
            ∧ (cfg.tile_h ≠ 16 → m.offset_idx = idx) := by
  have hnb : ∀ p ∈ GetMetaSprite.placed cfg img _x _y _w _h,
      (img.ExtractGBTile cfg p.1 p.2 cfg.tile_h (Tile.new (cfg.tile_h * 2))).1 = true := by
    intro p hp
    unfold GetMetaSprite.placed at hp
    exact (List.mem_filter.1 hp).2
  have hrun : GetMetaSprite.run cfg img
      ⟨tiles, [], (_x : Int) + pivot_x, (_y : Int) + pivot_y⟩
      (GetMetaSprite.anchors cfg img _x _y _w _h)
      = GetMetaSprite.run cfg img ⟨tiles, [], (_x : Int) + pivot_x, (_y : Int) + pivot_y⟩
          (GetMetaSprite.placed cfg img _x _y _w _h) :=
    GetMetaSprite_run_filter cfg img _ _
  obtain ⟨k1, k2⟩ := GetMetaSprite_run_take cfg img
    ⟨tiles, [], (_x : Int) + pivot_x, (_y : Int) + pivot_y⟩
    (GetMetaSprite.placed cfg img _x _y _w _h) hnb _ (le_refl _)
  rw [List.take_length] at k1 k2
  refine ⟨(GetMetaSprite.run cfg img ⟨tiles, [], (_x : Int) + pivot_x, (_y : Int) + pivot_y⟩
    (GetMetaSprite.placed cfg img _x _y _w _h)).mt_sprite, ?_, ?_, ?_⟩
  · simp only [GetMetaSprite, GetMetaSprite_loop_eq_run]
    rw [hrun]
  · rw [k1]; simp
  · intro k p idx hk hidx
    have hklt : k < (GetMetaSprite.placed cfg img _x _y _w _h).length := by
      by_contra hc
      rw [List.getElem?_eq_none (by omega)] at hk
      exact Option.noConfusion hk
    obtain ⟨p2, m, h1, h2, h3, _⟩ := k2 k hklt
    rw [hk] at h1
    have hp : p2 = p := (Option.some.inj h1).symm
    subst hp
    simp only [List.length_nil, Nat.zero_add] at h2
    rw [← hidx] at h3
    refine ⟨m, h2, ?_, ?_⟩
    · intro h16
      rw [if_pos h16] at h3
      refine ⟨by rw [h3, Nat.mul_comm], ?_⟩
      intro hlt
      rw [h3]; omega
    · intro h16
      rw [if_neg h16] at h3
      exact h3

set_option maxRecDepth 100000 in
/-- The amended C15 on `imgTwoSprites` with tile height 8: the stored indices are the indices
0 and 1 returned by the resolve step. -/
theorem GetMetaSprite_stored_index_witness :
    GetMetaSprite.placed cfgSprite8 imgTwoSprites 0 0 16 16 = [(0, 0), (8, 8)]
    ∧ ∃ sp, (GetMetaSprite cfgSprite8 imgTwoSprites [] [] 0 0 16 16 8 8).2 = [] ++ [sp]
      ∧ sp.length = (GetMetaSprite.placed cfgSprite8 imgTwoSprites 0 0 16 16).length
      ∧ ∀ k p idx, (GetMetaSprite.placed cfgSprite8 imgTwoSprites 0 0 16 16)[k]? = some p →
          idx = (resolveTile cfgSprite8
            (GetMetaSprite.run cfgSprite8 imgTwoSprites
              ⟨[], [], ((0 : Nat) : Int) + 8, ((0 : Nat) : Int) + 8⟩
              ((GetMetaSprite.placed cfgSprite8 imgTwoSprites 0 0 16 16).take k)).tiles
            (imgTwoSprites.ExtractGBTile cfgSprite8 p.1 p.2 cfgSprite8.tile_h
              (Tile.new (cfgSprite8.tile_h * 2))).2).2.1 →
          ∃ m, sp[k]? = some m
            ∧ (cfgSprite8.tile_h = 16 → m.offset_idx = (2 * idx) % 256
                ∧ (idx < 128 → m.offset_idx = 2 * idx))
            ∧ (cfgSprite8.tile_h ≠ 16 → m.offset_idx = idx) :=
  ⟨by decide, GetMetaSprite_stored_index cfgSprite8 imgTwoSprites [] [] 0 0 16 16 8 8⟩

/-! ## C16: the attribute array of a map -/

/-- A hit of `FindTile`: the index is the first position of a library tile that is the
candidate or one of its mirror images, of the same palette id, and the property byte is
`props_default` with the mirror bits of the match; without mirror matching the tile is the
candidate itself and no mirror bit is set. -/
theorem FindTile_some_spec (cfg : Config) (tiles : List Tile) (t : Tile) (i p : Nat)
    (h : FindTile cfg tiles t = some (i, p)) :
    ∃ u, u ∈ tiles ∧ u.pal = t.pal ∧ i = find tiles u % 256
      ∧ (p = cfg.props_default % 256 ∨ p = (cfg.props_default ||| 0x20) % 256
        ∨ p = (cfg.props_default ||| 0x20 ||| 0x40) % 256
        ∨ p = (cfg.props_default ||| 0x40) % 256)
      ∧ (cfg.flip_tiles = false → u = t ∧ p = cfg.props_default % 256) := by
  have hmem : ∀ u, find tiles u ≠ tiles.length → u ∈ tiles := by
    intro u hu
    by_contra hc
    exact hu ((find_eq_length_iff _ _).2 hc)
  unfold FindTile at h
  simp only at h
  split_ifs at h with h1 h2 h3 h4 h5
  · have e := Option.some.inj h
    exact ⟨t, hmem _ h1, rfl, (congrArg Prod.fst e).symm, Or.inl (congrArg Prod.snd e).symm,
      fun _ => ⟨rfl, (congrArg Prod.snd e).symm⟩⟩
  · have e := Option.some.inj h
    exact ⟨FlipV t, hmem _ h3, rfl, (congrArg Prod.fst e).symm,
      Or.inr (Or.inl (congrArg Prod.snd e).symm), fun hf => by rw [hf] at h2; exact absurd h2 (by decide)⟩
  · have e := Option.some.inj h
    exact ⟨FlipH (FlipV t), hmem _ h4, rfl, (congrArg Prod.fst e).symm,
      Or.inr (Or.inr (Or.inl (congrArg Prod.snd e).symm)),
      fun hf => by rw [hf] at h2; exact absurd h2 (by decide)⟩
  · have e := Option.some.inj h
    exact ⟨FlipV (FlipH (FlipV t)), hmem _ h5, rfl, (congrArg Prod.fst e).symm,
      Or.inr (Or.inr (Or.inr (congrArg Prod.snd e).symm)),
      fun hf => by rw [hf] at h2; exact absurd h2 (by decide)⟩

/-- The resolve step: the index returned is the first position, modulo 256, of a tile of the
new library that has the palette id of the candidate; the property byte is `props_default`
with or without mirror bits, without them when mirror matching is disabled. -/
theorem resolveTile_spec (cfg : Config) (tiles : List Tile) (t : Tile) :
    (∃ u, u ∈ (resolveTile cfg tiles t).1 ∧ u.pal = t.pal
      ∧ (resolveTile cfg tiles t).2.1 = find (resolveTile cfg tiles t).1 u % 256)
    ∧ ((resolveTile cfg tiles t).2.2 = cfg.props_default % 256
      ∨ (resolveTile cfg tiles t).2.2 = (cfg.props_default ||| 0x20) % 256
      ∨ (resolveTile cfg tiles t).2.2 = (cfg.props_default ||| 0x20 ||| 0x40) % 256
      ∨ (resolveTile cfg tiles t).2.2 = (cfg.props_default ||| 0x40) % 256)
    ∧ (cfg.flip_tiles = false → (resolveTile cfg tiles t).2.2 = cfg.props_default % 256) := by
  rcases resolveTile_cases cfg tiles t with ⟨i, p, hf, hr⟩ | ⟨_, hn, hr⟩
  · obtain ⟨u, h1, h2, h3, h4, h5⟩ := FindTile_some_spec cfg tiles t i p hf
    rw [hr]
    exact ⟨⟨u, h1, h2, h3⟩, h4, fun hfl => (h5 hfl).2⟩
  · rw [hr]
    refine ⟨⟨t, List.mem_append_right _ (List.mem_singleton_self t), rfl, ?_⟩, Or.inl rfl,
      fun _ => rfl⟩
    simp only
    rw [find_append_self hn]

theorem GetMap_cell_attrs (cfg : Config) (img : PNGImage) (st : MapState) (x y : Nat)
    (attrs : List Nat) (h : st.map_attributes = some attrs) :
    (GetMap.cell cfg img st x y).map_attributes
      = some (attrs.set ((y / 8) * (img.w / 8) + (x / 8))
          (((resolveTile cfg st.tiles (img.ExtractGBTile cfg x y 8 (Tile.new (8 * 2))).2).2.2
            ||| (img.data.getD (y * img.w + x) 0 >>> 2)) % 256)) := by
  unfold GetMap.cell
  simp only [h]

/-- State of the attribute array after the first `n` blocks of a list whose `k`-th block is
written at position `k`. -/
theorem GetMap_run_take_attrs (cfg : Config) (img : PNGImage) (st0 : MapState) (a0 : List Nat)
    (cs : List (Nat × Nat)) (ha : st0.map_attributes = some a0)
    (hpos : ∀ k c, cs[k]? = some c → (c.2 / 8) * (img.w / 8) + (c.1 / 8) = k)
    (hlen : cs.length ≤ a0.length) :
    ∀ n ≤ cs.length, ∃ attrs,
      (GetMap.run cfg img st0 (cs.take n)).map_attributes = some attrs
      ∧ attrs.length = a0.length
      ∧ ∀ k < n, ∃ c, cs[k]? = some c
          ∧ attrs[k]?
              = some (((resolveTile cfg (GetMap.run cfg img st0 (cs.take k)).tiles
                  (img.ExtractGBTile cfg c.1 c.2 8 (Tile.new (8 * 2))).2).2.2
                  ||| (img.data.getD (c.2 * img.w + c.1) 0 >>> 2)) % 256) := by
  intro n
  induction n with
  | zero =>
    intro _
    refine ⟨a0, by simpa [GetMap.run] using ha, rfl, ?_⟩
    intro k hk; omega
  | succ n ih =>
    intro hn
    obtain ⟨attrs, ih1, ih2, ih3⟩ := ih (by omega)
    have hn2 : n < cs.length := by omega
    have hc : cs[n]? = some cs[n] := List.getElem?_eq_getElem hn2
    have htake : cs.take (n + 1) = cs.take n ++ [cs[n]] := by
      rw [List.take_succ, hc]; rfl
    have hp := hpos n cs[n] hc
    rw [htake, GetMap_run_snoc, GetMap_cell_attrs cfg img _ _ _ attrs ih1, hp]
    refine ⟨_, rfl, by rw [List.length_set, ih2], ?_⟩
    intro k hk
    by_cases hkn : k = n
    · subst hkn
      refine ⟨cs[k], hc, ?_⟩
      rw [List.getElem?_set_self (by omega)]
    · obtain ⟨c, h1, h2⟩ := ih3 k (by omega)
      refine ⟨c, h1, ?_⟩
      rw [List.getElem?_set_ne (by omega)]
      exact h2

/-- The positions of the blocks of the raster scan of `GetMap`. -/
theorem GetMap_cells_pos (img : PNGImage) (W Hc : Nat) (hw : img.w = 8 * W)
    (hh : img.h = 8 * Hc) :
    (GetMap.cells img).length = Hc * W
    ∧ (∀ r < Hc, ∀ c < W, (GetMap.cells img)[r * W + c]? = some (8 * c, 8 * r))
    ∧ ∀ k c, (GetMap.cells img)[k]? = some c → (c.2 / 8) * (img.w / 8) + (c.1 / 8) = k := by
  have hW : img.w / 8 = W := by omega
  have hcells := GetMap_cells_eq img W Hc hw hh
  have hclen : (GetMap.cells img).length = Hc * W := by
    rw [hcells, flatMap_rows_length]
  have hget : ∀ r < Hc, ∀ c < W, (GetMap.cells img)[r * W + c]? = some (c * 8, r * 8) := by
    intro r hr c hc
    rw [hcells]
    exact flatMap_rows_getElem? (fun r c => (c * 8, r * 8)) W Hc r c hr hc
  refine ⟨hclen, ?_, ?_⟩
  · intro r hr c hc
    rw [hget r hr c hc, Nat.mul_comm c, Nat.mul_comm r]
  · intro k c hk
    have hk2 : k < Hc * W := by
      by_contra hcon
      rw [List.getElem?_eq_none (by omega)] at hk
      exact Option.noConfusion hk
    have hWpos : 0 < W := by
      rcases Nat.eq_zero_or_pos W with h | h
      · rw [h] at hk2; omega
      · exact h
    have hdiv : k / W < Hc := Nat.div_lt_of_lt_mul (by rw [Nat.mul_comm]; exact hk2)
    have hmod : k % W < W := Nat.mod_lt _ hWpos
    have := hget (k / W) hdiv (k % W) hmod
    rw [Nat.div_add_mod'] at this
    rw [hk] at this
    rw [Option.some.inj this, hW]
    simp only
    rw [Nat.mul_div_cancel _ (by decide), Nat.mul_div_cancel _ (by decide)]
    exact Nat.div_add_mod' k W

theorem getD_lt_of_bytes (l : List Nat) (h : ∀ b ∈ l, b < 256) (k : Nat) : l.getD k 0 < 256 := by
  rw [List.getD_eq_getElem?_getD]
  by_cases hk : k < l.length
  · rw [List.getElem?_eq_getElem hk]
    exact h _ (List.getElem_mem _)
  · rw [List.getElem?_eq_none (by omega)]
    exact (by decide : (0 : Nat) < 256)

theorem mainMap_eq_run (cfg : Config) (img : PNGImage) (m0 a0 : List Nat) :
    mainMap cfg img m0 a0 = GetMap.run cfg img
      ⟨[], m0, if cfg.use_map_attributes then some a0 else none⟩ (GetMap.cells img) := by
  unfold mainMap; exact GetMap_eq_run _ _ _

/-- C16: in map mode with the attribute array (`use_map_attributes`), for an image whose
width and height are multiples of 8, with pixel bytes and `props_default` that fit a byte,
after `GetMap` the attribute array has `(w / 8) * (h / 8)` entries and, for every cell row
`r` and column `c`, the entry at the raster position `r * (w / 8) + c`, the position of the
tile index of the cell in `map`, is the property byte that the resolve step returned for the
block of the cell, or-ed with the palette id `data[y * w + x] >> 2` of the top-left pixel
`(x, y) = (8c, 8r)` of the block. The property byte is `props_default`, alone or with the
mirror bits `0x20`, `0x20 | 0x40` or `0x40`, and `props_default` alone when mirror matching
is disabled. -/
theorem GetMap_attributes (cfg : Config) (img : PNGImage) (m0 a0 : List Nat) (W Hc : Nat)
    (hattr : cfg.use_map_attributes = true) (hpd : cfg.props_default < 256)
    (hw : img.w = 8 * W) (hh : img.h = 8 * Hc) (hbytes : ∀ b ∈ img.data, b < 256)
    (hm0 : m0.length = (img.w * img.h) / 64) (ha0 : a0.length = (img.w * img.h) / 64) :
    ∃ attrs, (mainMap cfg img m0 a0).map_attributes = some attrs
      ∧ attrs.length = (img.w / 8) * (img.h / 8)
      ∧ ∀ r < img.h / 8, ∀ c < img.w / 8, ∀ res,
          res = resolveTile cfg
            (GetMap.run cfg img ⟨[], m0, some a0⟩
              ((GetMap.cells img).take (r * (img.w / 8) + c))).tiles
            (img.ExtractGBTile cfg (8 * c) (8 * r) 8 (Tile.new (8 * 2))).2 →
          (mainMap cfg img m0 a0).map[r * (img.w / 8) + c]? = some res.2.1
          ∧ attrs[r * (img.w / 8) + c]?
              = some (res.2.2 ||| (img.data.getD (8 * r * img.w + 8 * c) 0 >>> 2))
          ∧ (res.2.2 = cfg.props_default ∨ res.2.2 = cfg.props_default ||| 0x20
            ∨ res.2.2 = cfg.props_default ||| 0x20 ||| 0x40
            ∨ res.2.2 = cfg.props_default ||| 0x40)
          ∧ (cfg.flip_tiles = false → res.2.2 = cfg.props_default) := by
  have hW : img.w / 8 = W := by omega
  have hH : img.h / 8 = Hc := by omega
  obtain ⟨hclen, hget, hpos⟩ := GetMap_cells_pos img W Hc hw hh
  have hlen64 : (img.w * img.h) / 64 = Hc * W := by
    rw [hw, hh, show 8 * W * (8 * Hc) = Hc * W * 64 by ring]
    exact Nat.mul_div_cancel _ (by decide)
  have hfinal := mainMap_eq_run cfg img m0 a0
  rw [hattr] at hfinal
  simp only [if_true] at hfinal
  obtain ⟨_, _, km⟩ := GetMap_run_take cfg img ⟨[], m0, some a0⟩ (GetMap.cells img) hpos
    (by simp only; omega) (GetMap.cells img).length (le_refl _)
  obtain ⟨attrs, ka1, ka2, ka3⟩ := GetMap_run_take_attrs cfg img ⟨[], m0, some a0⟩ a0
    (GetMap.cells img) rfl hpos (by omega) (GetMap.cells img).length (le_refl _)
  rw [List.take_length] at km ka1
  rw [hfinal, hW, hH]
  refine ⟨attrs, ka1, by rw [ka2, ha0, hlen64, Nat.mul_comm], ?_⟩
  intro r hr c hc res hres
  have hk : r * W + c < (GetMap.cells img).length := by
    rw [hclen]
    calc r * W + c < r * W + W := by omega
      _ = (r + 1) * W := by ring
      _ ≤ Hc * W := Nat.mul_le_mul_right _ hr
  obtain ⟨cell, h1, h2, _⟩ := km (r * W + c) hk
  obtain ⟨cell2, g1, g2⟩ := ka3 (r * W + c) hk
  have hcell : cell = (8 * c, 8 * r) := by
    have := hget r hr c hc
    rw [h1] at this
    exact Option.some.inj this
  have hcell2 : cell2 = (8 * c, 8 * r) := by
    have := hget r hr c hc
    rw [g1] at this
    exact Option.some.inj this
  subst hcell
  subst hcell2
  simp only at h2 g2
  rw [← hres] at h2 g2
  obtain ⟨_, s2, s3⟩ := resolveTile_spec cfg
    (GetMap.run cfg img ⟨[], m0, some a0⟩ ((GetMap.cells img).take (r * W + c))).tiles
    (img.ExtractGBTile cfg (8 * c) (8 * r) 8 (Tile.new (8 * 2))).2
  rw [← hres] at s2 s3
  have p20 : cfg.props_default ||| 0x20 < 256 := Nat.or_lt_two_pow (n := 8) hpd (by decide)
  rw [Nat.mod_eq_of_lt hpd, props_byte _ _ hpd (by decide), props_byte _ _ p20 (by decide),
    props_byte _ _ hpd (by decide)] at s2
  rw [Nat.mod_eq_of_lt hpd] at s3
  have hres256 : res.2.2 < 256 := by
    rcases s2 with e | e | e | e <;> rw [e]
    · exact hpd
    · exact p20
    · exact Nat.or_lt_two_pow (n := 8) p20 (by decide)
    · exact Nat.or_lt_two_pow (n := 8) hpd (by decide)
  have hpal : img.data.getD (8 * r * img.w + 8 * c) 0 >>> 2 < 256 := by
    rw [Nat.shiftRight_eq_div_pow]
    exact lt_of_le_of_lt (Nat.div_le_self _ _) (getD_lt_of_bytes _ hbytes _)
  refine ⟨h2, ?_, s2, s3⟩
  rw [g2, props_byte _ _ hres256 hpal]

set_option maxRecDepth 100000 in
/-- Witness of C16: the two blocks of `imgTwoPalettes` have the same colour indices and the
palette ids 1 and 2; with the attribute array they share the tile 0 and the attributes are
1 and 2. -/
theorem GetMap_attributes_witness :
    cfgMapAttr.use_map_attributes = true ∧ cfgMapAttr.props_default < 256
    ∧ imgTwoPalettes.w = 8 * 2 ∧ imgTwoPalettes.h = 8 * 1
    ∧ (∀ b ∈ imgTwoPalettes.data, b < 256)
    ∧ (mainMap cfgMapAttr imgTwoPalettes [7, 7] [9, 9]).map = [0, 0]
    ∧ (mainMap cfgMapAttr imgTwoPalettes [7, 7] [9, 9]).map_attributes = some [1, 2]
    ∧ ∃ attrs, (mainMap cfgMapAttr imgTwoPalettes [7, 7] [9, 9]).map_attributes = some attrs
      ∧ attrs.length = (imgTwoPalettes.w / 8) * (imgTwoPalettes.h / 8)
      ∧ ∀ r < imgTwoPalettes.h / 8, ∀ c < imgTwoPalettes.w / 8, ∀ res,
          res = resolveTile cfgMapAttr
            (GetMap.run cfgMapAttr imgTwoPalettes ⟨[], [7, 7], some [9, 9]⟩
              ((GetMap.cells imgTwoPalettes).take (r * (imgTwoPalettes.w / 8) + c))).tiles
            (imgTwoPalettes.ExtractGBTile cfgMapAttr (8 * c) (8 * r) 8 (Tile.new (8 * 2))).2 →
          (mainMap cfgMapAttr imgTwoPalettes [7, 7] [9, 9]).map[r * (imgTwoPalettes.w / 8) + c]?
              = some res.2.1
          ∧ attrs[r * (imgTwoPalettes.w / 8) + c]?
              = some (res.2.2
                  ||| (imgTwoPalettes.data.getD (8 * r * imgTwoPalettes.w + 8 * c) 0 >>> 2))
          ∧ (res.2.2 = cfgMapAttr.props_default ∨ res.2.2 = cfgMapAttr.props_default ||| 0x20
            ∨ res.2.2 = cfgMapAttr.props_default ||| 0x20 ||| 0x40
            ∨ res.2.2 = cfgMapAttr.props_default ||| 0x40)
          ∧ (cfgMapAttr.flip_tiles = false → res.2.2 = cfgMapAttr.props_default) :=
  ⟨by decide, by decide, by decide, by decide, by decide, by decide, by decide,
    GetMap_attributes cfgMapAttr imgTwoPalettes [7, 7] [9, 9] 2 1 (by decide) (by decide)
      (by decide) (by decide) (by decide) (by decide) (by decide)⟩

/-! ## C17: the palette id of the library tiles -/

theorem resolveTile_prefix (cfg : Config) (tiles : List Tile) (t : Tile) :
    tiles <+: (resolveTile cfg tiles t).1 := by
  rcases resolveTile_cases cfg tiles t with ⟨i, p, _, hr⟩ | ⟨_, _, hr⟩
  · rw [hr]
  · rw [hr]; exact List.prefix_append _ _

theorem GetMap_run_prefix (cfg : Config) (img : PNGImage) :
    ∀ (cs : List (Nat × Nat)) (st : MapState), st.tiles <+: (GetMap.run cfg img st cs).tiles := by
  intro cs
  induction cs with
  | nil => intro st; exact List.prefix_refl _
  | cons c cs ih =>
    intro st
    have hstep : GetMap.run cfg img st (c :: cs)
        = GetMap.run cfg img (GetMap.cell cfg img st c.1 c.2) cs := rfl
    rw [hstep]
    refine List.IsPrefix.trans ?_ (ih _)
    rw [GetMap_cell_tiles]
    exact resolveTile_prefix _ _ _

theorem GetMap_run_append (cfg : Config) (img : PNGImage) (st : MapState)
    (l1 l2 : List (Nat × Nat)) :
    GetMap.run cfg img st (l1 ++ l2) = GetMap.run cfg img (GetMap.run cfg img st l1) l2 := by
  simp [GetMap.run, List.foldl_append]

/-- The library after the first `n` blocks is a prefix of the library after all blocks. -/
theorem GetMap_run_take_prefix (cfg : Config) (img : PNGImage) (st : MapState)
    (cs : List (Nat × Nat)) (n : Nat) :
    (GetMap.run cfg img st (cs.take n)).tiles <+: (GetMap.run cfg img st cs).tiles := by
  conv_rhs => rw [← List.take_append_drop n cs, GetMap_run_append]
  exact GetMap_run_prefix cfg img _ _

/-- The tile at the index returned by the resolve step has the palette id of the candidate,
when the new library has at most 256 tiles. -/
theorem resolveTile_pal (cfg : Config) (tiles : List Tile) (t : Tile)
    (h256 : (resolveTile cfg tiles t).1.length ≤ 256) :
    ∃ u, (resolveTile cfg tiles t).1[(resolveTile cfg tiles t).2.1]? = some u ∧ u.pal = t.pal := by
  obtain ⟨⟨u, h1, h2, h3⟩, _, _⟩ := resolveTile_spec cfg tiles t
  have hlt := find_lt_of_mem h1
  rw [Nat.mod_eq_of_lt (by omega)] at h3
  rw [h3]
  exact ⟨u, (find_isFirstPos _ u h1).1, h2⟩

theorem ExtractGBTile_pal (cfg : Config) (img : PNGImage) (x y H : Nat) (tile : Tile)
    (hmap : cfg.export_as_map = true) (hattr : cfg.use_map_attributes = false) :
    (img.ExtractGBTile cfg x y H tile).2.pal = img.data.getD (img.w * y + x) 0 >>> 2 := by
  simp [PNGImage.ExtractGBTile, hmap, hattr]

/-- C17: in map mode without the attribute array, for an image whose width and height are
multiples of 8 and whose final tile library has at most 256 tiles, with either mirror
setting: for every cell the library tile referenced by the map entry of the cell has, in its
`pal` field, the palette id `data[y * w + x] >> 2` of the top-left pixel of the block of the
cell; hence two cells whose blocks have different palette ids never have the same map entry,
whatever their colour indices. -/
theorem GetMap_tile_palette (cfg : Config) (img : PNGImage) (m0 a0 : List Nat) (W Hc : Nat)
    (hmap : cfg.export_as_map = true) (hattr : cfg.use_map_attributes = false)
    (hw : img.w = 8 * W) (hh : img.h = 8 * Hc) (hm0 : m0.length = (img.w * img.h) / 64)
    (h256 : (mainMap cfg img m0 a0).tiles.length ≤ 256) :
    (∀ r < img.h / 8, ∀ c < img.w / 8, ∃ idx u,
        (mainMap cfg img m0 a0).map[r * (img.w / 8) + c]? = some idx
        ∧ (mainMap cfg img m0 a0).tiles[idx]? = some u
        ∧ u.pal = img.data.getD (8 * r * img.w + 8 * c) 0 >>> 2)
    ∧ ∀ r1 < img.h / 8, ∀ c1 < img.w / 8, ∀ r2 < img.h / 8, ∀ c2 < img.w / 8,
        img.data.getD (8 * r1 * img.w + 8 * c1) 0 >>> 2
          ≠ img.data.getD (8 * r2 * img.w + 8 * c2) 0 >>> 2 →
        (mainMap cfg img m0 a0).map[r1 * (img.w / 8) + c1]?
          ≠ (mainMap cfg img m0 a0).map[r2 * (img.w / 8) + c2]? := by
  have hW : img.w / 8 = W := by omega
  have hH : img.h / 8 = Hc := by omega
  obtain ⟨hclen, hget, hpos⟩ := GetMap_cells_pos img W Hc hw hh
  have hlen64 : (img.w * img.h) / 64 = Hc * W := by
    rw [hw, hh, show 8 * W * (8 * Hc) = Hc * W * 64 by ring]
    exact Nat.mul_div_cancel _ (by decide)
  have hfinal := mainMap_eq_run cfg img m0 a0
  obtain ⟨_, _, km⟩ := GetMap_run_take cfg img
    ⟨[], m0, if cfg.use_map_attributes then some a0 else none⟩ (GetMap.cells img) hpos
    (by simp only; omega) (GetMap.cells img).length (le_refl _)
  rw [List.take_length, ← hfinal] at km
  have key : ∀ r < img.h / 8, ∀ c < img.w / 8, ∃ idx u,
      (mainMap cfg img m0 a0).map[r * (img.w / 8) + c]? = some idx
      ∧ (mainMap cfg img m0 a0).tiles[idx]? = some u
      ∧ u.pal = img.data.getD (8 * r * img.w + 8 * c) 0 >>> 2 := by
    rw [hW, hH]
    intro r hr c hc
    have hk : r * W + c < (GetMap.cells img).length := by
      rw [hclen]
      calc r * W + c < r * W + W := by omega
        _ = (r + 1) * W := by ring
        _ ≤ Hc * W := Nat.mul_le_mul_right _ hr
    obtain ⟨cell, h1, h2, _⟩ := km (r * W + c) hk
    have hcell : cell = (8 * c, 8 * r) := by
      have := hget r hr c hc
      rw [h1] at this
      exact Option.some.inj this
    subst hcell
    simp only at h2
    -- the library after this block is a prefix of the final library
    have hc2 : (GetMap.cells img)[r * W + c]? = some (GetMap.cells img)[r * W + c] :=
      List.getElem?_eq_getElem hk
    have hcelleq : (GetMap.cells img)[r * W + c] = (8 * c, 8 * r) := by
      rw [hc2] at h1; exact Option.some.inj h1
    have htake : (GetMap.cells img).take (r * W + c + 1)
        = (GetMap.cells img).take (r * W + c) ++ [(8 * c, 8 * r)] := by
      rw [List.take_succ, hc2, hcelleq]; rfl
    have hpre := GetMap_run_take_prefix cfg img
      ⟨[], m0, if cfg.use_map_attributes then some a0 else none⟩ (GetMap.cells img)
      (r * W + c + 1)
    rw [htake, GetMap_run_snoc, GetMap_cell_tiles, ← hfinal] at hpre
    simp only at hpre
    obtain ⟨u, hu1, hu2⟩ := resolveTile_pal cfg
      (GetMap.run cfg img ⟨[], m0, if cfg.use_map_attributes then some a0 else none⟩
        ((GetMap.cells img).take (r * W + c))).tiles
      (img.ExtractGBTile cfg (8 * c) (8 * r) 8 (Tile.new (8 * 2))).2
      (le_trans hpre.length_le h256)
    refine ⟨_, u, h2, ?_, ?_⟩
    · obtain ⟨rest, hrest⟩ := hpre
      have hlt := resolveTile_index_lt cfg
        (GetMap.run cfg img ⟨[], m0, if cfg.use_map_attributes then some a0 else none⟩
          ((GetMap.cells img).take (r * W + c))).tiles
        (img.ExtractGBTile cfg (8 * c) (8 * r) 8 (Tile.new (8 * 2))).2
      rw [← hrest, List.getElem?_append_left hlt]
      exact hu1
    · rw [hu2, ExtractGBTile_pal cfg img _ _ _ _ hmap hattr, Nat.mul_comm img.w]
  refine ⟨key, ?_⟩
  intro r1 hr1 c1 hc1 r2 hr2 c2 hc2 hne heq
  obtain ⟨i1, u1, a1, b1, d1⟩ := key r1 hr1 c1 hc1
  obtain ⟨i2, u2, a2, b2, d2⟩ := key r2 hr2 c2 hc2
  rw [a1, a2] at heq
  have hi : i1 = i2 := Option.some.inj heq
  rw [hi, b2] at b1
  have hu : u2 = u1 := Option.some.inj b1
  rw [← d1, ← d2, hu] at hne
  exact hne rfl

set_option maxRecDepth 100000 in
/-- Witness of C17: the two blocks of `imgTwoPalettes` have the same colour indices and the
palette ids 1 and 2; without the attribute array they are two library tiles, with the
palette ids 1 and 2. -/
theorem GetMap_tile_palette_witness :
    cfgMap.export_as_map = true ∧ cfgMap.use_map_attributes = false
    ∧ imgTwoPalettes.w = 8 * 2 ∧ imgTwoPalettes.h = 8 * 1
    ∧ [7, 7].length = (imgTwoPalettes.w * imgTwoPalettes.h) / 64
    ∧ mainMap cfgMap imgTwoPalettes [7, 7] []
        = ⟨[⟨[0x80, 0, 0, 0, 0, 0, 0, 0, 0, 0, 0, 0, 0, 0, 0, 0], 1⟩,
            ⟨[0x80, 0, 0, 0, 0, 0, 0, 0, 0, 0, 0, 0, 0, 0, 0, 0], 2⟩], [0, 1], none⟩
    ∧ ∀ r < imgTwoPalettes.h / 8, ∀ c < imgTwoPalettes.w / 8, ∃ idx u,
        (mainMap cfgMap imgTwoPalettes [7, 7] []).map[r * (imgTwoPalettes.w / 8) + c]? = some idx
        ∧ (mainMap cfgMap imgTwoPalettes [7, 7] []).tiles[idx]? = some u
        ∧ u.pal = imgTwoPalettes.data.getD (8 * r * imgTwoPalettes.w + 8 * c) 0 >>> 2 := by
  have hm : mainMap cfgMap imgTwoPalettes [7, 7] []
      = ⟨[⟨[0x80, 0, 0, 0, 0, 0, 0, 0, 0, 0, 0, 0, 0, 0, 0, 0], 1⟩,
          ⟨[0x80, 0, 0, 0, 0, 0, 0, 0, 0, 0, 0, 0, 0, 0, 0, 0], 2⟩], [0, 1], none⟩ := by
    decide
  exact ⟨by decide, by decide, by decide, by decide, by decide, hm,
    (GetMap_tile_palette cfgMap imgTwoPalettes [7, 7] [] 2 1 (by decide) (by decide)
      (by decide) (by decide) (by decide) (by rw [hm]; decide)).1⟩

/-! ## C18: the exact search without mirror matching -/

set_option maxRecDepth 1000000 in
/-- C18 is false for a library of more than 256 tiles. Without mirror matching, the tile
`tileSecond` is found in the library `lib256 ++ [tileSecond]`, where its first position is
256, and the index returned is 0. -/
theorem FindTile_noflip_index_wraps :
    IsFirstPos (lib256 ++ [tileSecond]) tileSecond 256
    ∧ FindTile cfgNoFlip (lib256 ++ [tileSecond]) tileSecond = some (0, 0)
    ∧ ¬ IsFirstPos (lib256 ++ [tileSecond]) tileSecond 0 := by
  decide

/-- C18, amended: with mirror matching disabled and a default property byte, `FindTile`
returns true exactly when some library tile has the bytes and the palette id of `t`; then
`idx` is the first position of such a tile modulo 256, that is the position itself in a
library of at most 256 tiles, and `props` is `props_default`; when no library tile equals
`t`, whatever mirror images of `t` the library holds, it returns false. -/
theorem FindTile_noflip_exact (cfg : Config) (tiles : List Tile) (t : Tile)
    (hflip : cfg.flip_tiles = false) (hpd : cfg.props_default < 256) :
    ((FindTile cfg tiles t).isSome = true ↔ ∃ u ∈ tiles, u.data = t.data ∧ u.pal = t.pal)
    ∧ (∀ idx props, FindTile cfg tiles t = some (idx, props) →
        ∃ p, IsFirstPos tiles t p ∧ idx = p % 256 ∧ (tiles.length ≤ 256 → idx = p)
          ∧ props = cfg.props_default)
    ∧ ((∀ u ∈ tiles, u ≠ t) → FindTile cfg tiles t = none) := by
  obtain ⟨h1, h2⟩ := FindTile_noflip cfg tiles t hflip
  have hmem : (∃ u ∈ tiles, u.data = t.data ∧ u.pal = t.pal) ↔ t ∈ tiles := by
    constructor
    · rintro ⟨u, hu, hd, hp⟩
      rw [← Tile.ext_data_pal hd hp]; exact hu
    · intro h; exact ⟨t, h, rfl, rfl⟩
  refine ⟨?_, ?_, ?_⟩
  · rw [hmem]
    by_cases h : t ∈ tiles
    · rw [h1 h]; simp [h]
    · rw [h2 h]; simp [h]
  · intro idx props hf
    have h : t ∈ tiles := by
      by_contra hc
      rw [h2 hc] at hf
      exact Option.noConfusion hf
    rw [h1 h] at hf
    have e := Option.some.inj hf
    have e1 : find tiles t % 256 = idx := congrArg Prod.fst e
    have e2 : cfg.props_default % 256 = props := congrArg Prod.snd e
    refine ⟨find tiles t, find_isFirstPos tiles t h, e1.symm, ?_, ?_⟩
    · intro hlen
      rw [← e1]
      exact Nat.mod_eq_of_lt (lt_of_lt_of_le (find_lt_of_mem h) hlen)
    · rw [← e2]; exact Nat.mod_eq_of_lt hpd
  · intro h
    exact h2 (fun hm => h t hm rfl)

/-- Witness of C18, amended: without mirror matching `tileCorner` is found at its first
position 1 of a library that holds it twice, and is not found in a library that holds its
three mirror images only. -/
theorem FindTile_noflip_exact_witness :
    cfgNoFlip.flip_tiles = false ∧ cfgNoFlip.props_default < 256
    ∧ FindTile cfgNoFlip [tileSecond, tileCorner, tileCorner] tileCorner = some (1, 0)
    ∧ FindTile cfgNoFlip [FlipV tileCorner, FlipH tileCorner, FlipH (FlipV tileCorner)]
        tileCorner = none
    ∧ ∀ idx props, FindTile cfgNoFlip [tileSecond, tileCorner, tileCorner] tileCorner
        = some (idx, props) →
        ∃ p, IsFirstPos [tileSecond, tileCorner, tileCorner] tileCorner p ∧ idx = p % 256
          ∧ ([tileSecond, tileCorner, tileCorner].length ≤ 256 → idx = p)
          ∧ props = cfgNoFlip.props_default :=
  ⟨by decide, by decide, by decide, by decide,
    (FindTile_noflip_exact cfgNoFlip [tileSecond, tileCorner, tileCorner] tileCorner
      (by decide) (by decide)).2.1⟩

/-! ## C19: a tile and its mirror images without mirror matching -/

/-- C19 is false for a tile that equals its mirror images. Without mirror matching, the
8 x 8 tile `tileFull` and its three mirror images, resolved one after another into the empty
library, are one library tile: the library grows by one entry and the four indices are 0. -/
theorem resolveSeq_symmetric_tile :
    FlipH tileFull = tileFull ∧ FlipV tileFull = tileFull
    ∧ resolveSeq cfgNoFlip [] [tileFull, FlipH tileFull, FlipV tileFull, FlipH (FlipV tileFull)]
      = ([tileFull], [0, 0, 0, 0]) := by
  decide

/-- Without mirror matching, tiles that are pairwise different and not in the library are
appended one after another, and the indices returned are their positions modulo 256. -/
theorem resolveSeq_noflip_new (cfg : Config) (hflip : cfg.flip_tiles = false) :
    ∀ (ts tiles : List Tile), ts.Nodup → (∀ s ∈ ts, s ∉ tiles) →
      resolveSeq cfg tiles ts
        = (tiles ++ ts, (List.range ts.length).map (fun k => (tiles.length + k) % 256)) := by
  intro ts
  induction ts with
  | nil => intro tiles _ _; simp [resolveSeq]
  | cons t ts ih =>
    intro tiles hnd hnew
    rw [List.nodup_cons] at hnd
    have hmiss : FindTile cfg tiles t = none :=
      (FindTile_noflip cfg tiles t hflip).2 (hnew t (List.mem_cons_self _ _))
    have hrest := ih (tiles ++ [t]) hnd.2 (by
      intro s hs hmem
      rcases List.mem_append.1 hmem with h | h
      · exact hnew s (List.mem_cons_of_mem _ hs) h
      · rw [List.mem_singleton.1 h] at hs
        exact hnd.1 hs)
    unfold resolveSeq
    simp only
    rw [resolveTile_miss hmiss]
    simp only
    rw [hrest, List.length_cons, List.range_succ_eq_map, List.map_cons, List.map_map]
    simp only [List.append_assoc, List.singleton_append, List.length_append,
      List.length_singleton, Nat.add_zero]
    refine Prod.ext rfl ?_
    simp only
    rw [List.cons.injEq]
    refine ⟨rfl, List.map_congr_left ?_⟩
    intro k _
    show (tiles.length + 1 + k) % 256 = (tiles.length + k.succ) % 256
    congr 1
    omega

/-- C19, amended: with mirror matching disabled, when a tile `t` and its three mirror images
are pairwise different and none of them is in the library, resolving the four one after
another appends each of them as a new tile: the library grows by the four entries, in order,
and the four indices returned, the positions modulo 256, are pairwise different. -/
theorem resolveSeq_noflip_mirrors (cfg : Config) (tiles : List Tile) (t : Tile)
    (hflip : cfg.flip_tiles = false)
    (hdiff : [t, FlipH t, FlipV t, FlipH (FlipV t)].Nodup)
    (hnew : ∀ s ∈ [t, FlipH t, FlipV t, FlipH (FlipV t)], s ∉ tiles) :
    (resolveSeq cfg tiles [t, FlipH t, FlipV t, FlipH (FlipV t)]).1
      = tiles ++ [t, FlipH t, FlipV t, FlipH (FlipV t)]
    ∧ (resolveSeq cfg tiles [t, FlipH t, FlipV t, FlipH (FlipV t)]).1.length = tiles.length + 4
    ∧ (resolveSeq cfg tiles [t, FlipH t, FlipV t, FlipH (FlipV t)]).2
      = [tiles.length % 256, (tiles.length + 1) % 256, (tiles.length + 2) % 256,
          (tiles.length + 3) % 256]
    ∧ (resolveSeq cfg tiles [t, FlipH t, FlipV t, FlipH (FlipV t)]).2.Nodup := by
  rw [resolveSeq_noflip_new cfg hflip _ tiles hdiff hnew]
  refine ⟨rfl, by simp, by simp [List.range_succ], ?_⟩
  simp only [List.length_cons, List.length_nil, List.range_succ, List.range_zero,
    List.nil_append, List.cons_append, List.map_cons, List.map_nil, Nat.add_zero,
    List.nodup_cons, List.mem_cons, List.mem_singleton, List.not_mem_nil, not_false_eq_true,
    List.nodup_nil, and_true, not_or]
  omega

/-- Witness of C19, amended: `tileCorner` and its three mirror images, with the library
`[tileSecond]`. -/
theorem resolveSeq_noflip_mirrors_witness :
    cfgNoFlip.flip_tiles = false
    ∧ [tileCorner, FlipH tileCorner, FlipV tileCorner, FlipH (FlipV tileCorner)].Nodup
    ∧ (∀ s ∈ [tileCorner, FlipH tileCorner, FlipV tileCorner, FlipH (FlipV tileCorner)],
        s ∉ [tileSecond])
    ∧ (resolveSeq cfgNoFlip [tileSecond]
        [tileCorner, FlipH tileCorner, FlipV tileCorner, FlipH (FlipV tileCorner)]).2
      = [[tileSecond].length % 256, ([tileSecond].length + 1) % 256,
          ([tileSecond].length + 2) % 256, ([tileSecond].length + 3) % 256] :=
  ⟨by decide, by decide, by decide,
    (resolveSeq_noflip_mirrors cfgNoFlip [tileSecond] tileCorner (by decide) (by decide)
      (by decide)).2.2.1⟩

/-! ## C20: the order of the colours of a palette -/

theorem f32shift_le : ∀ (fuel n k : Nat), n < 2 ^ (24 + k) → f32shift fuel n ≤ k := by
  intro fuel
  induction fuel with
  | zero => intro n k _; exact Nat.zero_le _
  | succ fuel ih =>
    intro n k h
    unfold f32shift
    by_cases h24 : n < 2 ^ 24
    · rw [if_pos h24]; exact Nat.zero_le _
    · rw [if_neg h24]
      cases k with
      | zero => exact absurd h h24
      | succ k =>
        have hp : 2 ^ (24 + (k + 1)) = 2 * 2 ^ (24 + k) := by
          rw [← Nat.add_assoc, Nat.pow_succ, Nat.mul_comm]
        rw [hp] at h
        have := ih (n / 2) k (by omega)
        omega

/-- The rounding to binary32 of a value below `2^36` (in units of `2^-27`) moves it by at
most `2^11`. -/
theorem f32round_err (n : Nat) (hn : n < 2 ^ 36) :
    f32round n ≤ n + 2048 ∧ n ≤ f32round n + 2048 := by
  have hs : f32shift 40 n ≤ 12 := f32shift_le 40 n 12 hn
  unfold f32round
  simp only
  by_cases h0 : f32shift 40 n = 0
  · rw [if_pos h0]; omega
  · rw [if_neg h0]
    generalize f32shift 40 n = s at hs h0
    have hP : 2 ^ s = 2 * 2 ^ (s - 1) := by
      rw [← Nat.pow_succ', Nat.succ_eq_add_one, Nat.sub_add_cancel (by omega)]
    have hhalf : 2 ^ (s - 1) ≤ 2048 := by
      calc 2 ^ (s - 1) ≤ 2 ^ 11 := Nat.pow_le_pow_right (by decide) (by omega)
        _ = 2048 := rfl
    have hdm := Nat.div_add_mod' n (2 ^ s)
    have hr : n % 2 ^ s < 2 ^ s := Nat.mod_lt _ (Nat.two_pow_pos s)
    rw [Nat.shiftLeft_eq, Nat.shiftRight_eq_div_pow]
    split_ifs with hc
    · rw [Nat.add_mul, Nat.one_mul]
      have hge : 2 ^ (s - 1) ≤ n % 2 ^ s := by
        rcases hc with h | h
        · omega
        · omega
      generalize n / 2 ^ s * 2 ^ s = Q at hdm ⊢
      generalize n % 2 ^ s = r at hdm hr hge ⊢
      generalize 2 ^ (s - 1) = half at hP hhalf hge ⊢
      generalize 2 ^ s = P at hP hr ⊢
      omega
    · have hle : n % 2 ^ s ≤ 2 ^ (s - 1) := by
        by_contra hcon
        exact hc (Or.inl (by omega))
      generalize n / 2 ^ s * 2 ^ s = Q at hdm ⊢
      generalize n % 2 ^ s = r at hdm hr hle ⊢
      generalize 2 ^ (s - 1) = half at hP hhalf hle ⊢
      omega

/-- The luminance that the comparator computes in `float` is the exact truncated luminance
or one less. -/
theorem lum_lumExact (c : Nat) : lum c ≤ lumExact c ∧ lumExact c ≤ lum c + 1 := by
  have hR : colorByte c 3 < 256 := Nat.mod_lt _ (by decide)
  have hG : colorByte c 2 < 256 := Nat.mod_lt _ (by decide)
  have hB : colorByte c 1 < 256 := Nat.mod_lt _ (by decide)
  unfold lum lumExact
  generalize colorByte c 3 = R at hR ⊢
  generalize colorByte c 2 = G at hG ⊢
  generalize colorByte c 1 = B at hB ⊢
  have e36 : (2 : Nat) ^ 36 = 68719476736 := by norm_num
  have ea : f32_0_299 = 40131100 := rfl
  have eb : f32_0_587 = 78785808 := rfl
  have ec : f32_0_114 = 15300821 := rfl
  rw [ea, eb, ec]
  obtain ⟨a1, a2⟩ := f32round_err (R * 40131100) (by rw [e36]; omega)
  obtain ⟨b1, b2⟩ := f32round_err (G * 78785808) (by rw [e36]; omega)
  obtain ⟨c1, c2⟩ := f32round_err (B * 15300821) (by rw [e36]; omega)
  generalize f32round (R * 40131100) = x1 at a1 a2 ⊢
  generalize f32round (G * 78785808) = x2 at b1 b2 ⊢
  generalize f32round (B * 15300821) = x4 at c1 c2 ⊢
  obtain ⟨d1, d2⟩ := f32round_err (x1 + x2) (by rw [e36]; omega)
  generalize f32round (x1 + x2) = x3 at d1 d2 ⊢
  obtain ⟨f1, f2⟩ := f32round_err (x3 + x4) (by rw [e36]; omega)
  generalize f32round (x3 + x4) = F at f1 f2 ⊢
  rw [Nat.shiftRight_eq_div_pow]
  have e27 : (2 : Nat) ^ 27 = 134217728 := by norm_num
  rw [e27]
  omega

/-- An ordered set is in the order of the specification. -/
theorem SetPal.alphaLumOrdered {s : SetPal} (hs : SetPal.Ordered s) :
    SetPal.AlphaLumOrdered s := by
  intro i j c d hij hi hj
  have hjl : j < s.length := by
    by_contra hc
    rw [List.getElem?_eq_none (by omega)] at hj
    exact Option.noConfusion hj
  have hil : i < s.length := by omega
  rw [List.getElem?_eq_getElem hil] at hi
  rw [List.getElem?_eq_getElem hjl] at hj
  have hcmp := (List.pairwise_iff_getElem.1 hs) i j hil hjl hij
  rw [Option.some.inj hi, Option.some.inj hj, CmpIntColor_iff] at hcmp
  have hl := lum_lumExact c
  have hl2 := lum_lumExact d
  constructor
  · omega
  · intro he
    omega

/-- In an ordered set a colour whose alpha is the strict minimum of the set is at
position 0, and the lookup of this colour returns 0. -/
theorem SetPal.min_alpha_first {s : SetPal} (hs : SetPal.Ordered s) {c : Nat} (hc : c ∈ s)
    (hmin : ∀ d ∈ s, d ≠ c → colorByte c 0 < colorByte d 0) :
    s[0]? = some c ∧ SetPal.find s c = 0 := by
  cases s with
  | nil => exact absurd hc (List.not_mem_nil _)
  | cons e es =>
    have hec : e = c := by
      by_contra hne
      have h1 := hmin e (List.mem_cons_self _ _) hne
      have hces : c ∈ es := by
        rcases List.mem_cons.1 hc with h | h
        · exact absurd h.symm hne
        · exact h
      unfold SetPal.Ordered at hs
      rw [List.pairwise_cons] at hs
      have h2 := hs.1 c hces
      rw [CmpIntColor_iff] at h2
      omega
    subst hec
    refine ⟨List.getElem?_cons_zero, ?_⟩
    unfold SetPal.find
    rw [List.findIdx_cons]
    simp [CmpIntColor_self]

/-- C20: in every colour set built by the clusterer, the set that `GetPaletteColors` returns
for a rectangle and every palette accumulated by the clustering loop after any number of
bands, the colours are, by position, in ascending order of alpha (byte 0 of the packed
colour), and colours of equal alpha are in descending order of luminance: strictly for the
luminance that `CmpIntColor` computes in `float`, weakly for the exact truncated sum
`0.299 R + 0.587 G + 0.114 B`. A colour whose alpha is the strict minimum of its set is at
position 0 and its lookup returns 0. The palette table of the indexed image holds the colour
at position `k` of palette `i` in the slot `k` of the `i`-th group of four colours. -/
theorem palette_alpha_luminance_order (tile_h : Nat) (image32 : PNGImage)
    (bs : List (Nat × Nat)) (ppt0 : List Nat) (st : ClusterState)
    (hrun : main.clusterFrom tile_h image32 bs ⟨[], ppt0⟩ = .ok st) :
    (∀ x y w h, SetPal.AlphaLumOrdered (GetPaletteColors image32 x y w h)
      ∧ ∀ c ∈ GetPaletteColors image32 x y w h,
          (∀ d ∈ GetPaletteColors image32 x y w h, d ≠ c → colorByte c 0 < colorByte d 0) →
          (GetPaletteColors image32 x y w h)[0]? = some c
          ∧ SetPal.find (GetPaletteColors image32 x y w h) c = 0)
    ∧ ∀ (i : Nat) (pal : SetPal), st.palettes[i]? = some pal →
        SetPal.AlphaLumOrdered pal
        ∧ (∀ c ∈ pal, (∀ d ∈ pal, d ≠ c → colorByte c 0 < colorByte d 0) →
            pal[0]? = some c ∧ SetPal.find pal c = 0)
        ∧ ∀ (k c : Nat), pal[k]? = some c →
            paletteColor (main.indexed tile_h image32 st) (i * 4 + k)
              = [colorByte c 3, colorByte c 2, colorByte c 1, colorByte c 0] := by
  refine ⟨fun x y w h => ⟨SetPal.alphaLumOrdered (GetPaletteColors_ordered _ _ _ _ _),
    fun c hc hmin => SetPal.min_alpha_first (GetPaletteColors_ordered _ _ _ _ _) hc hmin⟩, ?_⟩
  obtain ⟨i8, hinv⟩ := PalettesInv.of_clusterFrom _ _ _ (PalettesInv.init ppt0) hrun
  intro i pal hi
  have hmem : pal ∈ st.palettes := List.mem_iff_getElem?.2 ⟨i, hi⟩
  obtain ⟨h4, hord⟩ := hinv pal hmem
  refine ⟨SetPal.alphaLumOrdered hord, fun c hc hmin => SetPal.min_alpha_first hord hc hmin, ?_⟩
  intro k c hk
  have hklt : k < pal.length := by
    by_contra hc
    rw [List.getElem?_eq_none (by omega)] at hk
    exact Option.noConfusion hk
  have hilt : i < st.palettes.length := by
    by_contra hc
    rw [List.getElem?_eq_none (by omega)] at hi
    exact Option.noConfusion hi
  obtain ⟨_, b2, b3⟩ := index_byte i k (by omega) (by omega)
  have htab := fun b hb => palette_table_getD st.palettes (fun p hp => (hinv p hp).1) i k c b
    pal hi hk hb
  unfold paletteColor
  simp only
  rw [b2, b3]
  unfold main.indexed
  simp only
  have t0 := htab 0 (by decide)
  have t1 := htab 1 (by decide)
  have t2 := htab 2 (by decide)
  have t3 := htab 3 (by decide)
  rw [Nat.add_zero] at t0
  rw [t0, t1, t2, t3]
  rfl

set_option maxRecDepth 1000000 in
/-- Witness of C20: the single band of `imgTransparent`. The palette holds the transparent
colour first, then the opaque colours white, red and black, of luminance 255, 76 and 0. -/
theorem palette_alpha_luminance_order_witness :
    main.clusterFrom 8 imgTransparent (main.bands 8 imgTransparent) ⟨[], [0]⟩
      = .ok ⟨[[0x00000000, 0xFFFFFFFF, 0xFF0000FF, 0x000000FF]], [0]⟩
    ∧ lum 0xFFFFFFFF = 255 ∧ lum 0xFF0000FF = 76 ∧ lum 0x000000FF = 0
    ∧ SetPal.AlphaLumOrdered [0x00000000, 0xFFFFFFFF, 0xFF0000FF, 0x000000FF]
    ∧ ((∀ d ∈ [0x00000000, 0xFFFFFFFF, 0xFF0000FF, 0x000000FF], d ≠ 0x00000000 →
          colorByte 0x00000000 0 < colorByte d 0) →
        [0x00000000, 0xFFFFFFFF, 0xFF0000FF, 0x000000FF][0]? = some 0x00000000
        ∧ SetPal.find [0x00000000, 0xFFFFFFFF, 0xFF0000FF, 0x000000FF] 0x00000000 = 0) := by
  have hrun : main.clusterFrom 8 imgTransparent (main.bands 8 imgTransparent) ⟨[], [0]⟩
      = .ok ⟨[[0x00000000, 0xFFFFFFFF, 0xFF0000FF, 0x000000FF]], [0]⟩ := by decide
  have h := (palette_alpha_luminance_order 8 imgTransparent (main.bands 8 imgTransparent) [0]
    ⟨[[0x00000000, 0xFFFFFFFF, 0xFF0000FF, 0x000000FF]], [0]⟩ hrun).2 0
    [0x00000000, 0xFFFFFFFF, 0xFF0000FF, 0x000000FF] rfl
  exact ⟨hrun, by decide, by decide, by decide, h.1, h.2.1 0x00000000 (by decide)⟩

/-- The luminance computed in `float` is not always the exact truncated sum: for the colour
`(12, 122, 7)` the exact sum is `76.0` and the `float` sum is just below it. -/
theorem lum_float_below_exact : lum 0x0C7A07FF = 75 ∧ lumExact 0x0C7A07FF = 76 := by
  decide

/-! ## C21: first-fit palette assignment -/

set_option maxRecDepth 1000000 in
/-- C21 at a failing input. On `imgFullThenGreen` (tile height 8) the left band opens the
palette 0 with its four colours. When the right band, whose only colour is green, is
processed, the union of the palette 0 and the colour set of the band has five colours, so no
accumulated palette has a union of at most four colours with the band; the band is assigned
to the palette 0 all the same and no palette is appended: the merged `std::set` has four
elements, as the comparator takes green for the red of the palette. -/
theorem band_imgFullThenGreen :
    main.bands 8 imgFullThenGreen = [(0, 0), (8, 0)]
    ∧ main.band 8 imgFullThenGreen ⟨[], [9, 9]⟩ 0 0
      = .ok ⟨[[0xFFFFFFFF, 0xFF0000FF, 0x0000FFFF, 0x000000FF]], [0, 9]⟩
    ∧ (GetPaletteColors.pixels imgFullThenGreen 8 0 8 8).dedup = [0x008200FF]
    ∧ ([0xFFFFFFFF, 0xFF0000FF, 0x0000FFFF, 0x000000FF]
        ++ (GetPaletteColors.pixels imgFullThenGreen 8 0 8 8).dedup).dedup.length = 5
    ∧ (SetPal.insertAll [0xFFFFFFFF, 0xFF0000FF, 0x0000FFFF, 0x000000FF]
        (GetPaletteColors imgFullThenGreen 8 0 8 8)).length = 4
    ∧ main.band 8 imgFullThenGreen
        ⟨[[0xFFFFFFFF, 0xFF0000FF, 0x0000FFFF, 0x000000FF]], [0, 9]⟩ 8 0
      = .ok ⟨[[0xFFFFFFFF, 0xFF0000FF, 0x0000FFFF, 0x000000FF]], [0, 0]⟩
    ∧ main.cluster 8 imgFullThenGreen [9, 9]
      = .ok ⟨[[0xFFFFFFFF, 0xFF0000FF, 0x0000FFFF, 0x000000FF]], [0, 0]⟩ := by
  have hb : main.bands 8 imgFullThenGreen = [(0, 0), (8, 0)] := by decide
  have h1 : main.band 8 imgFullThenGreen ⟨[], [9, 9]⟩ 0 0
      = .ok ⟨[[0xFFFFFFFF, 0xFF0000FF, 0x0000FFFF, 0x000000FF]], [0, 9]⟩ := by decide
  have hp : (GetPaletteColors.pixels imgFullThenGreen 8 0 8 8).dedup = [0x008200FF] := by
    decide
  have hg : GetPaletteColors imgFullThenGreen 8 0 8 8 = [0x008200FF] := by
    decide
  have h2 : main.band 8 imgFullThenGreen
        ⟨[[0xFFFFFFFF, 0xFF0000FF, 0x0000FFFF, 0x000000FF]], [0, 9]⟩ 8 0
      = .ok ⟨[[0xFFFFFFFF, 0xFF0000FF, 0x0000FFFF, 0x000000FF]], [0, 0]⟩ := by
    unfold main.band
    rw [hg]
    decide
  refine ⟨hb, h1, hp, ?_, ?_, h2, ?_⟩
  · rw [hp]; decide
  · rw [hg]; decide
  · unfold main.cluster
    rw [hb]
    simp only [main.clusterFrom, h1, h2]

/-- The palette search returns the lowest position whose merged set has at most four
colours, and leaves the palettes before it unchanged. -/
theorem findPalette_first_fit (pal : SetPal) : ∀ (ps : List SetPal) (i0 : Nat),
    (∀ k, k < (main.findPalette ps pal i0).2 - i0 → ∀ q, ps[k]? = some q →
        4 < (SetPal.insertAll q pal).length)
    ∧ ((main.findPalette ps pal i0).2 < i0 + ps.length →
        ∃ p, ps[(main.findPalette ps pal i0).2 - i0]? = some p
          ∧ (SetPal.insertAll p pal).length ≤ 4)
    ∧ ((main.findPalette ps pal i0).2 = i0 + ps.length →
        (main.findPalette ps pal i0).1 = ps
        ∧ ∀ q ∈ ps, 4 < (SetPal.insertAll q pal).length) := by
  intro ps
  induction ps with
  | nil =>
    intro i0
    refine ⟨?_, ?_, ?_⟩
    · intro k _ q hq; simp at hq
    · intro h; simp [main.findPalette] at h
    · intro _; exact ⟨rfl, fun q hq => absurd hq (List.not_mem_nil _)⟩
  | cons p ps ih =>
    intro i0
    unfold main.findPalette
    simp only
    by_cases hm : (SetPal.insertAll p pal).length ≤ 4
    · rw [if_pos hm]
      simp only [Nat.sub_self, List.length_cons]
      refine ⟨?_, ?_, ?_⟩
      · intro k hk; omega
      · intro _; exact ⟨p, List.getElem?_cons_zero, hm⟩
      · intro h; omega
    · rw [if_neg hm]
      obtain ⟨h1, h2, h3⟩ := ih (i0 + 1)
      have hge := (findPalette_spec pal ps (i0 + 1)).2.1
      simp only [List.length_cons]
      refine ⟨?_, ?_, ?_⟩
      · intro k hk q hq
        cases k with
        | zero =>
          simp only [List.getElem?_cons_zero, Option.some.injEq] at hq
          rw [← hq]; omega
        | succ k =>
          simp only [List.getElem?_cons_succ] at hq
          exact h1 k (by omega) q hq
      · intro hlt
        obtain ⟨q, hq1, hq2⟩ := h2 (by omega)
        have e : (main.findPalette ps pal (i0 + 1)).2 - i0
            = ((main.findPalette ps pal (i0 + 1)).2 - (i0 + 1)) + 1 := by omega
        exact ⟨q, by rw [e, List.getElem?_cons_succ]; exact hq1, hq2⟩
      · intro heq
        obtain ⟨e1, e2⟩ := h3 (by omega)
        refine ⟨by rw [e1], ?_⟩
        intro q hq
        rcases List.mem_cons.1 hq with h | h
        · rw [h]; omega
        · exact e2 q h

theorem SetPal.ordered_nodup {s : SetPal} (hs : SetPal.Ordered s) : s.Nodup := by
  unfold SetPal.Ordered at hs
  refine List.Pairwise.imp ?_ hs
  intro a b h e
  rw [e, CmpIntColor_self] at h
  exact Bool.noConfusion h

/-- Without colliding colours the merged set holds exactly the colours of the two sets. -/
theorem SetPal.mem_insertAll_iff (s cs : SetPal)
    (hinj : ∀ a ∈ s ++ cs, ∀ b ∈ s ++ cs, colorKey a = colorKey b → a = b) (a : Nat) :
    a ∈ SetPal.insertAll s cs ↔ a ∈ s ∨ a ∈ cs := by
  constructor
  · exact SetPal.mem_foldl_insert cs s
  · intro h
    obtain ⟨k1, k2⟩ := SetPal.foldl_insert_keys cs s
    rcases h with h | h
    · exact k1 a h
    · obtain ⟨d, hd, hk⟩ := k2 a h
      have hd2 : d ∈ s ++ cs := List.mem_append.2 (SetPal.mem_foldl_insert cs s hd)
      have := hinj d hd2 a (List.mem_append_right _ h) hk
      rw [← this]; exact hd

/-- Without colliding colours the size of the merged set is the number of different colours
of the two sets together. -/
theorem SetPal.insertAll_length_exact (s cs : SetPal) (hs : SetPal.Ordered s)
    (hinj : ∀ a ∈ s ++ cs, ∀ b ∈ s ++ cs, colorKey a = colorKey b → a = b) :
    (SetPal.insertAll s cs).length = (s ++ cs).dedup.length := by
  have hnd := SetPal.ordered_nodup (SetPal.ordered_insertAll cs s hs)
  rw [← List.toFinset_card_of_nodup hnd, ← List.card_toFinset]
  congr 1
  ext a
  rw [List.mem_toFinset, List.mem_toFinset, SetPal.mem_insertAll_iff s cs hinj, List.mem_append]

/-- What holds of C21 for every input, with the merged `std::set` in place of the union of
the colour sets: a band that the clustering loop processes without error is assigned, in
`palettes_per_tile`, to a position `i` such that no palette before `i` gives, merged with the
colour set of the band, a set of at most four colours; and either `i` is the position of an
existing palette whose merged set has at most four colours, this palette becomes the merged
set and no palette is added, or no existing palette passes the test, `i` is the number of
palettes, which is not 8 (fewer than 8, by the capacity invariant of the loop), and the colour
set of the band is appended as the new palette `i`.
The merged set is the one that `std::set` builds; for sets without colliding colours its
size is the number of different colours of the palette and the band together. -/
theorem band_first_fit (tile_h : Nat) (image32 : PNGImage) (st st1 : ClusterState) (x y : Nat)
    (hstep : main.band tile_h image32 st x y = .ok st1) :
    (∃ i, st1.palettes_per_tile
          = st.palettes_per_tile.set ((y / tile_h) * (image32.w / 8) + x / 8) i
      ∧ (∀ k < i, ∀ q, st.palettes[k]? = some q →
          4 < (SetPal.insertAll q (GetPaletteColors image32 x y 8 tile_h)).length)
      ∧ ((∃ p, st.palettes[i]? = some p
            ∧ (SetPal.insertAll p (GetPaletteColors image32 x y 8 tile_h)).length ≤ 4
            ∧ st1.palettes.length = st.palettes.length
            ∧ st1.palettes[i]?
                = some (SetPal.insertAll p (GetPaletteColors image32 x y 8 tile_h)))
        ∨ (i = st.palettes.length ∧ st.palettes.length ≠ 8
            ∧ (∀ q ∈ st.palettes,
                4 < (SetPal.insertAll q (GetPaletteColors image32 x y 8 tile_h)).length)
            ∧ st1.palettes = st.palettes ++ [GetPaletteColors image32 x y 8 tile_h])))
    ∧ ∀ q ∈ st.palettes, SetPal.Ordered q →
        (∀ a ∈ q ++ GetPaletteColors image32 x y 8 tile_h,
          ∀ b ∈ q ++ GetPaletteColors image32 x y 8 tile_h, colorKey a = colorKey b → a = b) →
        (SetPal.insertAll q (GetPaletteColors image32 x y 8 tile_h)).length
          = (q ++ GetPaletteColors image32 x y 8 tile_h).dedup.length := by
  refine ⟨?_, fun q _ hq hinj => SetPal.insertAll_length_exact q _ hq hinj⟩
  obtain ⟨s1, _, s3, _, s5, _⟩ :=
    findPalette_spec (GetPaletteColors image32 x y 8 tile_h) st.palettes 0
  obtain ⟨f1, _, f3⟩ :=
    findPalette_first_fit (GetPaletteColors image32 x y 8 tile_h) st.palettes 0
  simp only [Nat.sub_zero, Nat.zero_add] at f1 f3 s3 s5
  unfold main.band at hstep
  simp only at hstep
  split_ifs at hstep with h4 hnf h8
  · rw [s1] at hnf h8
    obtain ⟨e1, e2⟩ := f3 hnf
    refine ⟨_, by rw [← Except.ok.inj hstep], f1, Or.inr ⟨hnf, ?_, e2, ?_⟩⟩
    · exact h8
    · rw [← Except.ok.inj hstep, e1]
  · rw [s1] at hnf
    have hlt : (main.findPalette st.palettes (GetPaletteColors image32 x y 8 tile_h) 0).2
        < st.palettes.length := by omega
    obtain ⟨p, hp1, hp2, hp3⟩ := s5 hlt
    refine ⟨_, by rw [← Except.ok.inj hstep], f1, Or.inl ⟨p, hp1, hp3, ?_, ?_⟩⟩
    · rw [← Except.ok.inj hstep]; exact s1
    · rw [← Except.ok.inj hstep]; exact hp2

set_option maxRecDepth 1000000 in
/-- The first fit at the band of `imgFour`, with the colours 1 to 4, processed when the
palettes are `{5, 6, 7, 8}` and `{1, 2}`: the first palette does not pass the test, the
second does, and the band is assigned to position 1. -/
theorem band_first_fit_witness :
    ∃ st st1 : ClusterState, st = ⟨[[5, 6, 7, 8], [1, 2]], [9]⟩
      ∧ st1 = ⟨[[5, 6, 7, 8], [1, 2, 3, 4]], [1]⟩
      ∧ main.band 8 imgFour st 0 0 = .ok st1
      ∧ ∃ i, st1.palettes_per_tile
            = st.palettes_per_tile.set ((0 / 8) * (imgFour.w / 8) + 0 / 8) i
        ∧ (∀ k < i, ∀ q, st.palettes[k]? = some q →
            4 < (SetPal.insertAll q (GetPaletteColors imgFour 0 0 8 8)).length)
        ∧ ((∃ p, st.palettes[i]? = some p
              ∧ (SetPal.insertAll p (GetPaletteColors imgFour 0 0 8 8)).length ≤ 4
              ∧ st1.palettes.length = st.palettes.length
              ∧ st1.palettes[i]? = some (SetPal.insertAll p (GetPaletteColors imgFour 0 0 8 8)))
          ∨ (i = st.palettes.length ∧ st.palettes.length ≠ 8
              ∧ (∀ q ∈ st.palettes,
                  4 < (SetPal.insertAll q (GetPaletteColors imgFour 0 0 8 8)).length)
              ∧ st1.palettes = st.palettes ++ [GetPaletteColors imgFour 0 0 8 8])) := by
  have hstep : main.band 8 imgFour ⟨[[5, 6, 7, 8], [1, 2]], [9]⟩ 0 0
      = .ok ⟨[[5, 6, 7, 8], [1, 2, 3, 4]], [1]⟩ := by decide
  exact ⟨_, _, rfl, rfl, hstep, (band_first_fit 8 imgFour _ _ 0 0 hstep).1⟩

/-! ## C22: a full palette -/

set_option maxRecDepth 1000000 in
/-- C22 at a failing input. On `imgFullThenGreen` (tile height 8) the left band fills the
palette 0 with its four colours; the right band, whose only colour is green, is then
assigned to this full palette, which is left as it was, although green is not one of its
four colours: the comparator takes green for the red of the palette. -/
theorem cluster_imgFullThenGreen :
    main.cluster 8 imgFullThenGreen [0, 0]
      = .ok ⟨[[0xFFFFFFFF, 0xFF0000FF, 0x0000FFFF, 0x000000FF]], [0, 0]⟩
    ∧ main.band 8 imgFullThenGreen ⟨[[0xFFFFFFFF, 0xFF0000FF, 0x0000FFFF, 0x000000FF]], [0, 0]⟩
        8 0
      = .ok ⟨[[0xFFFFFFFF, 0xFF0000FF, 0x0000FFFF, 0x000000FF]], [0, 0]⟩
    ∧ GetPaletteColors imgFullThenGreen 8 0 8 8 = [0x008200FF]
    ∧ 0x008200FF ∉ [0xFFFFFFFF, 0xFF0000FF, 0x0000FFFF, 0x000000FF] := by
  decide

theorem SetPal.insert_eq_self_of_length : ∀ (s : SetPal) (c : Nat),
    (SetPal.insert s c).length = s.length → SetPal.insert s c = s := by
  intro s
  induction s with
  | nil => intro c h; simp [SetPal.insert] at h
  | cons d ds ih =>
    intro c h
    unfold SetPal.insert at h ⊢
    split_ifs at h ⊢ with h1 h2
    · simp at h
    · simp only [List.length_cons, Nat.add_right_cancel_iff] at h
      rw [ih c h]
    · rfl

/-- A merge that does not grow a set leaves it as it was. -/
theorem SetPal.insertAll_eq_self_of_length : ∀ (cs : List Nat) (s : SetPal),
    (SetPal.insertAll s cs).length = s.length → SetPal.insertAll s cs = s := by
  intro cs
  induction cs with
  | nil => intro s _; rfl
  | cons c cs ih =>
    intro s h
    unfold SetPal.insertAll at h ⊢
    rw [List.foldl_cons] at h ⊢
    have h1 := SetPal.length_le_insert s c
    have h2 := SetPal.length_le_foldl_insert cs (SetPal.insert s c)
    have e := SetPal.insert_eq_self_of_length s c (by omega)
    rw [e] at h ⊢
    exact ih s h

theorem findPalette_unchanged (pal : SetPal) : ∀ (ps : List SetPal) (i0 : Nat),
    (∀ p, ps[(main.findPalette ps pal i0).2 - i0]? = some p → SetPal.insertAll p pal = p) →
    (main.findPalette ps pal i0).1 = ps := by
  intro ps
  induction ps with
  | nil => intro i0 _; rfl
  | cons p ps ih =>
    intro i0 h
    have hge := (findPalette_spec pal ps (i0 + 1)).2.1
    unfold main.findPalette at h ⊢
    simp only at h ⊢
    by_cases hm : (SetPal.insertAll p pal).length ≤ 4
    · rw [if_pos hm] at h ⊢
      simp only [Nat.sub_self, List.getElem?_cons_zero, Option.some.injEq] at h
      rw [h p rfl]
      simp
    · rw [if_neg hm] at h ⊢
      simp only at h ⊢
      rw [ih (i0 + 1) (by
        intro q hq
        apply h q
        rw [show (main.findPalette ps pal (i0 + 1)).2 - i0
            = ((main.findPalette ps pal (i0 + 1)).2 - (i0 + 1)) + 1 by omega,
          List.getElem?_cons_succ]
        exact hq)]

/-- What holds of C22 for every input: when the palette that a band is assigned to holds
four colours already, no palette is changed by the band, and every colour of the band has,
in this palette, a colour of the same alpha and luminance. -/
theorem band_full_palette (tile_h : Nat) (image32 : PNGImage) (st st1 : ClusterState)
    (x y : Nat) (p : SetPal) (hstep : main.band tile_h image32 st x y = .ok st1)
    (hp : st.palettes[(main.findPalette st.palettes
      (GetPaletteColors image32 x y 8 tile_h) 0).2]? = some p)
    (hfull : p.length = 4) :
    st1.palettes = st.palettes
    ∧ ∀ c ∈ GetPaletteColors image32 x y 8 tile_h, ∃ d ∈ p, colorKey d = colorKey c := by
  obtain ⟨s1, _, _, _, s5, _⟩ :=
    findPalette_spec (GetPaletteColors image32 x y 8 tile_h) st.palettes 0
  simp only [Nat.sub_zero, Nat.zero_add] at s5
  have hlt : (main.findPalette st.palettes (GetPaletteColors image32 x y 8 tile_h) 0).2
      < st.palettes.length := by
    by_contra hc
    rw [List.getElem?_eq_none (by omega)] at hp
    exact Option.noConfusion hp
  obtain ⟨q, hq1, _, hq3⟩ := s5 hlt
  rw [hp] at hq1
  have hqp : p = q := Option.some.inj hq1
  subst hqp
  have hmerged : SetPal.insertAll p (GetPaletteColors image32 x y 8 tile_h) = p :=
    SetPal.insertAll_eq_self_of_length _ p (by
      have := SetPal.length_le_foldl_insert (GetPaletteColors image32 x y 8 tile_h) p
      unfold SetPal.insertAll at hq3 ⊢
      omega)
  have hun := findPalette_unchanged (GetPaletteColors image32 x y 8 tile_h) st.palettes 0 (by
    intro q hq
    rw [Nat.sub_zero, hp] at hq
    rw [← Option.some.inj hq]; exact hmerged)
  refine ⟨?_, ?_⟩
  · unfold main.band at hstep
    simp only at hstep
    split_ifs at hstep with h4 hnf h8
    · rw [s1] at hnf; omega
    · rw [← Except.ok.inj hstep]; exact hun
  · intro c hc
    obtain ⟨d, hd, hk⟩ := insertAll_key (p := p) hc
    rw [hmerged] at hd
    exact ⟨d, hd, hk⟩

/-! ## C23: the warning of `GetPaletteColors` -/

set_option maxRecDepth 1000000 in
/-- C23 at a failing input. The band of `imgTwoTransparent` has two different colours of
alpha 128, `(255, 0, 0, 128)` and `(0, 130, 0, 128)`; they have the same luminance, the set
keeps the first one only, and no warning is printed. -/
theorem warnings_imgTwoTransparent :
    0xFF000080 ∈ GetPaletteColors.pixels imgTwoTransparent 0 0 8 8
    ∧ 0x00820080 ∈ GetPaletteColors.pixels imgTwoTransparent 0 0 8 8
    ∧ colorByte 0xFF000080 0 = 128 ∧ colorByte 0x00820080 0 = 128
    ∧ GetPaletteColors imgTwoTransparent 0 0 8 8 = [0xFF000080]
    ∧ GetPaletteColors.warnings (GetPaletteColors imgTwoTransparent 0 0 8 8) = 0 := by
  decide

theorem and_255_eq_colorByte (c : Nat) : (0xFF &&& c) = colorByte c 0 := by
  unfold colorByte
  rw [Nat.and_comm, Nat.mul_zero, Nat.shiftRight_zero]
  exact Nat.and_pow_two_sub_one_eq_mod c 8

/-- In an ordered set a warning is printed exactly when two different elements of the set
have an alpha other than `0xFF`. -/
theorem warnings_pos_iff {s : SetPal} (hs : SetPal.Ordered s) :
    0 < GetPaletteColors.warnings s
      ↔ ∃ c ∈ s, ∃ d ∈ s, c ≠ d ∧ colorByte c 0 ≠ 0xFF ∧ colorByte d 0 ≠ 0xFF := by
  unfold GetPaletteColors.warnings
  rw [List.countP_pos_iff]
  simp only [and_255_eq_colorByte, decide_eq_true_eq]
  cases s with
  | nil => simp
  | cons e es =>
    have hnd := SetPal.ordered_nodup hs
    unfold SetPal.Ordered at hs
    rw [List.pairwise_cons] at hs
    rw [List.nodup_cons] at hnd
    simp only [List.drop_succ_cons, List.drop_zero]
    constructor
    · rintro ⟨d, hd, hda⟩
      have hcmp := hs.1 d hd
      rw [CmpIntColor_iff] at hcmp
      have hlt : colorByte d 0 < 256 := Nat.mod_lt _ (by decide)
      refine ⟨e, List.mem_cons_self _ _, d, List.mem_cons_of_mem _ hd, ?_, by omega, hda⟩
      intro h
      rw [h] at hnd
      exact hnd.1 hd
    · rintro ⟨c, hc, d, hd, hne, hca, hda⟩
      rcases List.mem_cons.1 hc with h1 | h1
      · rcases List.mem_cons.1 hd with h2 | h2
        · exact absurd (h1.trans h2.symm) hne
        · exact ⟨d, h2, hda⟩
      · exact ⟨c, h1, hca⟩

/-- What holds of C23 for every input: a warning means that the rectangle has two different
colours of alpha below `0xFF`; and two such colours raise a warning when no two different
colours of the rectangle have the same alpha and the same luminance. -/
theorem warnings_two_transparent (image : PNGImage) (x y w h : Nat) :
    (0 < GetPaletteColors.warnings (GetPaletteColors image x y w h) →
      ∃ c ∈ GetPaletteColors.pixels image x y w h, ∃ d ∈ GetPaletteColors.pixels image x y w h,
        c ≠ d ∧ colorByte c 0 < 0xFF ∧ colorByte d 0 < 0xFF)
    ∧ ((∀ a ∈ GetPaletteColors.pixels image x y w h, ∀ b ∈ GetPaletteColors.pixels image x y w h,
          colorKey a = colorKey b → a = b) →
        (∃ c ∈ GetPaletteColors.pixels image x y w h, ∃ d ∈ GetPaletteColors.pixels image x y w h,
          c ≠ d ∧ colorByte c 0 < 0xFF ∧ colorByte d 0 < 0xFF) →
        0 < GetPaletteColors.warnings (GetPaletteColors image x y w h)) := by
  have hord := GetPaletteColors_ordered image x y w h
  have hlt : ∀ c, colorByte c 0 < 256 := fun c => Nat.mod_lt _ (by decide)
  constructor
  · intro hw
    obtain ⟨c, hc, d, hd, hne, hca, hda⟩ := (warnings_pos_iff hord).1 hw
    have h1 := hlt c
    have h2 := hlt d
    exact ⟨c, GetPaletteColors_mem_pixels hc, d, GetPaletteColors_mem_pixels hd, hne,
      by omega, by omega⟩
  · rintro hinj ⟨c, hc, d, hd, hne, hca, hda⟩
    have hmem : ∀ a ∈ GetPaletteColors.pixels image x y w h,
        a ∈ GetPaletteColors image x y w h := by
      intro a ha
      obtain ⟨e, he, hk⟩ := GetPaletteColors_key ha
      rw [← hinj e (GetPaletteColors_mem_pixels he) a ha hk]
      exact he
    exact (warnings_pos_iff hord).2 ⟨c, hmem c hc, d, hmem d hd, hne, by omega, by omega⟩

/-! ## C24: the fourth comparison of the mirror search -/

/-- C24: for every tile of an even number of bytes, the tile of the fourth comparison of
`FindTile`, `FlipV (FlipH (FlipV t))`, is `FlipH t`; `FlipH` and `FlipV` are involutions,
commute, and keep the number of bytes and the palette id; and when the first three
comparisons of the mirror search fail, `FindTile` returns the first position of `FlipH t`
with the mirror bit `0x40`, or false when `FlipH t` is not in the library. -/
theorem fourth_comparison_is_FlipH (cfg : Config) (tiles : List Tile) (t : Tile)
    (hlen : t.data.length % 2 = 0) (hbytes : t.bytes) :
    FlipV (FlipH (FlipV t)) = FlipH t
    ∧ FlipH (FlipH t) = t ∧ FlipV (FlipV t) = t
    ∧ FlipH (FlipV t) = FlipV (FlipH t)
    ∧ (FlipH t).data.length = t.data.length ∧ (FlipV t).data.length = t.data.length
    ∧ (FlipH t).pal = t.pal ∧ (FlipV t).pal = t.pal
    ∧ (cfg.flip_tiles = true → t ∉ tiles → FlipV t ∉ tiles → FlipH (FlipV t) ∉ tiles →
        (FlipH t ∈ tiles → FindTile cfg tiles t
          = some (find tiles (FlipH t) % 256, (cfg.props_default ||| 0x40) % 256))
        ∧ (FlipH t ∉ tiles → FindTile cfg tiles t = none)) := by
  have hH : t.data.length = 2 * (t.data.length / 2) := by omega
  have hs : t.shaped (t.data.length / 2) := ⟨hH, hbytes⟩
  have e4 := FlipV_FlipH_FlipV hs
  refine ⟨e4, FlipH_FlipH t _ hH, FlipV_FlipV t hbytes, FlipH_FlipV_comm t _ hH,
    by rw [FlipH_length t _ hH, ← hH], FlipV_length t, rfl, rfl, ?_⟩
  intro hflip h1 h2 h3
  obtain ⟨_, _, _, c4, c5⟩ := FindTile_flip_cases cfg tiles t hflip
  rw [e4] at c4 c5
  exact ⟨fun h => c4 h1 h2 h3 h, fun h => c5 h1 h2 h3 h⟩

/-- Witness of C24: the tile `tileCorner`, whose four mirror images are different. -/
theorem fourth_comparison_is_FlipH_witness :
    tileCorner.data.length % 2 = 0 ∧ tileCorner.bytes
    ∧ FlipH tileCorner ≠ tileCorner ∧ FlipV tileCorner ≠ tileCorner
    ∧ FlipV (FlipH (FlipV tileCorner)) = FlipH tileCorner :=
  ⟨by decide, by decide, by decide, by decide,
    (fourth_comparison_is_FlipH cfgSprite8 [] tileCorner (by decide) (by decide)).1⟩

/-! ## C25: the two transforms as mirror axes of the encoder -/

theorem byte_eq_of_bits (a b : Nat) (ha : a < 256) (hb : b < 256)
    (h : ∀ k < 8, BIT a k = BIT b k) : a = b := by
  apply Nat.eq_of_testBit_eq
  intro k
  by_cases hk : k < 8
  · have := h k hk
    rw [BIT_eq_toNat, BIT_eq_toNat] at this
    cases h1 : a.testBit k <;> cases h2 : b.testBit k <;> simp [h1, h2] at this <;> rfl
  · have h256 : 256 ≤ 2 ^ k :=
      calc 256 = 2 ^ 8 := rfl
        _ ≤ 2 ^ k := Nat.pow_le_pow_right (by decide) (by omega)
    rw [Nat.testBit_lt_two_pow (lt_of_lt_of_le ha h256),
      Nat.testBit_lt_two_pow (lt_of_lt_of_le hb h256)]

theorem rows_getElem? (img : PNGImage) (x y n : Nat) (data : List Nat) (j : Nat) (hj : j < n)
    (hlen : 2 * n ≤ data.length) :
    (PNGImage.ExtractGBTile.rows img x y n data).1[2 * j]?
        = some (PNGImage.ExtractGBTile.row img x y j).1
      ∧ (PNGImage.ExtractGBTile.rows img x y n data).1[2 * j + 1]?
        = some (PNGImage.ExtractGBTile.row img x y j).2 := by
  obtain ⟨h1, h2⟩ := rows_getD img x y n data j hj hlen
  have hl := rows_length img x y n data
  have key : ∀ (l : List Nat) (i : Nat), i < l.length → l[i]? = some (l.getD i 0) := by
    intro l i hi
    rw [List.getD_eq_getElem?_getD, List.getElem?_eq_getElem hi]
    rfl
  rw [key _ _ (by omega), key _ _ (by omega), h1, h2]
  exact ⟨rfl, rfl⟩

/-- The bytes of a row whose pixels are those of another row in reverse order are the
bit-reversed bytes of that row. -/
theorem row_columns_reversed (img img2 : PNGImage) (x y x2 y2 j j2 : Nat)
    (h : ∀ i < 8, img2.GetGBColor (x2 + i) (y2 + j2) = img.GetGBColor (x + (7 - i)) (y + j)) :
    (PNGImage.ExtractGBTile.row img2 x2 y2 j2).1
        = FlipV.byte (PNGImage.ExtractGBTile.row img x y j).1
      ∧ (PNGImage.ExtractGBTile.row img2 x2 y2 j2).2
        = FlipV.byte (PNGImage.ExtractGBTile.row img x y j).2 := by
  obtain ⟨l1, l2⟩ := row_lt img2 x2 y2 j2
  constructor
  · apply byte_eq_of_bits _ _ l1 (FlipV_byte_lt _)
    intro k hk
    have a := (row_bits img2 x2 y2 j2 (7 - k) (by omega)).1
    have b := (row_bits img x y j k hk).1
    rw [show 7 - (7 - k) = k by omega, h (7 - k) (by omega), show 7 - (7 - k) = k by omega] at a
    rw [a, ← b]
    exact BIT_eq_of_testBit (FlipV_byte_testBit _ k hk).symm
  · apply byte_eq_of_bits _ _ l2 (FlipV_byte_lt _)
    intro k hk
    have a := (row_bits img2 x2 y2 j2 (7 - k) (by omega)).2
    have b := (row_bits img x y j k hk).2
    rw [show 7 - (7 - k) = k by omega, h (7 - k) (by omega), show 7 - (7 - k) = k by omega] at a
    rw [a, ← b]
    exact BIT_eq_of_testBit (FlipV_byte_testBit _ k hk).symm

/-- The bytes of a row depend on the colour indices of its eight pixels only. -/
theorem row_congr (img img2 : PNGImage) (x y x2 y2 j j2 : Nat)
    (h : ∀ i < 8, img2.GetGBColor (x2 + i) (y2 + j2) = img.GetGBColor (x + i) (y + j)) :
    PNGImage.ExtractGBTile.row img2 x2 y2 j2 = PNGImage.ExtractGBTile.row img x y j := by
  obtain ⟨l1, l2⟩ := row_lt img2 x2 y2 j2
  obtain ⟨m1, m2⟩ := row_lt img x y j
  refine Prod.ext ?_ ?_
  · apply byte_eq_of_bits _ _ l1 m1
    intro k hk
    have a := (row_bits img2 x2 y2 j2 (7 - k) (by omega)).1
    have b := (row_bits img x y j (7 - k) (by omega)).1
    rw [show 7 - (7 - k) = k by omega] at a b
    rw [a, b, h (7 - k) (by omega)]
  · apply byte_eq_of_bits _ _ l2 m2
    intro k hk
    have a := (row_bits img2 x2 y2 j2 (7 - k) (by omega)).2
    have b := (row_bits img x y j (7 - k) (by omega)).2
    rw [show 7 - (7 - k) = k by omega] at a b
    rw [a, b, h (7 - k) (by omega)]
/-- C25: take the tile that `ExtractGBTile` writes for an 8 x H block. The tile written for
a block that has the colour indices of the first one with the columns reversed (the pixel of
column `i` is that of column `7 - i`) has the bytes of `FlipV` of the first tile, every byte
bit-reversed; the tile written for a block that has the colour indices of the first one with
the rows reversed (row `j` is row `H - 1 - j`) has the bytes of `FlipH` of the first tile,
the pairs of row bytes in reverse order. The tiles are equal, palette id included, when the
two blocks get the same palette id, as blocks of 2-bit indices do. -/
theorem transforms_are_mirror_axes (cfg : Config) (img : PNGImage) (x y H : Nat) (tile : Tile)
    (hlen : tile.data.length = 2 * H) :
    (∀ (img2 : PNGImage) (x2 y2 : Nat) (tile2 : Tile), tile2.data.length = 2 * H →
      (∀ j < H, ∀ i < 8, img2.data.getD (img2.w * (y2 + j) + (x2 + i)) 0 % 4
        = img.data.getD (img.w * (y + j) + (x + (7 - i))) 0 % 4) →
      (img2.ExtractGBTile cfg x2 y2 H tile2).2.data
          = (FlipV (img.ExtractGBTile cfg x y H tile).2).data
        ∧ ((img2.ExtractGBTile cfg x2 y2 H tile2).2.pal = (img.ExtractGBTile cfg x y H tile).2.pal →
          (img2.ExtractGBTile cfg x2 y2 H tile2).2 = FlipV (img.ExtractGBTile cfg x y H tile).2))
    ∧ (∀ (img3 : PNGImage) (x3 y3 : Nat) (tile3 : Tile), tile3.data.length = 2 * H →
      (∀ j < H, ∀ i < 8, img3.data.getD (img3.w * (y3 + j) + (x3 + i)) 0 % 4
        = img.data.getD (img.w * (y + (H - 1 - j)) + (x + i)) 0 % 4) →
      (img3.ExtractGBTile cfg x3 y3 H tile3).2.data
          = (FlipH (img.ExtractGBTile cfg x y H tile).2).data
        ∧ ((img3.ExtractGBTile cfg x3 y3 H tile3).2.pal = (img.ExtractGBTile cfg x y H tile).2.pal →
          (img3.ExtractGBTile cfg x3 y3 H tile3).2 = FlipH (img.ExtractGBTile cfg x y H tile).2))
    ∧ (∀ (img4 : PNGImage) (x4 y4 : Nat) (tile4 : Tile),
        img4.data.getD (img4.w * y4 + x4) 0 < 4 → img.data.getD (img.w * y + x) 0 < 4 →
        (img4.ExtractGBTile cfg x4 y4 H tile4).2.pal = (img.ExtractGBTile cfg x y H tile).2.pal) := by
  have hE : (img.ExtractGBTile cfg x y H tile).2.data.length = 2 * H := by
    simp [PNGImage.ExtractGBTile, rows_length, hlen]
  refine ⟨?_, ?_, ?_⟩
  · intro img2 x2 y2 tile2 hlen2 hcol
    have hdata : (img2.ExtractGBTile cfg x2 y2 H tile2).2.data
        = (FlipV (img.ExtractGBTile cfg x y H tile).2).data := by
      apply list_ext_pairs _ _ H (by simp [PNGImage.ExtractGBTile, rows_length, hlen2])
        (by rw [FlipV_length, hE])
      intro k hk
      obtain ⟨a1, a2⟩ := rows_getElem? img2 x2 y2 H tile2.data k hk (by omega)
      obtain ⟨b1, b2⟩ := rows_getElem? img x y H tile.data k hk (by omega)
      obtain ⟨r1, r2⟩ := row_columns_reversed img img2 x y x2 y2 k k (fun i hi => hcol k hk i hi)
      rw [FlipV_getElem?, FlipV_getElem?]
      simp only [PNGImage.ExtractGBTile]
      rw [a1, a2, b1, b2, r1, r2]
      exact ⟨rfl, rfl⟩
    exact ⟨hdata, fun hp => Tile.ext_data_pal hdata (by rw [FlipV_pal]; exact hp)⟩
  · intro img3 x3 y3 tile3 hlen3 hrow
    have hdata : (img3.ExtractGBTile cfg x3 y3 H tile3).2.data
        = (FlipH (img.ExtractGBTile cfg x y H tile).2).data := by
      apply list_ext_pairs _ _ H (by simp [PNGImage.ExtractGBTile, rows_length, hlen3])
        (FlipH_length _ H hE)
      intro k hk
      obtain ⟨a1, a2⟩ := rows_getElem? img3 x3 y3 H tile3.data k hk (by omega)
      obtain ⟨b1, b2⟩ := rows_getElem? img x y H tile.data (H - 1 - k) (by omega) (by omega)
      have r := row_congr img img3 x y x3 y3 (H - 1 - k) k (fun i hi => hrow k hk i hi)
      obtain ⟨f1, f2⟩ := FlipH_getElem? (img.ExtractGBTile cfg x y H tile).2 H hE k hk
      rw [f1, f2]
      simp only [PNGImage.ExtractGBTile]
      rw [a1, a2, b1, b2, r]
      exact ⟨rfl, rfl⟩
    exact ⟨hdata, fun hp => Tile.ext_data_pal hdata (by rw [FlipH_pal]; exact hp)⟩
  · intro img4 x4 y4 tile4 h4 h1
    have z : ∀ v : Nat, v < 4 → v >>> 2 = 0 := by
      intro v hv
      rw [Nat.shiftRight_eq_div_pow]
      exact Nat.div_eq_of_lt hv
    simp only [PNGImage.ExtractGBTile]
    rw [z _ h4, z _ h1]

/-- Witness of C25: the 8 x 1 block of `imgRow` and the block of `imgRowReversed`, which has
its columns in reverse order. -/
theorem transforms_are_mirror_axes_witness :
    (Tile.new 2).data.length = 2 * 1
    ∧ (imgRow.ExtractGBTile cfgSprite8 0 0 1 (Tile.new 2)).2.data = [0x55, 0x33]
    ∧ (imgRowReversed.ExtractGBTile cfgSprite8 0 0 1 (Tile.new 2)).2.data = [0xAA, 0xCC]
    ∧ (imgRowReversed.ExtractGBTile cfgSprite8 0 0 1 (Tile.new 2)).2
        = FlipV (imgRow.ExtractGBTile cfgSprite8 0 0 1 (Tile.new 2)).2 :=
  ⟨by decide, by decide, by decide,
    ((transforms_are_mirror_axes cfgSprite8 imgRow 0 0 1 (Tile.new 2) (by decide)).1
      imgRowReversed 0 0 (Tile.new 2) (by decide) (by decide)).2 (by decide)⟩

/-! ## C26: the library holds one representative of each tile -/

theorem resolveTile_nodup (cfg : Config) (tiles : List Tile) (t : Tile) (h : tiles.Nodup) :
    (resolveTile cfg tiles t).1.Nodup := by
  rcases resolveTile_cases cfg tiles t with ⟨i, p, _, hr⟩ | ⟨_, hn, hr⟩
  · rw [hr]; exact h
  · rw [hr]
    simp only
    rw [List.nodup_append]
    refine ⟨h, List.nodup_singleton t, ?_⟩
    intro a ha hb
    rw [List.mem_singleton.1 hb] at ha
    exact hn ha

theorem foldl_resolveTile_nodup (cfg : Config) : ∀ (ts lib : List Tile), lib.Nodup →
    (ts.foldl (fun lib t => (resolveTile cfg lib t).1) lib).Nodup := by
  intro ts
  induction ts with
  | nil => intro lib h; exact h
  | cons t ts ih =>
    intro lib h
    rw [List.foldl_cons]
    exact ih _ (resolveTile_nodup cfg lib t h)

/-- C26: the library built from the empty library by the resolve step, run on any sequence
of tiles with either mirror setting, holds no tile twice; and with mirror matching enabled,
for tiles of `H` rows of two bytes, no entry of the library is equal to an entry at another
position, nor to its `FlipV`, `FlipH` or `FlipH (FlipV ...)` image: the library holds at
most one tile of each mirror class. -/
theorem library_canonical (cfg : Config) (ts : List Tile) :
    (buildLibrary cfg ts).Nodup
    ∧ ∀ H, cfg.flip_tiles = true → (∀ u ∈ ts, u.shaped H) →
        ∀ (i j : Nat) (u w : Tile), i ≠ j →
          (buildLibrary cfg ts)[i]? = some u → (buildLibrary cfg ts)[j]? = some w →
          w ≠ u ∧ w ≠ FlipV u ∧ w ≠ FlipH u ∧ w ≠ FlipH (FlipV u) := by
  refine ⟨foldl_resolveTile_nodup cfg ts [] List.nodup_nil, ?_⟩
  intro H hflip hts i j u w hij hi hj
  obtain ⟨_, hp⟩ := Canonical.buildLibrary hflip ts hts
  have hil : i < (buildLibrary cfg ts).length := by
    by_contra hc
    rw [List.getElem?_eq_none (by omega)] at hi
    exact Option.noConfusion hi
  have hjl : j < (buildLibrary cfg ts).length := by
    by_contra hc
    rw [List.getElem?_eq_none (by omega)] at hj
    exact Option.noConfusion hj
  rw [List.getElem?_eq_getElem hil] at hi
  rw [List.getElem?_eq_getElem hjl] at hj
  have hu := Option.some.inj hi
  have hw := Option.some.inj hj
  have key : ∀ v h, w ≠ mirrorBy v h u := by
    intro v h
    rcases Nat.lt_or_gt_of_ne hij with hlt | hgt
    · have := (List.pairwise_iff_getElem.1 hp) i j hil hjl hlt
      rw [hu, hw] at this
      exact (this v h).1
    · have := (List.pairwise_iff_getElem.1 hp) j i hjl hil hgt
      rw [hu, hw] at this
      exact (this v h).2
  have k00 := key false false
  have k10 := key true false
  have k01 := key false true
  have k11 := key true true
  simp only [mirrorBy, if_true, Bool.false_eq_true, if_false] at k00 k10 k01 k11
  exact ⟨k00, k10, k01, k11⟩

/-- Witness of C26: the library built from `tileCorner`, its `FlipV` image, `tileSecond` and
`tileCorner` again, with mirror matching, holds `tileCorner` and `tileSecond`. -/
theorem library_canonical_witness :
    cfgSprite8.flip_tiles = true
    ∧ (∀ u ∈ [tileCorner, FlipV tileCorner, tileSecond, tileCorner], u.shaped 8)
    ∧ buildLibrary cfgSprite8 [tileCorner, FlipV tileCorner, tileSecond, tileCorner]
        = [tileCorner, tileSecond]
    ∧ (buildLibrary cfgSprite8 [tileCorner, FlipV tileCorner, tileSecond, tileCorner]).Nodup
    ∧ ∀ (i j : Nat) (u w : Tile), i ≠ j →
        (buildLibrary cfgSprite8 [tileCorner, FlipV tileCorner, tileSecond, tileCorner])[i]?
          = some u →
        (buildLibrary cfgSprite8 [tileCorner, FlipV tileCorner, tileSecond, tileCorner])[j]?
          = some w →
        w ≠ u ∧ w ≠ FlipV u ∧ w ≠ FlipH u ∧ w ≠ FlipH (FlipV u) :=
  ⟨by decide, by decide, by decide,
    (library_canonical cfgSprite8 [tileCorner, FlipV tileCorner, tileSecond, tileCorner]).1,
    (library_canonical cfgSprite8 [tileCorner, FlipV tileCorner, tileSecond, tileCorner]).2 8
      (by decide) (by decide)⟩

/-! ## C27: rebuilding the blocks from the map and the library -/

set_option maxRecDepth 100000 in
/-- C27 at a failing input. In map mode without the attribute array and with mirror matching
(the default), the second block of `imgMirrorBlocks` is the first one with its columns
reversed: its tile is `FlipV` of the tile of the first block, the mirror search finds that
tile, the map holds the index 0 for both cells, and the mirror bits are not stored anywhere.
The library tile at `map[1]` is not the tile of the second block. -/
theorem mainMap_imgMirrorBlocks :
    (imgMirrorBlocks.ExtractGBTile cfgMap 0 0 8 (Tile.new (8 * 2))).2 = tileCorner
    ∧ (imgMirrorBlocks.ExtractGBTile cfgMap 8 0 8 (Tile.new (8 * 2))).2 = FlipV tileCorner
    ∧ FlipV tileCorner ≠ tileCorner
    ∧ mainMap cfgMap imgMirrorBlocks [7, 7] [] = ⟨[tileCorner], [0, 0], none⟩
    ∧ resolveTile cfgMap [tileCorner] (FlipV tileCorner) = ([tileCorner], 0, 0x20)
    ∧ [tileCorner][([0, 0] : List Nat).getD 1 0]?
        ≠ some (imgMirrorBlocks.ExtractGBTile cfgMap 8 0 8 (Tile.new (8 * 2))).2 := by
  decide

/-- A hit of `FindTile` names a library tile that is the candidate or one of its three
mirror images, the candidate itself without mirror matching. -/
theorem FindTile_some_mirror (cfg : Config) (tiles : List Tile) (t : Tile) (i p : Nat)
    (h : FindTile cfg tiles t = some (i, p)) :
    ∃ u, u ∈ tiles ∧ i = find tiles u % 256
      ∧ (u = t ∨ u = FlipV t ∨ u = FlipH (FlipV t) ∨ u = FlipV (FlipH (FlipV t)))
      ∧ (cfg.flip_tiles = false → u = t) := by
  have hmem : ∀ u, find tiles u ≠ tiles.length → u ∈ tiles := by
    intro u hu
    by_contra hc
    exact hu ((find_eq_length_iff _ _).2 hc)
  unfold FindTile at h
  simp only at h
  split_ifs at h with h1 h2 h3 h4 h5
  · exact ⟨t, hmem _ h1, (congrArg Prod.fst (Option.some.inj h)).symm, Or.inl rfl, fun _ => rfl⟩
  · exact ⟨FlipV t, hmem _ h3, (congrArg Prod.fst (Option.some.inj h)).symm,
      Or.inr (Or.inl rfl), fun hf => by rw [hf] at h2; exact absurd h2 (by decide)⟩
  · exact ⟨FlipH (FlipV t), hmem _ h4, (congrArg Prod.fst (Option.some.inj h)).symm,
      Or.inr (Or.inr (Or.inl rfl)), fun hf => by rw [hf] at h2; exact absurd h2 (by decide)⟩
  · exact ⟨FlipV (FlipH (FlipV t)), hmem _ h5, (congrArg Prod.fst (Option.some.inj h)).symm,
      Or.inr (Or.inr (Or.inr rfl)), fun hf => by rw [hf] at h2; exact absurd h2 (by decide)⟩

/-- The tile at the index returned by the resolve step, when the new library has at most 256
tiles: the candidate or one of its mirror images, the candidate itself without mirror
matching. -/
theorem resolveTile_tile (cfg : Config) (tiles : List Tile) (t : Tile)
    (h256 : (resolveTile cfg tiles t).1.length ≤ 256) :
    ∃ u, (resolveTile cfg tiles t).1[(resolveTile cfg tiles t).2.1]? = some u
      ∧ (u = t ∨ u = FlipV t ∨ u = FlipH (FlipV t) ∨ u = FlipV (FlipH (FlipV t)))
      ∧ (cfg.flip_tiles = false → u = t) := by
  have key : ∃ u, u ∈ (resolveTile cfg tiles t).1
      ∧ (resolveTile cfg tiles t).2.1 = find (resolveTile cfg tiles t).1 u % 256
      ∧ (u = t ∨ u = FlipV t ∨ u = FlipH (FlipV t) ∨ u = FlipV (FlipH (FlipV t)))
      ∧ (cfg.flip_tiles = false → u = t) := by
    rcases resolveTile_cases cfg tiles t with ⟨i, p, hf, hr⟩ | ⟨_, hn, hr⟩
    · obtain ⟨u, h1, h2, h3, h4⟩ := FindTile_some_mirror cfg tiles t i p hf
      rw [hr]
      exact ⟨u, h1, h2, h3, h4⟩
    · rw [hr]
      refine ⟨t, List.mem_append_right _ (List.mem_singleton_self t), ?_, Or.inl rfl,
        fun _ => rfl⟩
      simp only
      rw [find_append_self hn]
  obtain ⟨u, h1, h2, h3, h4⟩ := key
  have hlt := find_lt_of_mem h1
  rw [Nat.mod_eq_of_lt (by omega)] at h2
  rw [h2]
  exact ⟨u, (find_isFirstPos _ u h1).1, h3, h4⟩

/-- What holds of C27 for every input: for an image whose width and height are multiples of
8 and whose final library has at most 256 tiles, the library tile at the map entry of a cell
is the tile that `ExtractGBTile` writes for the block of the cell or one of its three mirror
images; without mirror matching it is that tile itself, bytes and palette id. -/
theorem GetMap_tile_mirror (cfg : Config) (img : PNGImage) (m0 a0 : List Nat) (W Hc : Nat)
    (hw : img.w = 8 * W) (hh : img.h = 8 * Hc) (hm0 : m0.length = (img.w * img.h) / 64)
    (h256 : (mainMap cfg img m0 a0).tiles.length ≤ 256) :
    ∀ r < img.h / 8, ∀ c < img.w / 8, ∀ t,
      t = (img.ExtractGBTile cfg (8 * c) (8 * r) 8 (Tile.new (8 * 2))).2 →
      ∃ idx u, (mainMap cfg img m0 a0).map[r * (img.w / 8) + c]? = some idx
        ∧ (mainMap cfg img m0 a0).tiles[idx]? = some u
        ∧ (u = t ∨ u = FlipV t ∨ u = FlipH (FlipV t) ∨ u = FlipV (FlipH (FlipV t)))
        ∧ (cfg.flip_tiles = false → u = t) := by
  have hW : img.w / 8 = W := by omega
  have hH : img.h / 8 = Hc := by omega
  obtain ⟨hclen, hget, hpos⟩ := GetMap_cells_pos img W Hc hw hh
  have hlen64 : (img.w * img.h) / 64 = Hc * W := by
    rw [hw, hh, show 8 * W * (8 * Hc) = Hc * W * 64 by ring]
    exact Nat.mul_div_cancel _ (by decide)
  have hfinal := mainMap_eq_run cfg img m0 a0
  obtain ⟨_, _, km⟩ := GetMap_run_take cfg img
    ⟨[], m0, if cfg.use_map_attributes then some a0 else none⟩ (GetMap.cells img) hpos
    (by simp only; omega) (GetMap.cells img).length (le_refl _)
  rw [List.take_length, ← hfinal] at km
  rw [hW, hH]
  intro r hr c hc t ht
  have hk : r * W + c < (GetMap.cells img).length := by
    rw [hclen]
    calc r * W + c < r * W + W := by omega
      _ = (r + 1) * W := by ring
      _ ≤ Hc * W := Nat.mul_le_mul_right _ hr
  obtain ⟨cell, h1, h2, _⟩ := km (r * W + c) hk
  have hcell : cell = (8 * c, 8 * r) := by
    have := hget r hr c hc
    rw [h1] at this
    exact Option.some.inj this
  subst hcell
  simp only at h2
  have hc2 : (GetMap.cells img)[r * W + c]? = some (GetMap.cells img)[r * W + c] :=
    List.getElem?_eq_getElem hk
  have hcelleq : (GetMap.cells img)[r * W + c] = (8 * c, 8 * r) := by
    rw [hc2] at h1; exact Option.some.inj h1
  have htake : (GetMap.cells img).take (r * W + c + 1)
      = (GetMap.cells img).take (r * W + c) ++ [(8 * c, 8 * r)] := by
    rw [List.take_succ, hc2, hcelleq]; rfl
  have hpre := GetMap_run_take_prefix cfg img
    ⟨[], m0, if cfg.use_map_attributes then some a0 else none⟩ (GetMap.cells img)
    (r * W + c + 1)
  rw [htake, GetMap_run_snoc, GetMap_cell_tiles, ← hfinal] at hpre
  simp only at hpre
  rw [← ht] at hpre h2
  obtain ⟨u, hu1, hu2, hu3⟩ := resolveTile_tile cfg
    (GetMap.run cfg img ⟨[], m0, if cfg.use_map_attributes then some a0 else none⟩
      ((GetMap.cells img).take (r * W + c))).tiles t (le_trans hpre.length_le h256)
  refine ⟨_, u, h2, ?_, hu2, hu3⟩
  obtain ⟨rest, hrest⟩ := hpre
  have hlt := resolveTile_index_lt cfg
    (GetMap.run cfg img ⟨[], m0, if cfg.use_map_attributes then some a0 else none⟩
      ((GetMap.cells img).take (r * W + c))).tiles t
  rw [← hrest, List.getElem?_append_left hlt]
  exact hu1

end Png2Asset
